import Mathlib

/-!
# Reference-count pruning passes (`ffi/custom_passes.cpp`)

A shallow embedding of the two function passes of `custom_passes.cpp`:

* `RefNormalizePass.runOnFunction`: moves decrefs that stand before the last
  incref of a block to the end of the block;
* `RefPrunePass.runOnFunction`: erases refops on null pointers and
  incref/decref pairs related by dominance and post-dominance.

The host compiler's data structures are modelled as follows.

* A value is either the null pointer constant or any other value, named by a
  number (identity of the value).
* An instruction carries an `id` (the identity of the instruction object, i.e.
  its address), the kind of callee and its first argument.  In a function built
  by the host every instruction has its own `id`.
* A basic block is the list of its non-terminator instructions followed by its
  terminator; the terminator lists the successor blocks by index.
* A function is the list of its blocks; block `0` is the entry block.
-/

namespace RefPrune

/-! ## Data model -/

/-- The first argument of a call: the null pointer constant
(`ConstantPointerNull`) or some other value, named by a number. -/
inductive Value where
  | null : Value
  | ptr (n : Nat) : Value
  deriving DecidableEq, Repr

/-- What the passes can tell about an instruction: a call to `NRT_incref`, a
call to `NRT_decref`, or anything else. -/
inductive Kind where
  | incref : Kind
  | decref : Kind
  | other : Kind
  deriving DecidableEq, Repr

/-- An instruction that is not a terminator.  `id` is the identity of the
instruction object, `arg` is `getArgOperand(0)`. -/
structure Instruction where
  id : Nat
  kind : Kind
  arg : Value
  deriving DecidableEq, Repr

/-- The terminator of a block with its successors (indices of blocks), as
enumerated by `getSuccessor(i)`.  A terminator is never a call, hence never a
refop. -/
structure Terminator where
  id : Nat
  succs : List Nat
  deriving DecidableEq, Repr

/-- A basic block: its instructions in order, then its terminator. -/
structure BasicBlock where
  insts : List Instruction
  term : Terminator
  deriving DecidableEq, Repr

/-- A function is the ordered list of its blocks. -/
abbrev Function := List BasicBlock

instance : Inhabited BasicBlock := ⟨⟨[], ⟨0, []⟩⟩⟩

/-- The block with index `b`; an index outside the function names an empty
block without successors. -/
def blockAt (F : Function) (b : Nat) : BasicBlock :=
  match F.get? b with
  | some bb => bb
  | none => ⟨[], ⟨0, []⟩⟩

/-- Constructor shorthand: `incref(v)` with identity `id`. -/
def mkIncref (id : Nat) (v : Value) : Instruction := ⟨id, Kind.incref, v⟩

/-- Constructor shorthand: `decref(v)` with identity `id`. -/
def mkDecref (id : Nat) (v : Value) : Instruction := ⟨id, Kind.decref, v⟩

/-! ## Recognising refops (lines 43-62) -/

/-- `IsIncRef`: the callee is named `NRT_incref`. -/
def IsIncRef (call_inst : Instruction) : Bool :=
  call_inst.kind == Kind.incref

/-- `IsDecRef`: the callee is named `NRT_decref`. -/
def IsDecRef (call_inst : Instruction) : Bool :=
  call_inst.kind == Kind.decref

/-- `GetRefOpCall`: the instruction itself when it is a call to one of the two
refop functions, `none` (NULL) otherwise. -/
def GetRefOpCall (ii : Instruction) : Option Instruction :=
  if IsIncRef ii || IsDecRef ii then some ii else none

/-! ## RefNormalizePass (lines 67-109) -/

namespace RefNormalizePass

/-- First loop of `runOnFunction` (lines 77-87): the position of the last
incref of the block, `none` when `last_incref` stays NULL.  `pos` is the
position of the head of the list. -/
def lastIncrefPos : List Instruction → Nat → Option Nat → Option Nat
  | [], _, last => last
  | ii :: rest, pos, last =>
    match GetRefOpCall ii with
    | some refop =>
      if IsIncRef refop then lastIncrefPos rest (pos + 1) (some pos)
      else lastIncrefPos rest (pos + 1) last
    | none => lastIncrefPos rest (pos + 1) last

/-- Second loop of `runOnFunction` (lines 93-105), run on the instruction list
of the block itself.  `before` holds the instructions the iterator has passed,
the third argument the instructions from the iterator on (the terminator
follows them).

The loop iterates over the block while it moves instructions inside it.  The
iterator of a block is a pointer to a node of the block's linked list.  When
the current instruction `ii` is a decref before the last incref,
`removeFromParent` unlinks it and `insertBefore(bb.getTerminator())` links it
in again right before the terminator; the iterator still points to `ii`, so
the increment at the end of the iteration moves it to the terminator.  The
terminator is no refop, so that iteration changes nothing, and the next
increment reaches the end of the block.  Hence the loop stops after the first
decref it moves.  The result is the new instruction list and whether an
instruction was moved. -/
def moveLoop (last_incref_pos : Nat) :
    List Instruction → List Instruction → Nat → List Instruction × Bool
  | before, [], _ => (before, false)
  | before, ii :: rest, pos =>
    if pos < last_incref_pos then
      match GetRefOpCall ii with
      | some refop =>
        if IsDecRef refop then (before ++ rest ++ [ii], true)
        else moveLoop last_incref_pos (before ++ [ii]) rest (pos + 1)
      | none => moveLoop last_incref_pos (before ++ [ii]) rest (pos + 1)
    else (before ++ ii :: rest, false)

/-- Body of the loop over the blocks (lines 76-105) for one block. -/
def normalizeBlock (bb : BasicBlock) : BasicBlock × Bool :=
  match lastIncrefPos bb.insts 0 none with
  | none => (bb, false)
  | some last_incref_pos =>
    let r := moveLoop last_incref_pos [] bb.insts 0
    ({ bb with insts := r.1 }, r.2)

/-- `RefNormalizePass::runOnFunction` (lines 73-108): every block is
normalised; the result says whether some block was mutated. -/
def runOnFunction (F : Function) : Function × Bool :=
  (F.map fun bb => (normalizeBlock bb).1, F.any fun bb => (normalizeBlock bb).2)

/-- What the pass is meant to do to one block, in the words of the
specification: when the block has an incref, every decref standing strictly
before the last incref is taken out of its place, and these decrefs are put,
in their original order, right before the terminator. -/
def normalizeBlockSpec (bb : BasicBlock) : BasicBlock :=
  match lastIncrefPos bb.insts 0 none with
  | none => bb
  | some k =>
    { bb with insts :=
        (bb.insts.take k).filter (fun i => !IsDecRef i) ++ bb.insts.drop k ++
          (bb.insts.take k).filter (fun i => IsDecRef i) }

end RefNormalizePass

/-! ## RefPrunePass (lines 111-387) -/

/-- A pointer to a refop call as the pruner keeps it in its lists: the
instruction together with its parent block (`getParent()`). -/
structure RefOp where
  parent : Nat
  inst : Instruction
  deriving DecidableEq, Repr

/-- The dominator tree and the post-dominator tree of the function, as the
pass queries them: `dominates a b` is `domtree.dominates(a, b)` and
`postDominates a b` is `postdomtree.dominates(a, b)`. -/
structure DomOracle where
  dominates : Instruction → Instruction → Bool
  postDominates : Instruction → Instruction → Bool

/-- A pair the pruner erased (what the `DEBUG_PRINT` output of the pass
reports), kept together with the state in which it was matched: the function
and the list of decrefs as they were when the match was made. -/
structure PrunedPair where
  incref : RefOp
  decref : RefOp
  F : Function
  decrefs : List (Option RefOp)
  deriving DecidableEq, Repr

/-- State of the pair matching loop of `RefPrunePass::runOnFunction`: the
function being mutated, `decref_list` (a consumed entry is NULL, here `none`),
the flag `mutated`, and the record of the pairs erased so far. -/
structure PruneState where
  F : Function
  decrefs : List (Option RefOp)
  mutated : Bool
  pruned : List PrunedPair
  deriving DecidableEq, Repr

namespace RefPrunePass

/-- `isNonNullFirstArg` (lines 352-356): the first argument is not the null
pointer constant. -/
def isNonNullFirstArg (call_inst : Instruction) : Bool :=
  call_inst.arg != Value.null

/-- The refops of the instruction list of block `b`, in order. -/
def blockRefOps (b : Nat) (insts : List Instruction) : List RefOp :=
  (insts.filter fun ii => (GetRefOpCall ii).isSome).map fun ii => ⟨b, ii⟩

/-- The refops of the blocks `bbs`, the first of which has index `b`: block
order, then order inside the block (the traversal of lines 133-148). -/
def refOpsFrom : Nat → List BasicBlock → List RefOp
  | _, [] => []
  | b, bb :: rest => blockRefOps b bb.insts ++ refOpsFrom (b + 1) rest

/-- All refops of the function in visit order. -/
def refOps (F : Function) : List RefOp := refOpsFrom 0 F

/-- The list `null_list` of lines 132-148: refops on the null pointer. -/
def nullList (F : Function) : List RefOp :=
  (refOps F).filter fun ci => !isNonNullFirstArg ci.inst

/-- The list `incref_list` of lines 132-148. -/
def increfList (F : Function) : List RefOp :=
  (refOps F).filter fun ci => isNonNullFirstArg ci.inst && IsIncRef ci.inst

/-- The list `decref_list` of lines 132-148. -/
def decrefList (F : Function) : List RefOp :=
  (refOps F).filter fun ci =>
    isNonNullFirstArg ci.inst && !IsIncRef ci.inst && IsDecRef ci.inst

/-- The effect of `ci->eraseFromParent()` on the function, for a refop `ci` of
block `b`: the instruction is taken out of the instruction list of block `b`,
the other blocks stay as they are.  Instructions are told apart by their value
(`id` included); in a function built by the host no block holds two
instructions with one `id`, so exactly one instruction goes. -/
def eraseAt : Nat → Instruction → Function → Function
  | _, _, [] => []
  | 0, ci, bb :: rest => { bb with insts := bb.insts.filter fun ii => ii != ci } :: rest
  | b + 1, ci, bb :: rest => bb :: eraseAt b ci rest

/-- `ci->eraseFromParent()`. -/
def eraseFromParent (ci : RefOp) (F : Function) : Function :=
  eraseAt ci.parent ci.inst F

/-- Lines 151-156: every refop of `null_list` is erased. -/
def eraseNullList (F : Function) : Function :=
  (nullList F).foldl (fun G ci => eraseFromParent ci G) F

/-- The scan of lines 370-379: the block holds a decref (on any pointer). -/
def blockHasDecref (bb : BasicBlock) : Bool :=
  bb.insts.any fun ii =>
    match GetRefOpCall ii with
    | some refop => IsDecRef refop
    | none => false

/-- The loop over the successors in `hasDecrefBetweenGraph` (lines 366-385);
`recurse child` is the recursive call on `child`, which has no result (`none`)
when the recursion does not come back. -/
def succLoop (F : Function) (tail_node : Nat) (recurse : Nat → Option Bool) :
    List Nat → Option Bool
  | [] => some false
  | child :: rest =>
    if child = tail_node then some false
    else if blockHasDecref (blockAt F child) then some true
    else
      match recurse child with
      | none => none
      | some true => some true
      | some false => succLoop F tail_node recurse rest

/-- `hasDecrefBetweenGraph` (lines 361-386).  The function is recursive
without a guard against cycles; `fuel` bounds the depth of the recursion and
the result is `none` when the bound is reached. -/
def hasDecrefBetweenGraph (F : Function) : Nat → Nat → Nat → Option Bool
  | 0, _, _ => none
  | fuel + 1, head_node, tail_node =>
    succLoop F tail_node (fun child => hasDecrefBetweenGraph F fuel child tail_node)
      (blockAt F head_node).term.succs

/-- Puts a decref entry that the inner loop has passed back in front of the
rest of the list when the result of the rest of the loop is known. -/
def keepEntry (x : Option RefOp) :
    Option (Option (RefOp × List (Option RefOp))) →
      Option (Option (RefOp × List (Option RefOp)))
  | none => none
  | some none => some none
  | some (some (d, l)) => some (some (d, x :: l))

/-- The inner loop of lines 163-204 for one incref: it walks `decref_list`
until the first decref that is matched.  The result is `none` when a call of
`hasDecrefBetweenGraph` does not come back, `some none` when the loop ends
without a match, and `some (some (decref, l))` when `decref` is matched, with
`l` the list in which its entry is set to NULL. -/
def innerLoop (fuel : Nat) (O : DomOracle) (F : Function) (incref : RefOp) :
    List (Option RefOp) → Option (Option (RefOp × List (Option RefOp)))
  | [] => some none
  | none :: rest => keepEntry none (innerLoop fuel O F incref rest)
  | some decref :: rest =>
    if incref.inst.arg != decref.inst.arg then
      keepEntry (some decref) (innerLoop fuel O F incref rest)
    else if O.dominates incref.inst decref.inst && O.postDominates decref.inst incref.inst then
      if incref.parent != decref.parent then
        match hasDecrefBetweenGraph F fuel incref.parent decref.parent with
        | none => none
        | some true => keepEntry (some decref) (innerLoop fuel O F incref rest)
        | some false => some (some (decref, none :: rest))
      else some (some (decref, none :: rest))
    else keepEntry (some decref) (innerLoop fuel O F incref rest)

/-- The outer loop of lines 160-205 over `incref_list`.  Every incref is
visited once and is not NULL when it is visited, so the list needs no NULL
entries.  A matched pair is erased from the function at once.  The result is
the state that the loop reaches and whether it came to its end: the flag is
`false` when a call of `hasDecrefBetweenGraph` did not come back, and the state
is then the one in which the pass got stuck. -/
def outerLoop (fuel : Nat) (O : DomOracle) : List RefOp → PruneState → PruneState × Bool
  | [], s => (s, true)
  | incref :: rest, s =>
    match innerLoop fuel O s.F incref s.decrefs with
    | none => (s, false)
    | some none => outerLoop fuel O rest s
    | some (some (decref, l)) =>
      outerLoop fuel O rest
        { F := eraseFromParent decref (eraseFromParent incref s.F)
          decrefs := l
          mutated := true
          pruned := s.pruned ++ [⟨incref, decref, s.F, s.decrefs⟩] }

/-- The state in which the pair matching loop starts (lines 131-156): the null
refops are erased and `mutated` is set when there was one. -/
def initState (F : Function) : PruneState :=
  { F := eraseNullList F
    decrefs := (decrefList F).map some
    mutated := !(nullList F).isEmpty
    pruned := [] }

/-- The pass up to `return mutated` in line 208: the state it reaches, and
whether it reaches line 208. -/
def run (fuel : Nat) (O : DomOracle) (F : Function) : PruneState × Bool :=
  outerLoop fuel O (increfList F) (initState F)

/-- `RefPrunePass::runOnFunction` (lines 117-208): the function it leaves and
the value it returns; `none` when a call of `hasDecrefBetweenGraph` does not
come back within `fuel` nested calls.  The code after line 208 is never
reached. -/
def runOnFunction (fuel : Nat) (O : DomOracle) (F : Function) : Option (Function × Bool) :=
  if (run fuel O F).2 then some ((run fuel O F).1.F, (run fuel O F).1.mutated) else none

end RefPrunePass

/-! ## Control paths, dominance and reference counts -/

/-- The block `b` is a successor of the block `a`. -/
def Edge (F : Function) (a b : Nat) : Prop :=
  b ∈ (blockAt F a).term.succs

/-- A control path: a non-empty list of blocks of the function in which every
block is a successor of the block before it. -/
def IsPath (F : Function) (path : List Nat) : Prop :=
  path ≠ [] ∧ (∀ b ∈ path, b < F.length) ∧ List.Chain' (Edge F) path

/-- An exit block has no successors. -/
def IsExit (F : Function) (b : Nat) : Prop :=
  (blockAt F b).term.succs = []

/-- The path ends in an exit block. -/
def EndsInExit (F : Function) (path : List Nat) : Prop :=
  ∃ e, path.getLast? = some e ∧ IsExit F e

/-- An execution path: a control path from the entry block to an exit block. -/
def IsExecPath (F : Function) (path : List Nat) : Prop :=
  IsPath F path ∧ path.head? = some 0 ∧ EndsInExit F path

/-- Block `a` dominates block `b`: every control path from the entry block to
`b` passes through `a`. -/
def BlockDominates (F : Function) (a b : Nat) : Prop :=
  ∀ path, IsPath F path → path.head? = some 0 → path.getLast? = some b → a ∈ path

/-- Block `a` post-dominates block `b`: every control path from `b` to an exit
block passes through `a`. -/
def BlockPostDominates (F : Function) (a b : Nat) : Prop :=
  ∀ path, IsPath F path → path.head? = some b → EndsInExit F path → a ∈ path

/-- The instruction `x` is the `i`-th instruction of block `b`. -/
def InstAt (F : Function) (b i : Nat) (x : Instruction) : Prop :=
  (blockAt F b).insts.get? i = some x

/-- The oracle answers with the dominance and post-dominance relation of the
control-flow graph of `F`: inside a block an instruction dominates the later
ones and post-dominates the earlier ones, across blocks the relation of the
blocks decides. -/
def TrueOracle (F : Function) (O : DomOracle) : Prop :=
  ∀ a i x b j y, InstAt F a i x → InstAt F b j y →
    (O.dominates x y = true ↔ (a = b ∧ i < j) ∨ (a ≠ b ∧ BlockDominates F a b)) ∧
    (O.postDominates x y = true ↔ (a = b ∧ j < i) ∨ (a ≠ b ∧ BlockPostDominates F a b))

/-- Effect of an instruction list on the reference count of `p`: the number of
increfs of `p` minus the number of decrefs of `p`. -/
def refEffect (p : Value) (insts : List Instruction) : Int :=
  ((insts.filter fun ii => IsIncRef ii && ii.arg == p).length : Int) -
    ((insts.filter fun ii => IsDecRef ii && ii.arg == p).length : Int)

/-- Net effect on the reference count of `p` of the blocks visited along a
path, counted with repetition. -/
def netEffect (F : Function) (p : Value) (path : List Nat) : Int :=
  (path.map fun b => refEffect p (blockAt F b).insts).sum

/-! ## Example functions -/

/-- A function with a loop: block 0 holds `incref(p)` and jumps to block 1;
block 1 holds `decref(p)` and jumps to itself or to the exit block 2. -/
def loopFunction : Function :=
  [⟨[mkIncref 0 (Value.ptr 7)], ⟨10, [1]⟩⟩,
   ⟨[mkDecref 1 (Value.ptr 7)], ⟨11, [1, 2]⟩⟩,
   ⟨[], ⟨12, []⟩⟩]

/-- The dominance relations of `loopFunction` on its two refops: the incref
(id 0) dominates the decref (id 1), and the decref post-dominates the
incref. -/
def loopOracle : DomOracle :=
  ⟨fun x y => x.id == 0 && y.id == 1, fun x y => x.id == 1 && y.id == 0⟩

/-- The function `loopFunction` without its two refops. -/
def loopFunctionPruned : Function :=
  [⟨[], ⟨10, [1]⟩⟩, ⟨[], ⟨11, [1, 2]⟩⟩, ⟨[], ⟨12, []⟩⟩]

/-! ## The matching condition -/

/-- The condition under which the inner loop matches `decref` with `incref`
in the function `F`: identical operand, `dominates(incref, decref)`,
`postDominates(decref, incref)` and, when the parents differ,
`hasDecrefBetweenGraph` on the two parents returns false. -/
def Eligible (fuel : Nat) (O : DomOracle) (F : Function) (incref decref : RefOp) : Prop :=
  incref.inst.arg = decref.inst.arg ∧ O.dominates incref.inst decref.inst = true ∧
    O.postDominates decref.inst incref.inst = true ∧
    (incref.parent ≠ decref.parent →
      RefPrunePass.hasDecrefBetweenGraph F fuel incref.parent decref.parent = some false)

/-- The condition under which the inner loop passes over `decref` (one of the
`continue` branches or the failed dominance test): the operands differ, or the
dominance test fails, or the parents differ and `hasDecrefBetweenGraph`
returns true. -/
def Rejected (fuel : Nat) (O : DomOracle) (F : Function) (incref decref : RefOp) : Prop :=
  incref.inst.arg ≠ decref.inst.arg ∨
    ¬ (O.dominates incref.inst decref.inst = true ∧
        O.postDominates decref.inst incref.inst = true) ∨
    (incref.parent ≠ decref.parent ∧
      RefPrunePass.hasDecrefBetweenGraph F fuel incref.parent decref.parent = some true)

/-- The state after the pair `(incref, decref)` was matched in state `s`, with
`l` the new list of decrefs (lines 191-201). -/
def PruneState.erasePair (s : PruneState) (incref decref : RefOp)
    (l : List (Option RefOp)) : PruneState :=
  { F := RefPrunePass.eraseFromParent decref (RefPrunePass.eraseFromParent incref s.F)
    decrefs := l
    mutated := true
    pruned := s.pruned ++ [⟨incref, decref, s.F, s.decrefs⟩] }

/-- The entry `x` of the list of decrefs stands for the decref `d` of
`decref_list`: it is `d` itself or NULL (consumed). -/
def EntryOf (x : Option RefOp) (d : RefOp) : Prop :=
  x = none ∨ x = some d

/-- The oracle of a function whose instructions are numbered in execution
order along a chain of blocks: an instruction dominates the instructions with
a larger `id` and post-dominates those with a smaller `id`. -/
def orderOracle : DomOracle :=
  ⟨fun x y => x.id < y.id, fun x y => y.id < x.id⟩

/-- A chain of three blocks with a null incref, a pair on `q` inside block 0,
a pair on `p` across the blocks 0 and 2, and a null decref. -/
def sampleFunction : Function :=
  [⟨[mkIncref 0 Value.null, mkIncref 1 (Value.ptr 7), mkIncref 2 (Value.ptr 8),
      mkDecref 3 (Value.ptr 8)], ⟨10, [1]⟩⟩,
   ⟨[⟨4, Kind.other, Value.ptr 7⟩], ⟨11, [2]⟩⟩,
   ⟨[mkDecref 5 (Value.ptr 7), mkDecref 6 Value.null], ⟨12, []⟩⟩]

/-- The function that the pruner leaves of `sampleFunction`. -/
def sampleFunctionPruned : Function :=
  [⟨[], ⟨10, [1]⟩⟩, ⟨[⟨4, Kind.other, Value.ptr 7⟩], ⟨11, [2]⟩⟩, ⟨[], ⟨12, []⟩⟩]

/-- The function `sampleFunction` after its null refops are erased. -/
def sampleFunctionNoNull : Function :=
  [⟨[mkIncref 1 (Value.ptr 7), mkIncref 2 (Value.ptr 8), mkDecref 3 (Value.ptr 8)], ⟨10, [1]⟩⟩,
   ⟨[⟨4, Kind.other, Value.ptr 7⟩], ⟨11, [2]⟩⟩,
   ⟨[mkDecref 5 (Value.ptr 7)], ⟨12, []⟩⟩]

/-- The state in which the pruner ends on `sampleFunction`: first the pair on
`p` (ids 1 and 5) is erased, then the pair on `q` (ids 2 and 3). -/
def sampleFinalState : PruneState :=
  { F := sampleFunctionPruned
    decrefs := [none, none]
    mutated := true
    pruned :=
      [⟨⟨0, mkIncref 1 (Value.ptr 7)⟩, ⟨2, mkDecref 5 (Value.ptr 7)⟩, sampleFunctionNoNull,
          [some ⟨0, mkDecref 3 (Value.ptr 8)⟩, some ⟨2, mkDecref 5 (Value.ptr 7)⟩]⟩,
       ⟨⟨0, mkIncref 2 (Value.ptr 8)⟩, ⟨0, mkDecref 3 (Value.ptr 8)⟩,
          [⟨[mkIncref 2 (Value.ptr 8), mkDecref 3 (Value.ptr 8)], ⟨10, [1]⟩⟩,
           ⟨[⟨4, Kind.other, Value.ptr 7⟩], ⟨11, [2]⟩⟩,
           ⟨[], ⟨12, []⟩⟩],
          [some ⟨0, mkDecref 3 (Value.ptr 8)⟩, none]⟩] }

/-- A chain of three blocks in which the operand of the incref of block 0 and
of the decref of block 2 is the null pointer, and block 1 holds a decref of a
non-null pointer. -/
def nullChain : Function :=
  [⟨[mkIncref 0 Value.null], ⟨10, [1]⟩⟩,
   ⟨[mkDecref 1 (Value.ptr 8)], ⟨11, [2]⟩⟩,
   ⟨[mkDecref 2 Value.null], ⟨12, []⟩⟩]

/-- A chain of three blocks: block 0 holds `incref(p)`, block 1 holds
`decref(q)`, block 2 holds `decref(p)`; `p` and `q` are not null. -/
def unsafeChain : Function :=
  [⟨[mkIncref 0 (Value.ptr 7)], ⟨10, [1]⟩⟩,
   ⟨[mkDecref 1 (Value.ptr 8)], ⟨11, [2]⟩⟩,
   ⟨[mkDecref 2 (Value.ptr 7)], ⟨12, []⟩⟩]

/-- A chain of three blocks in which block 0 holds `incref(p)` followed by a
`decref(p)` of its own, block 1 holds no decref and block 2 holds
`decref(p)`. -/
def greedyChain : Function :=
  [⟨[mkIncref 0 (Value.ptr 7), mkDecref 1 (Value.ptr 7)], ⟨10, [1]⟩⟩,
   ⟨[], ⟨11, [2]⟩⟩,
   ⟨[mkDecref 2 (Value.ptr 7)], ⟨12, []⟩⟩]

/-- A chain of three blocks: block 0 holds `incref(p)`, block 1 holds an
incref of another pointer and no decref, block 2 holds `decref(p)`. -/
def safeChain : Function :=
  [⟨[⟨0, Kind.other, Value.ptr 5⟩, mkIncref 1 (Value.ptr 7)], ⟨10, [1]⟩⟩,
   ⟨[mkIncref 2 (Value.ptr 8)], ⟨11, [2]⟩⟩,
   ⟨[mkDecref 3 (Value.ptr 7), ⟨4, Kind.other, Value.ptr 5⟩], ⟨12, []⟩⟩]

/-- A function with a cycle: block 0 holds `incref(q); incref(p); decref(p)`
and jumps to block 1, block 1 is empty and jumps to itself or to block 2,
block 2 holds `decref(q)` and is the exit. -/
def cyclicFunction : Function :=
  [⟨[mkIncref 0 (Value.ptr 8), mkIncref 1 (Value.ptr 7), mkDecref 2 (Value.ptr 7)], ⟨10, [1]⟩⟩,
   ⟨[], ⟨11, [1, 2]⟩⟩,
   ⟨[mkDecref 3 (Value.ptr 8)], ⟨12, []⟩⟩]

/-- A block with `incref(p)`, an unrelated decref, and then `decref(p)`. -/
def intraBlockFunction : Function :=
  [⟨[mkIncref 0 (Value.ptr 7), mkDecref 1 (Value.ptr 8), mkDecref 2 (Value.ptr 7)], ⟨10, []⟩⟩]

/-- A chain of three blocks: block 0 holds `incref(p); incref(q)`, block 1
holds `decref(q)`, block 2 holds `decref(p)`. -/
def staleChain : Function :=
  [⟨[mkIncref 0 (Value.ptr 7), mkIncref 1 (Value.ptr 8)], ⟨10, [1]⟩⟩,
   ⟨[mkDecref 2 (Value.ptr 8)], ⟨11, [2]⟩⟩,
   ⟨[mkDecref 3 (Value.ptr 7)], ⟨12, []⟩⟩]

/-- What one run of the pruner leaves of `staleChain`: the pair on `q` is
gone, the pair on `p` is still there. -/
def staleChainOnce : Function :=
  [⟨[mkIncref 0 (Value.ptr 7)], ⟨10, [1]⟩⟩,
   ⟨[], ⟨11, [2]⟩⟩,
   ⟨[mkDecref 3 (Value.ptr 7)], ⟨12, []⟩⟩]

/-- What a second run of the pruner leaves of `staleChain`. -/
def staleChainTwice : Function :=
  [⟨[], ⟨10, [1]⟩⟩, ⟨[], ⟨11, [2]⟩⟩, ⟨[], ⟨12, []⟩⟩]

/-! ## Shape of a block, for the normaliser -/

/-- The block holds a decref before its last incref: some decref is followed,
later in the instruction list, by an incref. -/
def DecrefBeforeLastIncref (insts : List Instruction) : Prop :=
  ∃ m k d i, m < k ∧ insts.get? m = some d ∧ IsDecRef d = true ∧
    insts.get? k = some i ∧ IsIncRef i = true

/-- The refops that the pair matching loop has erased so far: the halves of
the recorded pairs. -/
def PruneState.erasedOps (s : PruneState) : List RefOp :=
  s.pruned.map (fun e => e.incref) ++ s.pruned.map (fun e => e.decref)

/-- The whole instruction sequence of a block: its instructions, then its
terminator. -/
def BasicBlock.sequence (bb : BasicBlock) : List (Instruction ⊕ Terminator) :=
  bb.insts.map Sum.inl ++ [Sum.inr bb.term]

/-! ## Reachability, for the cross-block check -/

/-- The successor relation of the function has no cycle: a chain of successor
edges never meets a block twice. -/
def Acyclic (F : Function) : Prop :=
  ∀ path, List.Chain' (Edge F) path → path.Nodup

/-- There is a successor path `head = b0 -> b1 -> ... -> bk` with `k >= 1` on
which none of `b1 .. bk` is `tail` and `bk` holds a decref. -/
def DecrefReachable (F : Function) (head tail : Nat) : Prop :=
  ∃ path bk, 2 ≤ path.length ∧ path.head? = some head ∧ List.Chain' (Edge F) path ∧
    (∀ b ∈ path.tail, b ≠ tail) ∧ path.getLast? = some bk ∧
    RefPrunePass.blockHasDecref (blockAt F bk) = true

/-- A function in the shape of a triangle: block 0 jumps to block 2 or to
block 1, block 1 holds a decref and jumps to block 2, block 2 is the exit.  The
successors of block 0 are enumerated with block 2 first. -/
def triangleFunction : Function :=
  [⟨[], ⟨10, [2, 1]⟩⟩,
   ⟨[mkDecref 0 (Value.ptr 8)], ⟨11, [2]⟩⟩,
   ⟨[], ⟨12, []⟩⟩]

/-- The function `triangleFunction` with the successors of block 0 enumerated
in the other order. -/
def triangleFunctionSwapped : Function :=
  [⟨[], ⟨10, [1, 2]⟩⟩,
   ⟨[mkDecref 0 (Value.ptr 8)], ⟨11, [2]⟩⟩,
   ⟨[], ⟨12, []⟩⟩]

/-! ## Counting refops -/

/-- Number of increfs of `p` in the function. -/
def increfCount (p : Value) (F : Function) : Nat :=
  (F.map fun bb => (bb.insts.filter fun ii => IsIncRef ii && ii.arg == p).length).sum

/-- Number of decrefs of `p` in the function. -/
def decrefCount (p : Value) (F : Function) : Nat :=
  (F.map fun bb => (bb.insts.filter fun ii => IsDecRef ii && ii.arg == p).length).sum

/-- The instructions of the function, each with the block it stands in. -/
def locatedInsts (F : Function) : List RefOp :=
  (List.range F.length).flatMap fun b => (blockAt F b).insts.map fun ii => ⟨b, ii⟩

/-- No block holds an instruction twice: instructions are distinct objects. -/
def WellFormed (F : Function) : Prop :=
  ∀ bb ∈ F, bb.insts.Nodup

/-! ## The fan-out walk and the code after `return mutated` (lines 210-300, 331-345) -/

namespace RefPrunePass

/-- `isRelatedDecref` (lines 331-345): the instruction itself when it is a
call of `NRT_decref` on the operand of `incref`, `none` (NULL) otherwise. -/
def isRelatedDecref (incref ii : Instruction) : Option Instruction :=
  if IsDecRef ii then
    if incref.arg != ii.arg then none else some ii
  else none

/-- `hasDecrefInNode` (lines 293-300): block `bb` holds a decref related to
`incref`. -/
def hasDecrefInNode (F : Function) (incref : Instruction) (bb : Nat) : Bool :=
  (blockAt F bb).insts.any fun ii => (isRelatedDecref incref ii).isSome

/-- `basicBlockInList` (lines 286-291). -/
def basicBlockInList (bb : Nat) (list : List Nat) : Bool :=
  list.any fun each => bb == each

/-- The loop over the successors in `graphWalkhandleFanout` (lines 257-275).
The state is the set `decref_blocks` (a list without repetition) and the flag
`missing`; `recurse child` is the recursive call on `child` with the current
stack. -/
def fanoutLoop (F : Function) (incref : Instruction) (stack : List Nat)
    (recurse : Nat → List Nat) : List Nat → List Nat × Bool → List Nat × Bool
  | [], acc => acc
  | child :: rest, (decref_blocks, missing) =>
    if basicBlockInList child stack then
      fanoutLoop F incref stack recurse rest (decref_blocks, missing)
    else if hasDecrefInNode F incref child then
      fanoutLoop F incref stack recurse rest (decref_blocks.insert child, missing)
    else if (recurse child).length > 0 then
      fanoutLoop F incref stack recurse rest
        ((recurse child).foldl (fun s each => s.insert each) decref_blocks, missing)
    else
      fanoutLoop F incref stack recurse rest (decref_blocks, true)

/-- `graphWalkhandleFanout` (lines 244-283).  For `depth + 1` the decrement of
line 250 leaves `depth`, and the walk gives up when that is not positive; the
stack is passed by value, so every recursive call gets the stack of its caller
with `cur_node` pushed. -/
def graphWalkhandleFanout (F : Function) (incref : Instruction) :
    Nat → List Nat → Nat → List Nat
  | _, _, 0 => []
  | cur_node, stack, depth + 1 =>
    if depth ≤ 0 then []
    else
      let r := fanoutLoop F incref (stack ++ [cur_node])
        (fun child => graphWalkhandleFanout F incref child (stack ++ [cur_node]) depth)
        (blockAt F cur_node).term.succs ([], false)
      if r.2 then [] else r.1

/-- Lines 224-233: the first decref of block `each` that is related to
`incref` is erased. -/
def eraseFirstRelatedDecref (incref : Instruction) (each : Nat) (F : Function) : Function :=
  match (blockAt F each).insts.find? (fun ii => (isRelatedDecref incref ii).isSome) with
  | some decref => eraseFromParent ⟨each, decref⟩ F
  | none => F

/-- The loop of lines 212-240, which stands after `return mutated` and is
never run: for every incref that the pair matching has left, the fan-out walk
from its block with an empty stack and depth 10; when the walk finds blocks,
the first related decref of each of them and the incref are erased.  The
entries of `incref_list` that the pair matching has consumed are NULL. -/
def fanoutPhase : List (Option RefOp) → Function × Bool → Function × Bool
  | [], s => s
  | none :: rest, s => fanoutPhase rest s
  | some incref :: rest, (F, mutated) =>
    if (graphWalkhandleFanout F incref.inst incref.parent [] 10).length > 0 then
      fanoutPhase rest
        (eraseFromParent incref
          ((graphWalkhandleFanout F incref.inst incref.parent [] 10).foldl
            (fun G each => eraseFirstRelatedDecref incref.inst each G) F), true)
    else fanoutPhase rest (F, mutated)

/-- What `runOnFunction` would do if the `return mutated` of line 208 were not
there: the fan-out loop runs on the state that the pair matching has reached,
and the flag is returned in line 241. -/
def runWithFanout (fuel : Nat) (O : DomOracle) (F : Function) : Option (Function × Bool) :=
  if (run fuel O F).2 then
    some (fanoutPhase
      ((increfList F).map fun i =>
        if i ∈ (run fuel O F).1.pruned.map (fun e => e.incref) then none else some i)
      ((run fuel O F).1.F, (run fuel O F).1.mutated))
  else none

end RefPrunePass

/-- A fan-out: block 0 holds `incref(p)` and branches to the blocks 1 and 2,
each of which holds `decref(p)` and is an exit. -/
def fanoutFunction : Function :=
  [⟨[mkIncref 0 (Value.ptr 7)], ⟨10, [1, 2]⟩⟩,
   ⟨[mkDecref 1 (Value.ptr 7)], ⟨11, []⟩⟩,
   ⟨[mkDecref 2 (Value.ptr 7)], ⟨12, []⟩⟩]

/-- The function `fanoutFunction` without its three refops. -/
def fanoutFunctionPruned : Function :=
  [⟨[], ⟨10, [1, 2]⟩⟩, ⟨[], ⟨11, []⟩⟩, ⟨[], ⟨12, []⟩⟩]

/-- The dominance relations of `fanoutFunction` on its refops: the incref
(id 0) dominates both decrefs, and no refop post-dominates another. -/
def fanoutOracle : DomOracle :=
  ⟨fun x y => x.id == 0 && y.id != 0, fun _ _ => false⟩

/-- A fan-out with a loop: block 0 holds `incref(p)` and branches to the
blocks 1 and 2; block 1 is empty and branches back to block 0 or to block 3;
the blocks 2 and 3 hold `decref(p)` and are exits. -/
def fanoutLoopFunction : Function :=
  [⟨[mkIncref 0 (Value.ptr 7)], ⟨10, [1, 2]⟩⟩,
   ⟨[], ⟨11, [0, 3]⟩⟩,
   ⟨[mkDecref 1 (Value.ptr 7)], ⟨12, []⟩⟩,
   ⟨[mkDecref 2 (Value.ptr 7)], ⟨13, []⟩⟩]

/-- A successor path of `fanoutLoopFunction` from block 0 to the exit block 2
that goes five times around the loop before it leaves it. -/
def fanoutLoopPath : List Nat := [0, 1, 0, 1, 0, 1, 0, 1, 0, 1, 0, 2]

/-- A fan-out in which the branching block also holds a decref of its own:
block 0 holds `incref(p); decref(p)` and branches to the blocks 1 and 2, each
of which holds `decref(p)` and is an exit. -/
def fanoutGreedy : Function :=
  [⟨[mkIncref 0 (Value.ptr 7), mkDecref 1 (Value.ptr 7)], ⟨10, [1, 2]⟩⟩,
   ⟨[mkDecref 2 (Value.ptr 7)], ⟨11, []⟩⟩,
   ⟨[mkDecref 3 (Value.ptr 7)], ⟨12, []⟩⟩]

/-- The dominance relations of `fanoutGreedy`: the two instructions of block 0
dominate what comes after them, and only the decref of block 0 post-dominates
another instruction, the incref before it. -/
def fanoutGreedyOracle : DomOracle :=
  ⟨fun x y => (x.id == 0 && y.id != 0) || (x.id == 1 && (y.id == 2 || y.id == 3)),
   fun x y => x.id == 1 && y.id == 0⟩

/-- What the pruner leaves of `fanoutGreedy`: the pair of block 0 is gone. -/
def fanoutGreedyPruned : Function :=
  [⟨[], ⟨10, [1, 2]⟩⟩,
   ⟨[mkDecref 2 (Value.ptr 7)], ⟨11, []⟩⟩,
   ⟨[mkDecref 3 (Value.ptr 7)], ⟨12, []⟩⟩]

/-- The state in which the pair matching loop is when it has gone through the
increfs `pre` of `incref_list`, and whether it got that far. -/
def visitState (fuel : Nat) (O : DomOracle) (F : Function) (pre : List RefOp) :
    PruneState × Bool :=
  RefPrunePass.outerLoop fuel O pre (RefPrunePass.initState F)

/-- The block `incref(p); incref(p); decref(p); decref(p)` with `p` the null
pointer. -/
def nullFourBlock : Function :=
  [⟨[mkIncref 0 Value.null, mkIncref 1 Value.null, mkDecref 2 Value.null,
      mkDecref 3 Value.null], ⟨10, []⟩⟩]

/-- A chain of four blocks: block 0 holds `incref(q); incref(s)`, block 1
holds `incref(p); decref(s)`, block 2 holds `decref(q)`, block 3 holds
`decref(p)`. -/
def staleChainFour : Function :=
  [⟨[mkIncref 0 (Value.ptr 8), mkIncref 1 (Value.ptr 9)], ⟨10, [1]⟩⟩,
   ⟨[mkIncref 2 (Value.ptr 7), mkDecref 3 (Value.ptr 9)], ⟨11, [2]⟩⟩,
   ⟨[mkDecref 4 (Value.ptr 8)], ⟨12, [3]⟩⟩,
   ⟨[mkDecref 5 (Value.ptr 7)], ⟨13, []⟩⟩]

/-- The state in which a first run of the pruner on `staleChainFour` ends. -/
def staleFourFirst : PruneState :=
  (RefPrunePass.run 4 orderOracle staleChainFour).1

/-- The state in which a second run, on the function that the first run has
left of `staleChainFour`, ends. -/
def staleFourSecond : PruneState :=
  (RefPrunePass.run 4 orderOracle staleFourFirst.F).1

/-- A chain of three blocks with refops on three pointers: block 0 holds
`incref(p); incref(q)`, block 1 is empty, block 2 holds `decref(p); decref(r)`
and is the exit. -/
def wideChain : Function :=
  [⟨[mkIncref 0 (Value.ptr 7), mkIncref 1 (Value.ptr 8)], ⟨10, [1]⟩⟩,
   ⟨[], ⟨11, [2]⟩⟩,
   ⟨[mkDecref 2 (Value.ptr 7), mkDecref 3 (Value.ptr 9)], ⟨12, []⟩⟩]

/-! # Theorems -/

open RefPrunePass RefNormalizePass


/-! ## Blocks of a function and erasure -/

@[simp] theorem blockAt_nil (b : Nat) : blockAt [] b = ⟨[], ⟨0, []⟩⟩ := by
  simp [blockAt]

@[simp] theorem blockAt_cons_zero (bb : BasicBlock) (F : Function) :
    blockAt (bb :: F) 0 = bb := by
  simp [blockAt]

@[simp] theorem blockAt_cons_succ (bb : BasicBlock) (F : Function) (b : Nat) :
    blockAt (bb :: F) (b + 1) = blockAt F b := by
  simp [blockAt]

theorem blockAt_of_length_le {F : Function} {b : Nat} (h : F.length ≤ b) :
    blockAt F b = ⟨[], ⟨0, []⟩⟩ := by
  simp [blockAt, List.get?_eq_getElem?, List.getElem?_eq_none h]

theorem lt_length_of_insts_ne_nil {F : Function} {b : Nat}
    (h : (blockAt F b).insts ≠ []) : b < F.length := by
  by_contra hlt
  exact h (by rw [blockAt_of_length_le (Nat.le_of_not_lt hlt)])

theorem blockAt_eraseAt_insts (F : Function) (n : Nat) (ci : Instruction) (b : Nat) :
    (blockAt (eraseAt n ci F) b).insts
      = if b = n then (blockAt F b).insts.filter (fun ii => ii != ci)
        else (blockAt F b).insts := by
  induction F generalizing n b with
  | nil => simp [eraseAt]
  | cons bb rest ih =>
    cases n with
    | zero =>
      cases b with
      | zero => simp [eraseAt]
      | succ b => simp [eraseAt]
    | succ n =>
      cases b with
      | zero => simp [eraseAt]
      | succ b => simpa [eraseAt] using ih n b

theorem blockAt_eraseAt_term (F : Function) (n : Nat) (ci : Instruction) (b : Nat) :
    (blockAt (eraseAt n ci F) b).term = (blockAt F b).term := by
  induction F generalizing n b with
  | nil => simp [eraseAt]
  | cons bb rest ih =>
    cases n with
    | zero =>
      cases b with
      | zero => simp [eraseAt]
      | succ b => simp [eraseAt]
    | succ n =>
      cases b with
      | zero => simp [eraseAt]
      | succ b => simpa [eraseAt] using ih n b

theorem length_eraseAt (F : Function) (n : Nat) (ci : Instruction) :
    (eraseAt n ci F).length = F.length := by
  induction F generalizing n with
  | nil => simp [eraseAt]
  | cons bb rest ih =>
    cases n with
    | zero => simp [eraseAt]
    | succ n => simp [eraseAt, ih]

theorem mem_blockAt_eraseFromParent {F : Function} {ci : RefOp} {b : Nat} {x : Instruction} :
    x ∈ (blockAt (eraseFromParent ci F) b).insts
      ↔ x ∈ (blockAt F b).insts ∧ (⟨b, x⟩ : RefOp) ≠ ci := by
  unfold eraseFromParent
  rw [blockAt_eraseAt_insts]
  rcases ci with ⟨n, c⟩
  by_cases hb : b = n
  · subst hb
    simp [List.mem_filter]
  · simp [hb]

theorem blockAt_eraseFromParent_term (F : Function) (ci : RefOp) (b : Nat) :
    (blockAt (eraseFromParent ci F) b).term = (blockAt F b).term :=
  blockAt_eraseAt_term F ci.parent ci.inst b

theorem mem_blockAt_foldl_erase (rs : List RefOp) (F : Function) (b : Nat) (x : Instruction) :
    x ∈ (blockAt (rs.foldl (fun G ci => eraseFromParent ci G) F) b).insts
      ↔ x ∈ (blockAt F b).insts ∧ (⟨b, x⟩ : RefOp) ∉ rs := by
  induction rs generalizing F with
  | nil => simp
  | cons r rs ih =>
    simp only [List.foldl_cons, ih, mem_blockAt_eraseFromParent, List.mem_cons, not_or]
    tauto

theorem blockAt_foldl_erase_term (rs : List RefOp) (F : Function) (b : Nat) :
    (blockAt (rs.foldl (fun G ci => eraseFromParent ci G) F) b).term = (blockAt F b).term := by
  induction rs generalizing F with
  | nil => simp
  | cons r rs ih => simp only [List.foldl_cons, ih, blockAt_eraseFromParent_term]

/-! ## The lists of refops -/

theorem mem_blockRefOps {r : RefOp} {b : Nat} {insts : List Instruction} :
    r ∈ blockRefOps b insts
      ↔ r.parent = b ∧ r.inst ∈ insts ∧ (GetRefOpCall r.inst).isSome = true := by
  rcases r with ⟨n, x⟩
  simp only [blockRefOps, List.mem_map, List.mem_filter, RefOp.mk.injEq]
  constructor
  · rintro ⟨y, ⟨hy, hs⟩, rfl, rfl⟩
    exact ⟨rfl, hy, hs⟩
  · rintro ⟨rfl, hx, hs⟩
    exact ⟨x, ⟨hx, hs⟩, rfl, rfl⟩

theorem mem_refOpsFrom {r : RefOp} {k : Nat} {bbs : List BasicBlock} :
    r ∈ refOpsFrom k bbs
      ↔ k ≤ r.parent ∧ r.inst ∈ (blockAt bbs (r.parent - k)).insts
          ∧ (GetRefOpCall r.inst).isSome = true := by
  induction bbs generalizing k with
  | nil => simp [refOpsFrom]
  | cons bb rest ih =>
    simp only [refOpsFrom, List.mem_append, mem_blockRefOps, ih]
    constructor
    · rintro (⟨h1, h2, h3⟩ | ⟨h1, h2, h3⟩)
      · subst h1
        simpa using ⟨h2, h3⟩
      · refine ⟨by omega, ?_, h3⟩
        have : r.parent - k = (r.parent - (k + 1)) + 1 := by omega
        rw [this, blockAt_cons_succ]
        exact h2
    · rintro ⟨h1, h2, h3⟩
      by_cases hk : r.parent = k
      · left
        rw [hk] at h2
        simp at h2
        exact ⟨hk, h2, h3⟩
      · right
        refine ⟨by omega, ?_, h3⟩
        have : r.parent - k = (r.parent - (k + 1)) + 1 := by omega
        rw [this, blockAt_cons_succ] at h2
        exact h2

theorem mem_refOps {r : RefOp} {F : Function} :
    r ∈ refOps F
      ↔ r.inst ∈ (blockAt F r.parent).insts ∧ (GetRefOpCall r.inst).isSome = true := by
  simp [refOps, mem_refOpsFrom]

theorem mem_nullList {r : RefOp} {F : Function} :
    r ∈ nullList F ↔ r.inst ∈ (blockAt F r.parent).insts
      ∧ (GetRefOpCall r.inst).isSome = true ∧ isNonNullFirstArg r.inst = false := by
  simp [nullList, List.mem_filter, mem_refOps, and_assoc]

theorem mem_increfList {r : RefOp} {F : Function} :
    r ∈ increfList F ↔ r.inst ∈ (blockAt F r.parent).insts
      ∧ isNonNullFirstArg r.inst = true ∧ IsIncRef r.inst = true := by
  simp only [increfList, List.mem_filter, mem_refOps, Bool.and_eq_true]
  constructor
  · rintro ⟨⟨h1, _⟩, h3, h4⟩
    exact ⟨h1, h3, h4⟩
  · rintro ⟨h1, h3, h4⟩
    exact ⟨⟨h1, by simp [GetRefOpCall, h4]⟩, h3, h4⟩

theorem mem_decrefList {r : RefOp} {F : Function} :
    r ∈ decrefList F ↔ r.inst ∈ (blockAt F r.parent).insts
      ∧ isNonNullFirstArg r.inst = true ∧ IsDecRef r.inst = true := by
  simp only [decrefList, List.mem_filter, mem_refOps, Bool.and_eq_true]
  constructor
  · rintro ⟨⟨h1, _⟩, ⟨h3, _⟩, h4⟩
    exact ⟨h1, h3, h4⟩
  · rintro ⟨h1, h3, h4⟩
    refine ⟨⟨h1, by simp [GetRefOpCall, h4]⟩, ⟨h3, ?_⟩, h4⟩
    simp only [IsIncRef, IsDecRef, beq_iff_eq] at h4 ⊢
    simp [h4]


/-! ## The normaliser and its reference behaviour -/

/-- The second loop, described by the part of the block it scans: when that
part holds at most one decref, the loop does what the specification says. -/
theorem moveLoop_of_le_one (k : Nat) (cur before : List Instruction) (pos : Nat)
    (h : ((cur.take (k - pos)).filter fun i => IsDecRef i).length ≤ 1) :
    moveLoop k before cur pos
      = (before ++ (cur.take (k - pos)).filter (fun i => !IsDecRef i) ++ cur.drop (k - pos)
            ++ (cur.take (k - pos)).filter (fun i => IsDecRef i),
          !((cur.take (k - pos)).filter fun i => IsDecRef i).isEmpty) := by
  induction cur generalizing before pos with
  | nil => simp [moveLoop]
  | cons x rest ih =>
    by_cases hpos : pos < k
    · have hk : k - pos = (k - (pos + 1)) + 1 := by omega
      rw [hk] at h ⊢
      simp only [List.take_succ_cons, List.drop_succ_cons] at h ⊢
      by_cases hx : IsDecRef x = true
      · have hg : GetRefOpCall x = some x := by simp [GetRefOpCall, hx]
        have hnil : (rest.take (k - (pos + 1))).filter (fun i => IsDecRef i) = [] := by
          simp only [List.filter_cons, hx, if_true, List.length_cons] at h
          exact List.length_eq_zero.mp (by omega)
        have hall : (rest.take (k - (pos + 1))).filter (fun i => !IsDecRef i)
            = rest.take (k - (pos + 1)) := by
          rw [List.filter_eq_self]
          intro a ha
          have := List.filter_eq_nil_iff.mp hnil a ha
          simpa using this
        simp only [moveLoop, hpos, if_true, hg, hx, List.filter_cons, hnil, hall]
        simp
      · have hx' : IsDecRef x = false := by simpa using hx
        have h' : ((rest.take (k - (pos + 1))).filter fun i => IsDecRef i).length ≤ 1 := by
          simpa [List.filter_cons, hx'] using h
        have hstep : moveLoop k before (x :: rest) pos
            = moveLoop k (before ++ [x]) rest (pos + 1) := by
          by_cases hg : IsIncRef x = true
          · simp [moveLoop, hpos, GetRefOpCall, hg, hx']
          · simp [moveLoop, hpos, GetRefOpCall, hg, hx']
        rw [hstep, ih (before ++ [x]) (pos + 1) h']
        simp [List.filter_cons, hx']
    · have hk : k - pos = 0 := by omega
      simp [moveLoop, hpos, hk]

/-- On a block with at most one decref before its last incref the pass does
what the specification says. -/
theorem normalizeBlock_eq_spec_of_le_one (bb : BasicBlock)
    (h : ∀ k, lastIncrefPos bb.insts 0 none = some k →
      ((bb.insts.take k).filter fun i => IsDecRef i).length ≤ 1) :
    (normalizeBlock bb).1 = normalizeBlockSpec bb := by
  unfold normalizeBlock normalizeBlockSpec
  cases hl : lastIncrefPos bb.insts 0 none with
  | none => rfl
  | some k =>
    have := moveLoop_of_le_one k bb.insts [] 0 (by simpa using h k hl)
    simp [this]

/-! ## The normaliser on single blocks -/

theorem blockAt_map (f : BasicBlock → BasicBlock) (F : Function) (b : Nat)
    (hb : b < F.length) : blockAt (F.map f) b = f (blockAt F b) := by
  simp [blockAt, List.get?_eq_getElem?, List.getElem?_map, List.getElem?_eq_getElem hb]

/-- C5: on the block `decref(a); decref(b); incref(q)` the pass moves only the
first decref: it leaves `decref(b); incref(q); decref(a)`, whereas the reference
behaviour of the specification is `incref(q); decref(a); decref(b)`. -/
theorem C5_normalize_moves_only_first_decref :
    RefNormalizePass.runOnFunction
        [⟨[mkDecref 0 (Value.ptr 1), mkDecref 1 (Value.ptr 2), mkIncref 2 (Value.ptr 3)], ⟨3, []⟩⟩]
      = ([⟨[mkDecref 1 (Value.ptr 2), mkIncref 2 (Value.ptr 3), mkDecref 0 (Value.ptr 1)], ⟨3, []⟩⟩],
          true)
    ∧ normalizeBlockSpec
        ⟨[mkDecref 0 (Value.ptr 1), mkDecref 1 (Value.ptr 2), mkIncref 2 (Value.ptr 3)], ⟨3, []⟩⟩
      = ⟨[mkIncref 2 (Value.ptr 3), mkDecref 0 (Value.ptr 1), mkDecref 1 (Value.ptr 2)], ⟨3, []⟩⟩ := by
  constructor <;> decide

/-- C6 (counterexample): for `decref(p); incref(q); decref(r)` the pass does
not produce `incref(q); decref(p); decref(r)`. -/
theorem C6_counterexample :
    (RefNormalizePass.runOnFunction
        [⟨[mkDecref 0 (Value.ptr 1), mkIncref 1 (Value.ptr 2), mkDecref 2 (Value.ptr 3)], ⟨3, []⟩⟩]).1
      ≠ [⟨[mkIncref 1 (Value.ptr 2), mkDecref 0 (Value.ptr 1), mkDecref 2 (Value.ptr 3)], ⟨3, []⟩⟩] := by
  decide

/-- C6 (amended): a block `decref(p); incref(q); decref(r); <terminator>`
becomes `incref(q); decref(r); decref(p); <terminator>`: only `decref(p)`, which
stands before the last incref, is moved, and it lands behind `decref(r)`; the
pass reports a change. -/
theorem C6_normalize_example (F : Function) (b i j k : Nat) (p q r : Value) (t : Terminator)
    (hB : blockAt F b = ⟨[mkDecref i p, mkIncref j q, mkDecref k r], t⟩) :
    blockAt (RefNormalizePass.runOnFunction F).1 b
        = ⟨[mkIncref j q, mkDecref k r, mkDecref i p], t⟩
      ∧ (RefNormalizePass.runOnFunction F).2 = true := by
  have hb : b < F.length := lt_length_of_insts_ne_nil (by rw [hB]; simp)
  have hn : normalizeBlock ⟨[mkDecref i p, mkIncref j q, mkDecref k r], t⟩
      = (⟨[mkIncref j q, mkDecref k r, mkDecref i p], t⟩, true) := rfl
  constructor
  · simp only [RefNormalizePass.runOnFunction]
    rw [blockAt_map _ _ _ hb, hB, hn]
  · simp only [RefNormalizePass.runOnFunction, List.any_eq_true]
    refine ⟨blockAt F b, ?_, by rw [hB, hn]⟩
    simp [blockAt, List.get?_eq_getElem?, List.getElem?_eq_getElem hb]

/-- C6 (amended) on a block with the ids 0, 1, 2. -/
theorem C6_normalize_example_witness :
    blockAt (RefNormalizePass.runOnFunction
        [⟨[mkDecref 0 (Value.ptr 1), mkIncref 1 (Value.ptr 2), mkDecref 2 (Value.ptr 3)], ⟨3, []⟩⟩]).1 0
        = ⟨[mkIncref 1 (Value.ptr 2), mkDecref 2 (Value.ptr 3), mkDecref 0 (Value.ptr 1)], ⟨3, []⟩⟩
      ∧ (RefNormalizePass.runOnFunction
        [⟨[mkDecref 0 (Value.ptr 1), mkIncref 1 (Value.ptr 2), mkDecref 2 (Value.ptr 3)], ⟨3, []⟩⟩]).2
        = true :=
  C6_normalize_example _ 0 0 1 2 (Value.ptr 1) (Value.ptr 2) (Value.ptr 3) ⟨3, []⟩ rfl


theorem loopFunction_instAt {a i : Nat} {x : Instruction} (h : InstAt loopFunction a i x) :
    (a = 0 ∧ i = 0 ∧ x = mkIncref 0 (Value.ptr 7)) ∨
      (a = 1 ∧ i = 0 ∧ x = mkDecref 1 (Value.ptr 7)) := by
  unfold InstAt at h
  match a, i with
  | 0, 0 => left; simpa [blockAt, loopFunction, eq_comm] using h
  | 0, i + 1 => simp [blockAt, loopFunction] at h
  | 1, 0 => right; simpa [blockAt, loopFunction, eq_comm] using h
  | 1, i + 1 => simp [blockAt, loopFunction] at h
  | 2, i => simp [blockAt, loopFunction] at h
  | a + 3, i => simp [blockAt, loopFunction] at h

theorem loopFunction_dom_0_1 : BlockDominates loopFunction 0 1 := by
  intro path _ hh _
  cases path with
  | nil => simp at hh
  | cons c rest => simp at hh; simp [hh]

theorem loopFunction_not_dom_1_0 : ¬ BlockDominates loopFunction 1 0 := by
  intro h
  have := h [0] ⟨by simp, by simp [loopFunction], by simp⟩ rfl rfl
  simp at this

theorem loopFunction_pdom_1_0 : BlockPostDominates loopFunction 1 0 := by
  intro path hp hh he
  obtain ⟨_, _, hc⟩ := hp
  cases path with
  | nil => simp at hh
  | cons c rest =>
    simp at hh
    subst hh
    cases rest with
    | nil =>
      obtain ⟨e, he1, he2⟩ := he
      simp at he1
      subst he1
      simp [IsExit, blockAt, loopFunction] at he2
    | cons d rest =>
      have : Edge loopFunction 0 d := (List.chain'_cons.mp hc).1
      simp [Edge, blockAt, loopFunction] at this
      simp [this]

theorem loopFunction_not_pdom_0_1 : ¬ BlockPostDominates loopFunction 0 1 := by
  intro h
  have := h [1, 2] ⟨by simp, by simp [loopFunction], by simp [Edge, blockAt, loopFunction]⟩ rfl
    ⟨2, rfl, by simp [IsExit, blockAt, loopFunction]⟩
  simp at this

theorem loopOracle_true : TrueOracle loopFunction loopOracle := by
  intro a i x b j y hx hy
  rcases loopFunction_instAt hx with ⟨rfl, rfl, rfl⟩ | ⟨rfl, rfl, rfl⟩ <;>
    rcases loopFunction_instAt hy with ⟨rfl, rfl, rfl⟩ | ⟨rfl, rfl, rfl⟩
  · simp [loopOracle, mkIncref]
  · simp [loopOracle, mkIncref, mkDecref, loopFunction_dom_0_1, loopFunction_not_pdom_0_1]
  · simp [loopOracle, mkIncref, mkDecref, loopFunction_not_dom_1_0, loopFunction_pdom_1_0]
  · simp [loopOracle, mkDecref]

/-- C1: on `loopFunction`, with the oracle that is the dominance and
post-dominance relation of its graph, the pass erases `incref(p)` of block 0
and `decref(p)` of block 1; along the execution path 0, 1, 1, 2 the net effect
on `p` is `-1` before the pass and `0` after it. -/
theorem C1_loop_changes_net_effect :
    TrueOracle loopFunction loopOracle
    ∧ (∀ fuel, RefPrunePass.runOnFunction (fuel + 1) loopOracle loopFunction
        = some (loopFunctionPruned, true))
    ∧ IsExecPath loopFunction [0, 1, 1, 2]
    ∧ netEffect loopFunction (Value.ptr 7) [0, 1, 1, 2] = -1
    ∧ netEffect loopFunctionPruned (Value.ptr 7) [0, 1, 1, 2] = 0 := by
  refine ⟨loopOracle_true, fun fuel => rfl, ?_, by decide, by decide⟩
  refine ⟨⟨by simp, by simp [loopFunction], ?_⟩, rfl, 2, rfl, ?_⟩
  · simp [Edge, blockAt, loopFunction]
  · simp [IsExit, blockAt, loopFunction]


/-! ## The inner loop -/

theorem not_eligible_of_rejected {fuel : Nat} {O : DomOracle} {F : Function} {i d : RefOp}
    (h : Rejected fuel O F i d) : ¬ Eligible fuel O F i d := by
  rintro ⟨h1, h2, h3, h4⟩
  rcases h with h | h | ⟨h5, h6⟩
  · exact h h1
  · exact h ⟨h2, h3⟩
  · rw [h4 h5] at h6
    cases h6

theorem keepEntry_eq_match {x : Option RefOp} {r : Option (Option (RefOp × List (Option RefOp)))}
    {d : RefOp} {l : List (Option RefOp)} (h : keepEntry x r = some (some (d, l))) :
    ∃ l', r = some (some (d, l')) ∧ l = x :: l' := by
  match r, h with
  | some (some (d', l')), h =>
    simp only [keepEntry, Option.some.injEq, Prod.mk.injEq] at h
    obtain ⟨rfl, rfl⟩ := h
    exact ⟨l', rfl, rfl⟩

theorem keepEntry_eq_none {x : Option RefOp} {r : Option (Option (RefOp × List (Option RefOp)))}
    (h : keepEntry x r = some none) : r = some none := by
  match r, h with
  | some none, _ => rfl

theorem innerLoop_cons_of_rejected {fuel : Nat} {O : DomOracle} {F : Function} {i d : RefOp}
    (rest : List (Option RefOp)) (h : Rejected fuel O F i d) :
    innerLoop fuel O F i (some d :: rest) = keepEntry (some d) (innerLoop fuel O F i rest) := by
  rcases h with h | h | ⟨h5, h6⟩
  · simp [innerLoop, h]
  · by_cases ha : i.inst.arg = d.inst.arg
    · have : (O.dominates i.inst d.inst && O.postDominates d.inst i.inst) = false := by
        simpa using h
      simp [innerLoop, ha, this]
    · simp [innerLoop, ha]
  · by_cases ha : i.inst.arg = d.inst.arg
    · by_cases hd : (O.dominates i.inst d.inst && O.postDominates d.inst i.inst) = true
      · simp [innerLoop, ha, hd, h5, h6]
      · simp [innerLoop, ha, hd]
    · simp [innerLoop, ha]

theorem innerLoop_cons_of_eligible {fuel : Nat} {O : DomOracle} {F : Function} {i d : RefOp}
    (rest : List (Option RefOp)) (h : Eligible fuel O F i d) :
    innerLoop fuel O F i (some d :: rest) = some (some (d, none :: rest)) := by
  obtain ⟨h1, h2, h3, h4⟩ := h
  by_cases hp : i.parent = d.parent
  · simp [innerLoop, h1, h2, h3, hp]
  · simp [innerLoop, h1, h2, h3, hp, h4 hp]

/-- Every entry of the inner loop is matched, passed over, or makes the call
of `hasDecrefBetweenGraph` fail. -/
theorem innerLoop_cons_cases (fuel : Nat) (O : DomOracle) (F : Function) (i d : RefOp) :
    Eligible fuel O F i d ∨ Rejected fuel O F i d ∨
      (i.inst.arg = d.inst.arg ∧ i.parent ≠ d.parent ∧
        hasDecrefBetweenGraph F fuel i.parent d.parent = none) := by
  by_cases ha : i.inst.arg = d.inst.arg
  · by_cases hd : O.dominates i.inst d.inst = true ∧ O.postDominates d.inst i.inst = true
    · by_cases hp : i.parent = d.parent
      · exact Or.inl ⟨ha, hd.1, hd.2, fun h => absurd hp h⟩
      · cases hw : hasDecrefBetweenGraph F fuel i.parent d.parent with
        | none => exact Or.inr (Or.inr ⟨ha, hp, rfl⟩)
        | some v =>
          cases v with
          | true => exact Or.inr (Or.inl (Or.inr (Or.inr ⟨hp, hw⟩)))
          | false => exact Or.inl ⟨ha, hd.1, hd.2, fun _ => hw⟩
    · exact Or.inr (Or.inl (Or.inr (Or.inl hd)))
  · exact Or.inr (Or.inl (Or.inl ha))

theorem innerLoop_match {fuel : Nat} {O : DomOracle} {F : Function} {i : RefOp}
    {ds : List (Option RefOp)} {d : RefOp} {l : List (Option RefOp)}
    (h : innerLoop fuel O F i ds = some (some (d, l))) :
    ∃ pre post, ds = pre ++ some d :: post ∧ l = pre ++ none :: post ∧
      Eligible fuel O F i d ∧ ∀ d', some d' ∈ pre → Rejected fuel O F i d' := by
  induction ds generalizing l with
  | nil => simp [innerLoop] at h
  | cons x rest ih =>
    cases x with
    | none =>
      simp only [innerLoop] at h
      obtain ⟨l', hl', rfl⟩ := keepEntry_eq_match h
      obtain ⟨pre, post, h1, h2, h3, h4⟩ := ih hl'
      refine ⟨none :: pre, post, by simp [h1], by simp [h2], h3, ?_⟩
      intro d' hd'
      simp at hd'
      exact h4 d' hd'
    | some dd =>
      rcases innerLoop_cons_cases fuel O F i dd with he | hr | ⟨ha, hp, hw⟩
      · rw [innerLoop_cons_of_eligible rest he] at h
        simp only [Option.some.injEq, Prod.mk.injEq] at h
        obtain ⟨rfl, rfl⟩ := h
        exact ⟨[], rest, rfl, rfl, he, by simp⟩
      · rw [innerLoop_cons_of_rejected rest hr] at h
        obtain ⟨l', hl', rfl⟩ := keepEntry_eq_match h
        obtain ⟨pre, post, h1, h2, h3, h4⟩ := ih hl'
        refine ⟨some dd :: pre, post, by simp [h1], by simp [h2], h3, ?_⟩
        intro d' hd'
        simp at hd'
        rcases hd' with rfl | hd'
        · exact hr
        · exact h4 d' hd'
      · by_cases hd : (O.dominates i.inst dd.inst && O.postDominates dd.inst i.inst) = true
        · simp [innerLoop, ha, hd, hp, hw] at h
        · have hr : Rejected fuel O F i dd := Or.inr (Or.inl (by simpa using hd))
          rw [innerLoop_cons_of_rejected rest hr] at h
          obtain ⟨l', hl', rfl⟩ := keepEntry_eq_match h
          obtain ⟨pre, post, h1, h2, h3, h4⟩ := ih hl'
          refine ⟨some dd :: pre, post, by simp [h1], by simp [h2], h3, ?_⟩
          intro d' hd'
          simp at hd'
          rcases hd' with rfl | hd'
          · exact hr
          · exact h4 d' hd'

theorem innerLoop_no_match {fuel : Nat} {O : DomOracle} {F : Function} {i : RefOp}
    {ds : List (Option RefOp)} (h : innerLoop fuel O F i ds = some none) :
    ∀ d', some d' ∈ ds → Rejected fuel O F i d' := by
  induction ds with
  | nil => simp
  | cons x rest ih =>
    cases x with
    | none =>
      simp only [innerLoop] at h
      intro d' hd'
      simp at hd'
      exact ih (keepEntry_eq_none h) d' hd'
    | some dd =>
      have key : Rejected fuel O F i dd ∧ innerLoop fuel O F i rest = some none := by
        rcases innerLoop_cons_cases fuel O F i dd with he | hr | ⟨ha, hp, hw⟩
        · rw [innerLoop_cons_of_eligible rest he] at h
          simp at h
        · rw [innerLoop_cons_of_rejected rest hr] at h
          exact ⟨hr, keepEntry_eq_none h⟩
        · by_cases hd : (O.dominates i.inst dd.inst && O.postDominates dd.inst i.inst) = true
          · simp [innerLoop, ha, hd, hp, hw] at h
          · have hr : Rejected fuel O F i dd := Or.inr (Or.inl (by simpa using hd))
            rw [innerLoop_cons_of_rejected rest hr] at h
            exact ⟨hr, keepEntry_eq_none h⟩
      intro d' hd'
      simp at hd'
      rcases hd' with rfl | hd'
      · exact key.1
      · exact ih key.2 d' hd'

theorem innerLoop_of_rejected {fuel : Nat} {O : DomOracle} {F : Function} {i : RefOp}
    {ds : List (Option RefOp)} (h : ∀ d', some d' ∈ ds → Rejected fuel O F i d') :
    innerLoop fuel O F i ds = some none := by
  induction ds with
  | nil => rfl
  | cons x rest ih =>
    have hrest := ih (fun d' hd' => h d' (List.mem_cons_of_mem _ hd'))
    cases x with
    | none => simp [innerLoop, hrest, keepEntry]
    | some dd =>
      rw [innerLoop_cons_of_rejected rest (h dd (List.mem_cons_self _ _)), hrest]
      rfl

theorem innerLoop_of_first_eligible {fuel : Nat} {O : DomOracle} {F : Function} {i d : RefOp}
    (pre post : List (Option RefOp)) (hpre : ∀ d', some d' ∈ pre → Rejected fuel O F i d')
    (hd : Eligible fuel O F i d) :
    innerLoop fuel O F i (pre ++ some d :: post) = some (some (d, pre ++ none :: post)) := by
  induction pre with
  | nil => exact innerLoop_cons_of_eligible post hd
  | cons x rest ih =>
    have hrest := ih (fun d' hd' => hpre d' (List.mem_cons_of_mem _ hd'))
    cases x with
    | none => simp [innerLoop, hrest, keepEntry]
    | some dd =>
      rw [List.cons_append, innerLoop_cons_of_rejected _ (hpre dd (List.mem_cons_self _ _)), hrest]
      rfl

/-! ## The outer loop -/

theorem outerLoop_cons_eq (fuel : Nat) (O : DomOracle) (i : RefOp) (rest : List RefOp)
    (s : PruneState) :
    outerLoop fuel O (i :: rest) s =
      match innerLoop fuel O s.F i s.decrefs with
      | none => (s, false)
      | some none => outerLoop fuel O rest s
      | some (some (d, l)) => outerLoop fuel O rest (s.erasePair i d l) := by
  simp only [outerLoop, PruneState.erasePair]

/-- Induction over the outer loop: a property of the state that every match
preserves holds in the state that the loop reaches when it holds at the
start. -/
theorem outerLoop_induction {fuel : Nat} {O : DomOracle} (P : PruneState → Prop)
    (increfs : List RefOp)
    (hstep : ∀ s i d l, i ∈ increfs → P s →
      innerLoop fuel O s.F i s.decrefs = some (some (d, l)) → P (s.erasePair i d l))
    {s0 s : PruneState} (h0 : P s0) (h : (outerLoop fuel O increfs s0).1 = s) : P s := by
  induction increfs generalizing s0 with
  | nil =>
    simp only [outerLoop] at h
    exact h ▸ h0
  | cons i rest ih =>
    have hstep' : ∀ s i d l, i ∈ rest → P s →
        innerLoop fuel O s.F i s.decrefs = some (some (d, l)) → P (s.erasePair i d l) :=
      fun s i d l hi => hstep s i d l (List.mem_cons_of_mem _ hi)
    rw [outerLoop_cons_eq] at h
    cases hin : innerLoop fuel O s0.F i s0.decrefs with
    | none =>
      simp only [hin] at h
      exact h ▸ h0
    | some r =>
      cases r with
      | none =>
        simp only [hin] at h
        exact ih hstep' h0 h
      | some dl =>
        obtain ⟨d, l⟩ := dl
        simp only [hin] at h
        exact ih hstep' (hstep s0 i d l (List.mem_cons_self _ _) h0 hin) h

theorem outerLoop_append (fuel : Nat) (O : DomOracle) (l1 l2 : List RefOp) (s : PruneState) :
    outerLoop fuel O (l1 ++ l2) s =
      if (outerLoop fuel O l1 s).2 = true then outerLoop fuel O l2 (outerLoop fuel O l1 s).1
      else ((outerLoop fuel O l1 s).1, false) := by
  induction l1 generalizing s with
  | nil => simp [outerLoop]
  | cons i rest ih =>
    rw [List.cons_append, outerLoop_cons_eq, outerLoop_cons_eq]
    cases hin : innerLoop fuel O s.F i s.decrefs with
    | none => simp
    | some r =>
      cases r with
      | none => simp [ih]
      | some dl => obtain ⟨d, l⟩ := dl; simp [ih]


/-! ## Invariants of the pair matching loop -/

theorem entryOf_set_none {pre post : List (Option RefOp)} {x : Option RefOp} {L : List RefOp}
    (h : List.Forall₂ EntryOf (pre ++ x :: post) L) :
    List.Forall₂ EntryOf (pre ++ none :: post) L := by
  induction pre generalizing L with
  | nil =>
    cases h with
    | cons h1 h2 => exact List.Forall₂.cons (Or.inl rfl) h2
  | cons y pre ih =>
    cases h with
    | cons h1 h2 => exact List.Forall₂.cons h1 (ih h2)

theorem mem_of_entryOf {xs : List (Option RefOp)} {L : List RefOp} {d : RefOp}
    (h : List.Forall₂ EntryOf xs L) (hd : some d ∈ xs) : d ∈ L := by
  induction h with
  | nil => simp at hd
  | cons h1 _ ih =>
    rcases List.mem_cons.mp hd with hd | hd
    · rcases h1 with h1 | h1
      · rw [h1] at hd; cases hd
      · rw [h1] at hd
        cases hd
        exact List.mem_cons_self _ _
    · exact List.mem_cons_of_mem _ (ih hd)

theorem entryOf_map_some (L : List RefOp) : List.Forall₂ EntryOf (L.map some) L := by
  induction L with
  | nil => exact List.Forall₂.nil
  | cons d L ih => exact List.Forall₂.cons (Or.inr rfl) ih

/-- The loop only erases: what is in a block at the end was there at the
start, and the terminators stay. -/
theorem outerLoop_shrinks {fuel : Nat} {O : DomOracle} {increfs : List RefOp}
    {s0 s : PruneState} (h : (outerLoop fuel O increfs s0).1 = s) :
    ∀ b, (∀ x, x ∈ (blockAt s.F b).insts → x ∈ (blockAt s0.F b).insts) ∧
      (blockAt s.F b).term = (blockAt s0.F b).term := by
  refine outerLoop_induction
    (fun s => ∀ b, (∀ x, x ∈ (blockAt s.F b).insts → x ∈ (blockAt s0.F b).insts) ∧
      (blockAt s.F b).term = (blockAt s0.F b).term) increfs ?_ (fun b => ⟨fun _ hx => hx, rfl⟩) h
  intro s i d l _ hP _ b
  constructor
  · intro x hx
    simp only [PruneState.erasePair, mem_blockAt_eraseFromParent] at hx
    exact (hP b).1 x hx.1.1
  · simp only [PruneState.erasePair, blockAt_eraseFromParent_term]
    exact (hP b).2

/-- The record of pruned pairs only grows. -/
theorem outerLoop_pruned_grows {fuel : Nat} {O : DomOracle} {increfs : List RefOp}
    {s0 s : PruneState} (h : (outerLoop fuel O increfs s0).1 = s) :
    ∀ e ∈ s0.pruned, e ∈ s.pruned := by
  refine outerLoop_induction (fun s => ∀ e ∈ s0.pruned, e ∈ s.pruned) increfs ?_
    (fun _ he => he) h
  intro s i d l _ hP _ e he
  simp only [PruneState.erasePair, List.mem_append]
  exact Or.inl (hP e he)

/-- Every instruction that the loop takes out of a block belongs to a pair of
the record. -/
theorem outerLoop_erased_in_pruned {fuel : Nat} {O : DomOracle} {increfs : List RefOp}
    {s0 s : PruneState} (h : (outerLoop fuel O increfs s0).1 = s) :
    ∀ b x, x ∈ (blockAt s0.F b).insts → x ∉ (blockAt s.F b).insts →
      ∃ e ∈ s.pruned, (⟨b, x⟩ : RefOp) = e.incref ∨ (⟨b, x⟩ : RefOp) = e.decref := by
  refine outerLoop_induction
    (fun s => ∀ b x, x ∈ (blockAt s0.F b).insts → x ∉ (blockAt s.F b).insts →
      ∃ e ∈ s.pruned, (⟨b, x⟩ : RefOp) = e.incref ∨ (⟨b, x⟩ : RefOp) = e.decref)
    increfs ?_ (fun b x hx hnx => absurd hx hnx) h
  intro s i d l _ hP _ b x hx hnx
  by_cases hs : x ∈ (blockAt s.F b).insts
  · simp only [PruneState.erasePair, mem_blockAt_eraseFromParent, hs, true_and, not_and,
      not_not] at hnx
    refine ⟨⟨i, d, s.F, s.decrefs⟩, by simp [PruneState.erasePair], ?_⟩
    by_cases hi : (⟨b, x⟩ : RefOp) = i
    · exact Or.inl hi
    · exact Or.inr (hnx hi)
  · obtain ⟨e, he, hor⟩ := hP b x hx hs
    exact ⟨e, by simp [PruneState.erasePair, he], hor⟩

/-- What the record says about each pair: the incref comes from the list of
increfs, the decref was the first entry of the decref list that the inner loop
did not pass over, and the recorded decref list stands for `L`. -/
theorem outerLoop_pruned_spec {fuel : Nat} {O : DomOracle} {increfs : List RefOp}
    {L : List RefOp} {s0 s : PruneState} (h : (outerLoop fuel O increfs s0).1 = s)
    (h0 : List.Forall₂ EntryOf s0.decrefs L) (hp : s0.pruned = []) :
    List.Forall₂ EntryOf s.decrefs L ∧
    ∀ e ∈ s.pruned, e.incref ∈ increfs ∧ e.decref ∈ L ∧
      List.Forall₂ EntryOf e.decrefs L ∧
      Eligible fuel O e.F e.incref e.decref ∧
      ∃ pre post, e.decrefs = pre ++ some e.decref :: post ∧
        ∀ d', some d' ∈ pre → Rejected fuel O e.F e.incref d' := by
  refine outerLoop_induction
    (fun s => List.Forall₂ EntryOf s.decrefs L ∧
      ∀ e ∈ s.pruned, e.incref ∈ increfs ∧ e.decref ∈ L ∧
        List.Forall₂ EntryOf e.decrefs L ∧
        Eligible fuel O e.F e.incref e.decref ∧
        ∃ pre post, e.decrefs = pre ++ some e.decref :: post ∧
          ∀ d', some d' ∈ pre → Rejected fuel O e.F e.incref d')
    increfs ?_ ⟨h0, by simp [hp]⟩ h
  intro s i d l hi hP hin
  obtain ⟨pre, post, h1, h2, h3, h4⟩ := innerLoop_match hin
  constructor
  · simp only [PruneState.erasePair, h2]
    exact entryOf_set_none (h1 ▸ hP.1)
  · intro e he
    simp only [PruneState.erasePair, List.mem_append, List.mem_singleton] at he
    rcases he with he | rfl
    · exact hP.2 e he
    · exact ⟨hi, mem_of_entryOf hP.1 (by simp [h1]), hP.1, h3, pre, post, h1, h4⟩

/-- A recorded function lies between the function at the start of the loop and
the function at its end. -/
theorem outerLoop_pruned_between {fuel : Nat} {O : DomOracle} {increfs : List RefOp}
    {s0 s : PruneState} (h : (outerLoop fuel O increfs s0).1 = s) (hp : s0.pruned = []) :
    ∀ e ∈ s.pruned, ∀ b x,
      (x ∈ (blockAt s.F b).insts → x ∈ (blockAt e.F b).insts) ∧
      (x ∈ (blockAt e.F b).insts → x ∈ (blockAt s0.F b).insts) := by
  refine outerLoop_induction
    (fun s => (∀ b x, x ∈ (blockAt s.F b).insts → x ∈ (blockAt s0.F b).insts) ∧
      ∀ e ∈ s.pruned, ∀ b x,
        (x ∈ (blockAt s.F b).insts → x ∈ (blockAt e.F b).insts) ∧
        (x ∈ (blockAt e.F b).insts → x ∈ (blockAt s0.F b).insts))
    increfs ?_ ⟨fun _ _ hx => hx, by simp [hp]⟩ h |>.2
  intro s i d l _ hP _
  have hsub : ∀ b x, x ∈ (blockAt (s.erasePair i d l).F b).insts → x ∈ (blockAt s.F b).insts := by
    intro b x hx
    simp only [PruneState.erasePair, mem_blockAt_eraseFromParent] at hx
    exact hx.1.1
  refine ⟨fun b x hx => hP.1 b x (hsub b x hx), ?_⟩
  intro e he b x
  simp only [PruneState.erasePair, List.mem_append, List.mem_singleton] at he
  rcases he with he | rfl
  · exact ⟨fun hx => (hP.2 e he b x).1 (hsub b x hx), (hP.2 e he b x).2⟩
  · exact ⟨fun hx => hsub b x hx, fun hx => hP.1 b x hx⟩

/-! ## The null refops -/

theorem mem_blockAt_eraseNullList {F : Function} {b : Nat} {x : Instruction} :
    x ∈ (blockAt (eraseNullList F) b).insts ↔
      x ∈ (blockAt F b).insts ∧
        ¬ ((GetRefOpCall x).isSome = true ∧ isNonNullFirstArg x = false) := by
  unfold eraseNullList
  rw [mem_blockAt_foldl_erase, mem_nullList]
  constructor
  · rintro ⟨h1, h2⟩
    exact ⟨h1, fun h => h2 ⟨h1, h.1, h.2⟩⟩
  · rintro ⟨h1, h2⟩
    exact ⟨h1, fun h => h2 ⟨h.2.1, h.2.2⟩⟩

theorem blockAt_eraseNullList_term (F : Function) (b : Nat) :
    (blockAt (eraseNullList F) b).term = (blockAt F b).term :=
  blockAt_foldl_erase_term _ _ _


/-! ## Properties of the pruner -/

/-- The pass returns when the loop comes to its end, and then it returns the
function and the flag of the state that the loop reached. -/
theorem runOnFunction_eq_some_iff (fuel : Nat) (O : DomOracle) (F F' : Function)
    (changed : Bool) :
    RefPrunePass.runOnFunction fuel O F = some (F', changed) ↔
      (run fuel O F).2 = true ∧ (run fuel O F).1.F = F' ∧ (run fuel O F).1.mutated = changed := by
  unfold RefPrunePass.runOnFunction
  cases h : (run fuel O F).2 <;> simp

theorem run_sampleFunction :
    run 3 orderOracle sampleFunction = (sampleFinalState, true) := by
  decide

/-- C2: in the state that the pruner reaches (at its end, or where it got
stuck), every instruction taken out of a block is a refop on the null pointer
or one half of a recorded pair; in every recorded pair the first half is a
non-null incref of the function and the second a non-null decref of the
function, the two have the identical operand, `dominates(incref, decref)` and
`postDominates(decref, incref)` hold, and when their parents differ
`hasDecrefBetweenGraph` on the parents returned false in the function as it
was at the moment of the match, which lies between the input and the
result. -/
theorem C2_conservative_removal (fuel : Nat) (O : DomOracle) (F : Function) :
    (∀ b x, x ∈ (blockAt F b).insts → x ∉ (blockAt (run fuel O F).1.F b).insts →
      ((GetRefOpCall x).isSome = true ∧ isNonNullFirstArg x = false) ∨
      ∃ e ∈ (run fuel O F).1.pruned,
        (⟨b, x⟩ : RefOp) = e.incref ∨ (⟨b, x⟩ : RefOp) = e.decref)
    ∧ ∀ e ∈ (run fuel O F).1.pruned,
      (e.incref.inst ∈ (blockAt F e.incref.parent).insts ∧
        IsIncRef e.incref.inst = true ∧ isNonNullFirstArg e.incref.inst = true) ∧
      (e.decref.inst ∈ (blockAt F e.decref.parent).insts ∧
        IsDecRef e.decref.inst = true ∧ isNonNullFirstArg e.decref.inst = true) ∧
      e.incref.inst.arg = e.decref.inst.arg ∧
      O.dominates e.incref.inst e.decref.inst = true ∧
      O.postDominates e.decref.inst e.incref.inst = true ∧
      (e.incref.parent ≠ e.decref.parent →
        hasDecrefBetweenGraph e.F fuel e.incref.parent e.decref.parent = some false) ∧
      ∀ b x, (x ∈ (blockAt (run fuel O F).1.F b).insts → x ∈ (blockAt e.F b).insts) ∧
        (x ∈ (blockAt e.F b).insts → x ∈ (blockAt F b).insts) := by
  have h : (outerLoop fuel O (increfList F) (initState F)).1 = (run fuel O F).1 := rfl
  constructor
  · intro b x hx hnx
    by_cases hn : (GetRefOpCall x).isSome = true ∧ isNonNullFirstArg x = false
    · exact Or.inl hn
    · right
      exact outerLoop_erased_in_pruned h b x (mem_blockAt_eraseNullList.mpr ⟨hx, hn⟩) hnx
  · intro e he
    obtain ⟨hi, hd, _, ⟨h1, h2, h3, h4⟩, _⟩ :=
      (outerLoop_pruned_spec h (entryOf_map_some (decrefList F)) rfl).2 e he
    have hb := outerLoop_pruned_between h rfl e he
    refine ⟨?_, ?_, h1, h2, h3, h4, ?_⟩
    · have := mem_increfList.mp hi
      exact ⟨this.1, this.2.2, this.2.1⟩
    · have := mem_decrefList.mp hd
      exact ⟨this.1, this.2.2, this.2.1⟩
    · intro b x
      exact ⟨(hb b x).1, fun hx => (mem_blockAt_eraseNullList.mp ((hb b x).2 hx)).1⟩

/-- C4: the null refops are erased before the matching starts, whatever the
function and the oracle: after lines 151-156 no block holds a refop on the null
pointer, neither list of the matching loop holds one, and in the state that the
pass reaches (at its end, or where it got stuck) no block holds one and no
recorded pair has one as a half. -/
theorem C4_null_drop (fuel : Nat) (O : DomOracle) (F : Function) :
    (∀ b x, x ∈ (blockAt (eraseNullList F) b).insts → (GetRefOpCall x).isSome = true →
      isNonNullFirstArg x = true)
    ∧ (∀ r ∈ increfList F, isNonNullFirstArg r.inst = true)
    ∧ (∀ r ∈ decrefList F, isNonNullFirstArg r.inst = true)
    ∧ (∀ b x, x ∈ (blockAt (run fuel O F).1.F b).insts → (GetRefOpCall x).isSome = true →
        isNonNullFirstArg x = true)
    ∧ ∀ e ∈ (run fuel O F).1.pruned, isNonNullFirstArg e.incref.inst = true ∧
        isNonNullFirstArg e.decref.inst = true := by
  have hA : ∀ b x, x ∈ (blockAt (eraseNullList F) b).insts → (GetRefOpCall x).isSome = true →
      isNonNullFirstArg x = true := by
    intro b x hx hs
    have := (mem_blockAt_eraseNullList.mp hx).2
    simpa [hs] using this
  have h : (outerLoop fuel O (increfList F) (initState F)).1 = (run fuel O F).1 := rfl
  refine ⟨hA, fun r hr => (mem_increfList.mp hr).2.1, fun r hr => (mem_decrefList.mp hr).2.1,
    ?_, ?_⟩
  · intro b x hx hs
    exact hA b x ((outerLoop_shrinks h b).1 x hx) hs
  · intro e he
    obtain ⟨hi, hd, _⟩ :=
      (outerLoop_pruned_spec h (entryOf_map_some (decrefList F)) rfl).2 e he
    exact ⟨(mem_increfList.mp hi).2.1, (mem_decrefList.mp hd).2.1⟩

/-- The increfs of the pairs recorded by the loop follow the order of the list
of increfs. -/
theorem outerLoop_pruned_sublist {fuel : Nat} {O : DomOracle} {increfs : List RefOp}
    {s0 s : PruneState} (h : (outerLoop fuel O increfs s0).1 = s) :
    ∃ new, s.pruned = s0.pruned ++ new ∧
      (new.map fun e => e.incref).Sublist increfs := by
  induction increfs generalizing s0 with
  | nil =>
    simp only [outerLoop] at h
    exact ⟨[], by simp [h], by simp⟩
  | cons i rest ih =>
    rw [outerLoop_cons_eq] at h
    cases hin : innerLoop fuel O s0.F i s0.decrefs with
    | none =>
      simp only [hin] at h
      exact ⟨[], by simp [h], by simp⟩
    | some r =>
      cases r with
      | none =>
        simp only [hin] at h
        obtain ⟨new, h1, h2⟩ := ih h
        exact ⟨new, h1, h2.trans (List.sublist_cons_self _ _)⟩
      | some dl =>
        obtain ⟨d, l⟩ := dl
        simp only [hin] at h
        obtain ⟨new, h1, h2⟩ := ih h
        refine ⟨⟨i, d, s0.F, s0.decrefs⟩ :: new, ?_, ?_⟩
        · simpa [PruneState.erasePair] using h1
        · simpa using h2

theorem run_two_pairs (fuel : Nat) (O : DomOracle) (i1 i2 d1 d2 : Nat) (n : Nat) (t : Terminator)
    (hi : i1 ≠ i2) (hd : d1 ≠ d2)
    (h11 : O.dominates (mkIncref i1 (Value.ptr n)) (mkDecref d1 (Value.ptr n)) = true)
    (h12 : O.postDominates (mkDecref d1 (Value.ptr n)) (mkIncref i1 (Value.ptr n)) = true)
    (h21 : O.dominates (mkIncref i2 (Value.ptr n)) (mkDecref d2 (Value.ptr n)) = true)
    (h22 : O.postDominates (mkDecref d2 (Value.ptr n)) (mkIncref i2 (Value.ptr n)) = true) :
    run fuel O [⟨[mkIncref i1 (Value.ptr n), mkIncref i2 (Value.ptr n),
        mkDecref d1 (Value.ptr n), mkDecref d2 (Value.ptr n)], t⟩]
      = ({ F := [⟨[], t⟩]
           decrefs := [none, none]
           mutated := true
           pruned :=
            [⟨⟨0, mkIncref i1 (Value.ptr n)⟩, ⟨0, mkDecref d1 (Value.ptr n)⟩,
                [⟨[mkIncref i1 (Value.ptr n), mkIncref i2 (Value.ptr n),
                    mkDecref d1 (Value.ptr n), mkDecref d2 (Value.ptr n)], t⟩],
                [some ⟨0, mkDecref d1 (Value.ptr n)⟩, some ⟨0, mkDecref d2 (Value.ptr n)⟩]⟩,
             ⟨⟨0, mkIncref i2 (Value.ptr n)⟩, ⟨0, mkDecref d2 (Value.ptr n)⟩,
                [⟨[mkIncref i2 (Value.ptr n), mkDecref d2 (Value.ptr n)], t⟩],
                [none, some ⟨0, mkDecref d2 (Value.ptr n)⟩]⟩] }, true) := by
  have hE1 : Eligible fuel O
      [⟨[mkIncref i1 (Value.ptr n), mkIncref i2 (Value.ptr n),
        mkDecref d1 (Value.ptr n), mkDecref d2 (Value.ptr n)], t⟩]
      ⟨0, mkIncref i1 (Value.ptr n)⟩ ⟨0, mkDecref d1 (Value.ptr n)⟩ :=
    ⟨rfl, h11, h12, fun h => absurd rfl h⟩
  have hE2 : Eligible fuel O [⟨[mkIncref i2 (Value.ptr n), mkDecref d2 (Value.ptr n)], t⟩]
      ⟨0, mkIncref i2 (Value.ptr n)⟩ ⟨0, mkDecref d2 (Value.ptr n)⟩ :=
    ⟨rfl, h21, h22, fun h => absurd rfl h⟩
  have hF1 : eraseFromParent ⟨0, mkDecref d1 (Value.ptr n)⟩
      (eraseFromParent ⟨0, mkIncref i1 (Value.ptr n)⟩
        [⟨[mkIncref i1 (Value.ptr n), mkIncref i2 (Value.ptr n),
          mkDecref d1 (Value.ptr n), mkDecref d2 (Value.ptr n)], t⟩])
      = [⟨[mkIncref i2 (Value.ptr n), mkDecref d2 (Value.ptr n)], t⟩] := by
    simp [eraseFromParent, eraseAt, mkIncref, mkDecref, List.filter_cons, hi, hd, Ne.symm hi,
      Ne.symm hd]
  have hF2 : eraseFromParent ⟨0, mkDecref d2 (Value.ptr n)⟩
      (eraseFromParent ⟨0, mkIncref i2 (Value.ptr n)⟩
        [⟨[mkIncref i2 (Value.ptr n), mkDecref d2 (Value.ptr n)], t⟩])
      = [⟨[], t⟩] := by
    simp [eraseFromParent, eraseAt, mkIncref, mkDecref, List.filter_cons]
  show outerLoop fuel O [⟨0, mkIncref i1 (Value.ptr n)⟩, ⟨0, mkIncref i2 (Value.ptr n)⟩]
      ⟨[⟨[mkIncref i1 (Value.ptr n), mkIncref i2 (Value.ptr n),
          mkDecref d1 (Value.ptr n), mkDecref d2 (Value.ptr n)], t⟩],
        [some ⟨0, mkDecref d1 (Value.ptr n)⟩, some ⟨0, mkDecref d2 (Value.ptr n)⟩], false, []⟩ = _
  rw [outerLoop_cons_eq]
  simp only [innerLoop_cons_of_eligible _ hE1, PruneState.erasePair, hF1]
  have hin2 : innerLoop fuel O [⟨[mkIncref i2 (Value.ptr n), mkDecref d2 (Value.ptr n)], t⟩]
      ⟨0, mkIncref i2 (Value.ptr n)⟩ [none, some ⟨0, mkDecref d2 (Value.ptr n)⟩]
      = some (some (⟨0, mkDecref d2 (Value.ptr n)⟩, [none, none])) :=
    innerLoop_of_first_eligible [none] [] (by simp) hE2
  rw [outerLoop_cons_eq]
  simp only [hin2, PruneState.erasePair, hF2]
  rfl

theorem run_four_null (fuel : Nat) (O : DomOracle) (i1 i2 d1 d2 : Nat) (t : Terminator)
    (hi : i1 ≠ i2) (hd : d1 ≠ d2) :
    RefPrunePass.runOnFunction fuel O [⟨[mkIncref i1 Value.null, mkIncref i2 Value.null,
        mkDecref d1 Value.null, mkDecref d2 Value.null], t⟩] = some ([⟨[], t⟩], true) := by
  have h1 : nullList [⟨[mkIncref i1 Value.null, mkIncref i2 Value.null,
        mkDecref d1 Value.null, mkDecref d2 Value.null], t⟩]
      = [⟨0, mkIncref i1 Value.null⟩, ⟨0, mkIncref i2 Value.null⟩,
          ⟨0, mkDecref d1 Value.null⟩, ⟨0, mkDecref d2 Value.null⟩] := rfl
  have h2 : increfList [⟨[mkIncref i1 Value.null, mkIncref i2 Value.null,
        mkDecref d1 Value.null, mkDecref d2 Value.null], t⟩] = [] := rfl
  have h3 : eraseNullList [⟨[mkIncref i1 Value.null, mkIncref i2 Value.null,
        mkDecref d1 Value.null, mkDecref d2 Value.null], t⟩] = [⟨[], t⟩] := by
    rw [eraseNullList, h1]
    simp [eraseFromParent, eraseAt, mkIncref, mkDecref, List.filter_cons, hi,
      hd, Ne.symm hi, Ne.symm hd]
  simp [RefPrunePass.runOnFunction, run, h2, outerLoop, initState, h3, h1]

/-- In a block, the dominance relation tells two instructions at different
positions apart. -/
theorem ne_of_trueOracle {F : Function} {O : DomOracle} (h : TrueOracle F O)
    {b i j : Nat} {x y : Instruction} (hx : InstAt F b i x) (hy : InstAt F b j y)
    (hij : i < j) : x ≠ y := by
  rintro rfl
  have h1 := (h b i x b j x hx hy).1
  have h2 := (h b j x b i x hy hx).1
  have ht : O.dominates x x = true := h1.mpr (Or.inl ⟨rfl, hij⟩)
  rcases h2.mp ht with ⟨_, hlt⟩ | ⟨hne, _⟩
  · omega
  · exact hne rfl

theorem orderOracle_true_nullFourBlock : TrueOracle nullFourBlock orderOracle := by
  have key : ∀ {a k : Nat} {z : Instruction},
      InstAt nullFourBlock a k z → a = 0 ∧ z.id = k := by
    intro a k z hz
    unfold InstAt at hz
    match a, k with
    | 0, 0 => simp [blockAt, nullFourBlock, mkIncref] at hz; simp [← hz]
    | 0, 1 => simp [blockAt, nullFourBlock, mkIncref] at hz; simp [← hz]
    | 0, 2 => simp [blockAt, nullFourBlock, mkDecref] at hz; simp [← hz]
    | 0, 3 => simp [blockAt, nullFourBlock, mkDecref] at hz; simp [← hz]
    | 0, k + 4 => simp [blockAt, nullFourBlock] at hz
    | a + 1, k => simp [blockAt, nullFourBlock] at hz
  intro a i x b j y hx hy
  obtain ⟨rfl, h1⟩ := key hx
  obtain ⟨rfl, h2⟩ := key hy
  simp [orderOracle, h1, h2]

/-- C10 (counterexample): `nullFourBlock` is the block
`incref(p); incref(p); decref(p); decref(p)` with `p` the null pointer, and
`orderOracle` is its dominance relation.  The four refops are in `null_list`
and in neither `incref_list` nor `decref_list`: they are erased one by one
before the pair matching, and no incref is paired with a decref. -/
theorem C10_counterexample :
    TrueOracle nullFourBlock orderOracle
    ∧ nullList nullFourBlock
        = [⟨0, mkIncref 0 Value.null⟩, ⟨0, mkIncref 1 Value.null⟩,
            ⟨0, mkDecref 2 Value.null⟩, ⟨0, mkDecref 3 Value.null⟩]
    ∧ increfList nullFourBlock = []
    ∧ decrefList nullFourBlock = []
    ∧ (∀ fuel, RefPrunePass.runOnFunction fuel orderOracle nullFourBlock
        = some ([⟨[], ⟨10, []⟩⟩], true))
    ∧ ∀ fuel, (run fuel orderOracle nullFourBlock).1.pruned = [] :=
  ⟨orderOracle_true_nullFourBlock, rfl, rfl, rfl, fun _ => rfl, fun _ => rfl⟩

/-- The visit of one incref: when a decref of the list satisfies the matching
condition and the entries before it are consumed or rejected, the incref is
matched with it and the pair is erased and recorded. -/
theorem visit_of_first_eligible {fuel : Nat} {O : DomOracle} {F : Function}
    {pre post : List RefOp} {I : RefOp} (hsplit : increfList F = pre ++ I :: post)
    (hreach : (visitState fuel O F pre).2 = true)
    {dpre dpost : List (Option RefOp)} {d : RefOp}
    (hds : (visitState fuel O F pre).1.decrefs = dpre ++ some d :: dpost)
    (hE : Eligible fuel O (visitState fuel O F pre).1.F I d)
    (hR : ∀ d', some d' ∈ dpre → Rejected fuel O (visitState fuel O F pre).1.F I d') :
    visitState fuel O F (pre ++ [I])
        = ((visitState fuel O F pre).1.erasePair I d (dpre ++ none :: dpost), true)
    ∧ ∃ e ∈ (run fuel O F).1.pruned, e.incref = I ∧ e.decref = d ∧
        e.F = (visitState fuel O F pre).1.F ∧
        e.decrefs = (visitState fuel O F pre).1.decrefs := by
  have hin : innerLoop fuel O (visitState fuel O F pre).1.F I
      (visitState fuel O F pre).1.decrefs
        = some (some (d, dpre ++ none :: dpost)) := by
    rw [hds]
    exact innerLoop_of_first_eligible dpre dpost hR hE
  have hvis : visitState fuel O F (pre ++ [I])
      = ((visitState fuel O F pre).1.erasePair I d (dpre ++ none :: dpost), true) := by
    unfold visitState at hreach hin ⊢
    rw [outerLoop_append, if_pos hreach, outerLoop_cons_eq, hin]
    rfl
  refine ⟨hvis, ?_⟩
  have hrun : run fuel O F
      = outerLoop fuel O post
          ((visitState fuel O F pre).1.erasePair I d (dpre ++ none :: dpost)) := by
    have h1 : increfList F = (pre ++ [I]) ++ post := by
      rw [hsplit]; simp
    unfold run
    rw [h1, outerLoop_append]
    have h2 : outerLoop fuel O (pre ++ [I]) (initState F)
        = ((visitState fuel O F pre).1.erasePair I d (dpre ++ none :: dpost), true) := hvis
    rw [h2]
    rfl
  refine ⟨⟨I, d, (visitState fuel O F pre).1.F, (visitState fuel O F pre).1.decrefs⟩,
    ?_, rfl, rfl, rfl, rfl⟩
  rw [hrun]
  apply outerLoop_pruned_grows rfl
  simp [PruneState.erasePair]

/-- The visit of one incref: when every entry of the list is consumed or
rejected, the incref is left where it is and the state stays as it is. -/
theorem visit_of_all_rejected {fuel : Nat} {O : DomOracle} {F : Function}
    {pre : List RefOp} {I : RefOp}
    (hreach : (visitState fuel O F pre).2 = true)
    (hR : ∀ d', some d' ∈ (visitState fuel O F pre).1.decrefs →
      Rejected fuel O (visitState fuel O F pre).1.F I d') :
    visitState fuel O F (pre ++ [I]) = ((visitState fuel O F pre).1, true) := by
  have hin := innerLoop_of_rejected hR
  unfold visitState at hreach hin ⊢
  rw [outerLoop_append, if_pos hreach, outerLoop_cons_eq, hin]
  rfl

/-- C10 (amended): the increfs of the recorded pairs follow the visit order of
`incref_list`; for each recorded pair the decref list at the moment of the match
is `decref_list` in visit order with the consumed entries set to NULL, and the
decref of the pair is the first entry of it that is not consumed and satisfies
the matching condition (identical operand, `dominates`, `postDominates` and,
across blocks, the cross-block check).  Conversely, when the loop comes to an
incref and an entry of the decref list satisfies the matching condition while
the entries before it are consumed or rejected, the incref is matched with that
decref and both are erased and recorded; when all entries are consumed or
rejected, the incref stays.  For a function that is the block
`incref(p); incref(p); decref(p); decref(p)` with `p` not null, and with an
oracle that relates the first incref to the first decref and the second incref
to the second decref, as the dominance relation of the function does, all four
are erased and the recorded pairs are (first incref, first decref), (second
incref, second decref). -/
theorem C10_greedy_first_fit :
    (∀ (fuel : Nat) (O : DomOracle) (F : Function),
        ((run fuel O F).1.pruned.map fun e => e.incref).Sublist (increfList F) ∧
        ∀ e ∈ (run fuel O F).1.pruned, List.Forall₂ EntryOf e.decrefs (decrefList F) ∧
          ∃ pre post, e.decrefs = pre ++ some e.decref :: post ∧
            Eligible fuel O e.F e.incref e.decref ∧
            ∀ d', some d' ∈ pre → ¬ Eligible fuel O e.F e.incref d')
    ∧ (∀ (fuel : Nat) (O : DomOracle) (F : Function) (pre post : List RefOp) (I : RefOp),
        increfList F = pre ++ I :: post → (visitState fuel O F pre).2 = true →
        (∀ (dpre dpost : List (Option RefOp)) (d : RefOp),
          (visitState fuel O F pre).1.decrefs = dpre ++ some d :: dpost →
          Eligible fuel O (visitState fuel O F pre).1.F I d →
          (∀ d', some d' ∈ dpre → Rejected fuel O (visitState fuel O F pre).1.F I d') →
          visitState fuel O F (pre ++ [I])
              = ((visitState fuel O F pre).1.erasePair I d (dpre ++ none :: dpost), true)
          ∧ ∃ e ∈ (run fuel O F).1.pruned, e.incref = I ∧ e.decref = d ∧
              e.F = (visitState fuel O F pre).1.F ∧
              e.decrefs = (visitState fuel O F pre).1.decrefs)
        ∧ ((∀ d', some d' ∈ (visitState fuel O F pre).1.decrefs →
              Rejected fuel O (visitState fuel O F pre).1.F I d') →
            visitState fuel O F (pre ++ [I]) = ((visitState fuel O F pre).1, true)))
    ∧ (∀ (fuel : Nat) (O : DomOracle) (i1 i2 d1 d2 : Nat) (p : Value) (t : Terminator),
      p ≠ Value.null → i1 ≠ i2 → d1 ≠ d2 →
      O.dominates (mkIncref i1 p) (mkDecref d1 p) = true →
      O.postDominates (mkDecref d1 p) (mkIncref i1 p) = true →
      O.dominates (mkIncref i2 p) (mkDecref d2 p) = true →
      O.postDominates (mkDecref d2 p) (mkIncref i2 p) = true →
        RefPrunePass.runOnFunction fuel O
            [⟨[mkIncref i1 p, mkIncref i2 p, mkDecref d1 p, mkDecref d2 p], t⟩]
          = some ([⟨[], t⟩], true) ∧
        (run fuel O [⟨[mkIncref i1 p, mkIncref i2 p, mkDecref d1 p, mkDecref d2 p],
            t⟩]).1.pruned.map (fun e => (e.incref, e.decref))
          = [((⟨0, mkIncref i1 p⟩ : RefOp), (⟨0, mkDecref d1 p⟩ : RefOp)),
              (⟨0, mkIncref i2 p⟩, ⟨0, mkDecref d2 p⟩)])
    ∧ ∀ (fuel : Nat) (O : DomOracle) (i1 i2 d1 d2 : Nat) (p : Value) (t : Terminator),
      p ≠ Value.null →
      TrueOracle [⟨[mkIncref i1 p, mkIncref i2 p, mkDecref d1 p, mkDecref d2 p], t⟩] O →
        RefPrunePass.runOnFunction fuel O
            [⟨[mkIncref i1 p, mkIncref i2 p, mkDecref d1 p, mkDecref d2 p], t⟩]
          = some ([⟨[], t⟩], true) ∧
        (run fuel O [⟨[mkIncref i1 p, mkIncref i2 p, mkDecref d1 p, mkDecref d2 p],
            t⟩]).1.pruned.map (fun e => (e.incref, e.decref))
          = [((⟨0, mkIncref i1 p⟩ : RefOp), (⟨0, mkDecref d1 p⟩ : RefOp)),
              (⟨0, mkIncref i2 p⟩, ⟨0, mkDecref d2 p⟩)] := by
  refine ⟨?_, ?_, ?_, ?_⟩
  · intro fuel O F
    have h : (outerLoop fuel O (increfList F) (initState F)).1 = (run fuel O F).1 := rfl
    constructor
    · obtain ⟨new, h1, h2⟩ := outerLoop_pruned_sublist h
      have : (run fuel O F).1.pruned = new := by simpa [initState] using h1
      rw [this]
      exact h2
    · intro e he
      obtain ⟨_, _, h3, h4, pre, post, h5, h6⟩ :=
        (outerLoop_pruned_spec h (entryOf_map_some (decrefList F)) rfl).2 e he
      exact ⟨h3, pre, post, h5, h4, fun d' hd' => not_eligible_of_rejected (h6 d' hd')⟩
  · intro fuel O F pre post I hsplit hreach
    exact ⟨fun dpre dpost d hds hE hR => visit_of_first_eligible hsplit hreach hds hE hR,
      fun hR => visit_of_all_rejected hreach hR⟩
  · intro fuel O i1 i2 d1 d2 p t hp hi hd h11 h12 h21 h22
    cases p with
    | null => exact absurd rfl hp
    | ptr n =>
      have := run_two_pairs fuel O i1 i2 d1 d2 n t hi hd h11 h12 h21 h22
      constructor
      · simp [RefPrunePass.runOnFunction, this]
      · simp [this]
  · intro fuel O i1 i2 d1 d2 p t hp hO
    have a0 : InstAt [⟨[mkIncref i1 p, mkIncref i2 p, mkDecref d1 p, mkDecref d2 p], t⟩] 0 0
        (mkIncref i1 p) := rfl
    have a1 : InstAt [⟨[mkIncref i1 p, mkIncref i2 p, mkDecref d1 p, mkDecref d2 p], t⟩] 0 1
        (mkIncref i2 p) := rfl
    have a2 : InstAt [⟨[mkIncref i1 p, mkIncref i2 p, mkDecref d1 p, mkDecref d2 p], t⟩] 0 2
        (mkDecref d1 p) := rfl
    have a3 : InstAt [⟨[mkIncref i1 p, mkIncref i2 p, mkDecref d1 p, mkDecref d2 p], t⟩] 0 3
        (mkDecref d2 p) := rfl
    have hi : i1 ≠ i2 := fun h => ne_of_trueOracle hO a0 a1 (by omega) (by rw [h])
    have hd : d1 ≠ d2 := fun h => ne_of_trueOracle hO a2 a3 (by omega) (by rw [h])
    have h11 := (hO _ _ _ _ _ _ a0 a2).1.mpr (Or.inl ⟨rfl, by omega⟩)
    have h12 := (hO _ _ _ _ _ _ a2 a0).2.mpr (Or.inl ⟨rfl, by omega⟩)
    have h21 := (hO _ _ _ _ _ _ a1 a3).1.mpr (Or.inl ⟨rfl, by omega⟩)
    have h22 := (hO _ _ _ _ _ _ a3 a1).2.mpr (Or.inl ⟨rfl, by omega⟩)
    cases p with
    | null => exact absurd rfl hp
    | ptr n =>
      have := run_two_pairs fuel O i1 i2 d1 d2 n t hi hd h11 h12 h21 h22
      constructor
      · simp [RefPrunePass.runOnFunction, this]
      · simp [this]

theorem orderOracle_true_fourBlock :
    TrueOracle [⟨[mkIncref 0 (Value.ptr 7), mkIncref 1 (Value.ptr 7), mkDecref 2 (Value.ptr 7),
      mkDecref 3 (Value.ptr 7)], ⟨10, []⟩⟩] orderOracle := by
  have key : ∀ {a k : Nat} {z : Instruction},
      InstAt [⟨[mkIncref 0 (Value.ptr 7), mkIncref 1 (Value.ptr 7), mkDecref 2 (Value.ptr 7),
        mkDecref 3 (Value.ptr 7)], ⟨10, []⟩⟩] a k z → a = 0 ∧ z.id = k := by
    intro a k z hz
    unfold InstAt at hz
    match a, k with
    | 0, 0 => simp [blockAt, mkIncref] at hz; simp [← hz]
    | 0, 1 => simp [blockAt, mkIncref] at hz; simp [← hz]
    | 0, 2 => simp [blockAt, mkDecref] at hz; simp [← hz]
    | 0, 3 => simp [blockAt, mkDecref] at hz; simp [← hz]
    | 0, k + 4 => simp [blockAt] at hz
    | a + 1, k => simp [blockAt] at hz
  intro a i x b j y hx hy
  obtain ⟨rfl, h1⟩ := key hx
  obtain ⟨rfl, h2⟩ := key hy
  simp [orderOracle, h1, h2]

/-- C10 (amended) on the block `incref(p); incref(p); decref(p); decref(p)`
with ids 0 to 3 and `p` not null, for which `orderOracle` is the dominance
relation. -/
theorem C10_greedy_first_fit_witness :
    RefPrunePass.runOnFunction 0 orderOracle
        [⟨[mkIncref 0 (Value.ptr 7), mkIncref 1 (Value.ptr 7), mkDecref 2 (Value.ptr 7),
          mkDecref 3 (Value.ptr 7)], ⟨10, []⟩⟩]
      = some ([⟨[], ⟨10, []⟩⟩], true) ∧
    (run 0 orderOracle
        [⟨[mkIncref 0 (Value.ptr 7), mkIncref 1 (Value.ptr 7), mkDecref 2 (Value.ptr 7),
          mkDecref 3 (Value.ptr 7)], ⟨10, []⟩⟩]).1.pruned.map
          (fun e => (e.incref, e.decref))
      = [((⟨0, mkIncref 0 (Value.ptr 7)⟩ : RefOp), (⟨0, mkDecref 2 (Value.ptr 7)⟩ : RefOp)),
          (⟨0, mkIncref 1 (Value.ptr 7)⟩, ⟨0, mkDecref 3 (Value.ptr 7)⟩)] :=
  C10_greedy_first_fit.2.2.2 0 orderOracle 0 1 2 3 (Value.ptr 7) ⟨10, []⟩ (by decide)
    orderOracle_true_fourBlock

/-! ## Chains of three blocks -/

theorem hasDecrefBetweenGraph_succ (F : Function) (fuel head_node tail_node : Nat) :
    hasDecrefBetweenGraph F (fuel + 1) head_node tail_node
      = succLoop F tail_node (fun child => hasDecrefBetweenGraph F fuel child tail_node)
          (blockAt F head_node).term.succs := rfl

theorem blockHasDecref_eq_true {bb : BasicBlock} :
    blockHasDecref bb = true ↔ ∃ x ∈ bb.insts, IsDecRef x = true := by
  simp only [blockHasDecref, List.any_eq_true]
  constructor
  · rintro ⟨x, hx, h⟩
    refine ⟨x, hx, ?_⟩
    by_cases hg : (IsIncRef x || IsDecRef x) = true
    · simpa [GetRefOpCall, hg] using h
    · simp [GetRefOpCall, hg] at h
  · rintro ⟨x, hx, h⟩
    exact ⟨x, hx, by simp [GetRefOpCall, h]⟩

theorem blockHasDecref_eq_false {bb : BasicBlock} :
    blockHasDecref bb = false ↔ ∀ x ∈ bb.insts, IsDecRef x = false := by
  rw [← Bool.not_eq_true, blockHasDecref_eq_true]
  simp

theorem outerLoop_of_no_match {fuel : Nat} {O : DomOracle} {increfs : List RefOp}
    {s : PruneState} (h : ∀ i ∈ increfs, innerLoop fuel O s.F i s.decrefs = some none) :
    outerLoop fuel O increfs s = (s, true) := by
  induction increfs with
  | nil => rfl
  | cons i rest ih =>
    rw [outerLoop_cons_eq, h i (List.mem_cons_self _ _)]
    exact ih (fun i' hi' => h i' (List.mem_cons_of_mem _ hi'))

theorem eraseNullList_of_nullList_nil {F : Function} (h : nullList F = []) :
    eraseNullList F = F := by
  simp [eraseNullList, h]

/-- C7 (counterexample): in `nullChain` the operand `p` is the null pointer;
the oracle relates the incref and the decref of `p`, and the pass erases both
and reports a change. -/
theorem C7_counterexample :
    orderOracle.dominates (mkIncref 0 Value.null) (mkDecref 2 Value.null) = true
    ∧ orderOracle.postDominates (mkDecref 2 Value.null) (mkIncref 0 Value.null) = true
    ∧ RefPrunePass.runOnFunction 3 orderOracle nullChain
      = some ([⟨[], ⟨10, [1]⟩⟩, ⟨[mkDecref 1 (Value.ptr 8)], ⟨11, [2]⟩⟩, ⟨[], ⟨12, []⟩⟩], true) := by
  decide

/-- C7 (amended): let the only refops of a function be `incref(p)` in block
`a`, `decref(q)` in block `b` and `decref(p)` in block `c`, with `p` and `q`
not null, `q` different from `p`, `b` the only successor of `a`, and `c`
different from `a` and `b`.  Then the pass erases nothing: it returns the
function as it was and `false`, whatever the oracle answers. -/
theorem C7_unsafe_cross_block_rejected (fuel : Nat) (O : DomOracle) (F : Function)
    (a b c i j k : Nat) (p q : Value)
    (hp : p ≠ Value.null) (hq : q ≠ Value.null) (hqp : q ≠ p) (hac : a ≠ c) (hbc : b ≠ c)
    (hsucc : (blockAt F a).term.succs = [b])
    (hB : mkDecref j q ∈ (blockAt F b).insts)
    (honly : ∀ r ∈ refOps F,
      r = ⟨a, mkIncref i p⟩ ∨ r = ⟨b, mkDecref j q⟩ ∨ r = ⟨c, mkDecref k p⟩) :
    RefPrunePass.runOnFunction (fuel + 1) O F = some (F, false) := by
  have hnull : nullList F = [] := by
    simp only [nullList, List.filter_eq_nil_iff]
    intro r hr
    rcases honly r hr with rfl | rfl | rfl <;>
      simp [isNonNullFirstArg, mkIncref, mkDecref, hp, hq]
  have hinc : ∀ r ∈ increfList F, r = ⟨a, mkIncref i p⟩ := by
    intro r hr
    simp only [increfList, List.mem_filter] at hr
    rcases honly r hr.1 with rfl | rfl | rfl
    · rfl
    · simp [IsIncRef, mkDecref] at hr
    · simp [IsIncRef, mkDecref] at hr
  have hdec : ∀ d, some d ∈ (decrefList F).map some →
      d = ⟨b, mkDecref j q⟩ ∨ d = ⟨c, mkDecref k p⟩ := by
    intro d hd
    simp only [List.mem_map, Option.some.injEq, exists_eq_right, decrefList,
      List.mem_filter] at hd
    rcases honly d hd.1 with rfl | h | h
    · simp [IsDecRef, mkIncref] at hd
    · exact Or.inl h
    · exact Or.inr h
  have hwalk : hasDecrefBetweenGraph F (fuel + 1) a c = some true := by
    have hb : blockHasDecref (blockAt F b) = true :=
      blockHasDecref_eq_true.mpr ⟨_, hB, rfl⟩
    rw [hasDecrefBetweenGraph_succ, hsucc]
    simp [succLoop, hbc, hb]
  have hinner : ∀ r ∈ increfList F,
      innerLoop (fuel + 1) O F r ((decrefList F).map some) = some none := by
    intro r hr
    rw [hinc r hr]
    apply innerLoop_of_rejected
    intro d hd
    rcases hdec d hd with rfl | rfl
    · exact Or.inl (by simpa [mkIncref, mkDecref] using Ne.symm hqp)
    · by_cases hdp : O.dominates (mkIncref i p) (mkDecref k p) = true ∧
          O.postDominates (mkDecref k p) (mkIncref i p) = true
      · exact Or.inr (Or.inr ⟨hac, hwalk⟩)
      · exact Or.inr (Or.inl hdp)
  have hrun : run (fuel + 1) O F = (initState F, true) := by
    unfold run
    apply outerLoop_of_no_match
    intro r hr
    simpa [initState, eraseNullList_of_nullList_nil hnull] using hinner r hr
  simp [RefPrunePass.runOnFunction, hrun, initState, eraseNullList_of_nullList_nil hnull, hnull]

/-- C7 (amended) on `unsafeChain`. -/
theorem C7_unsafe_cross_block_rejected_witness :
    RefPrunePass.runOnFunction 1 orderOracle unsafeChain = some (unsafeChain, false) :=
  C7_unsafe_cross_block_rejected 0 orderOracle unsafeChain 0 1 2 0 1 2 (Value.ptr 7) (Value.ptr 8)
    (by decide) (by decide) (by decide) (by decide) (by decide) (by decide) (by decide)
    (by decide)


/-- C8 (counterexample): in `greedyChain` block 0 holds `incref(p)`, block 1
no decref and block 2 `decref(p)`, and the oracle relates the incref to the
decref of block 2; but block 0 also holds a `decref(p)`, which is matched
first, so the decref of block 2 stays. -/
theorem C8_counterexample :
    orderOracle.dominates (mkIncref 0 (Value.ptr 7)) (mkDecref 2 (Value.ptr 7)) = true
    ∧ orderOracle.postDominates (mkDecref 2 (Value.ptr 7)) (mkIncref 0 (Value.ptr 7)) = true
    ∧ RefPrunePass.runOnFunction 3 orderOracle greedyChain
      = some ([⟨[], ⟨10, [1]⟩⟩, ⟨[], ⟨11, [2]⟩⟩, ⟨[mkDecref 2 (Value.ptr 7)], ⟨12, []⟩⟩], true) := by
  decide

theorem filter_blockRefOps_decref_eq_nil {b : Nat} {insts : List Instruction}
    (h : ∀ x ∈ insts, IsDecRef x = false) :
    (blockRefOps b insts).filter
      (fun ci => isNonNullFirstArg ci.inst && !IsIncRef ci.inst && IsDecRef ci.inst) = [] := by
  simp only [List.filter_eq_nil_iff]
  intro r hr
  have := h r.inst (mem_blockRefOps.mp hr).2.1
  simp [this]

/-! ## Matching inside a block -/

theorem cyclicFunction_walk_1_2 (fuel : Nat) :
    hasDecrefBetweenGraph cyclicFunction fuel 1 2 = none := by
  induction fuel with
  | zero => rfl
  | succ fuel ih =>
    rw [hasDecrefBetweenGraph_succ]
    have : (blockAt cyclicFunction 1).term.succs = [1, 2] := rfl
    rw [this]
    have hb : blockHasDecref (blockAt cyclicFunction 1) = false := rfl
    simp [succLoop, hb, ih]

theorem cyclicFunction_walk_0_2 (fuel : Nat) :
    hasDecrefBetweenGraph cyclicFunction fuel 0 2 = none := by
  cases fuel with
  | zero => rfl
  | succ fuel =>
    rw [hasDecrefBetweenGraph_succ]
    have : (blockAt cyclicFunction 0).term.succs = [1] := rfl
    rw [this]
    have hb : blockHasDecref (blockAt cyclicFunction 1) = false := rfl
    simp [succLoop, hb, cyclicFunction_walk_1_2]

theorem cyclicFunction_instAt {a i : Nat} {x : Instruction}
    (h : InstAt cyclicFunction a i x) :
    (a = 0 ∧ x.id = i) ∨ (a = 2 ∧ i = 0 ∧ x.id = 3) := by
  unfold InstAt at h
  match a, i with
  | 0, 0 => left; simp [blockAt, cyclicFunction, mkIncref] at h; simp [← h]
  | 0, 1 => left; simp [blockAt, cyclicFunction, mkIncref] at h; simp [← h]
  | 0, 2 => left; simp [blockAt, cyclicFunction, mkDecref] at h; simp [← h]
  | 0, i + 3 => simp [blockAt, cyclicFunction] at h
  | 1, i => simp [blockAt, cyclicFunction] at h
  | 2, 0 => right; simp [blockAt, cyclicFunction, mkDecref] at h; simp [← h]
  | 2, i + 1 => simp [blockAt, cyclicFunction] at h
  | a + 3, i => simp [blockAt, cyclicFunction] at h

/-- C9 (counterexample): `cyclicFunction` has a block with `incref(p)` followed
by `decref(p)`, `p` not null, no other refop on `p`, and the oracle relates
every instruction to the later instructions of its block; but the pass does not
return: the incref of `q`, visited first, is tested against the decref of `q`
in block 2, and `hasDecrefBetweenGraph` runs around the cycle of block 1
forever. -/
theorem C9_counterexample :
    (∀ b i j x y, InstAt cyclicFunction b i x → InstAt cyclicFunction b j y → i < j →
      orderOracle.dominates x y = true ∧ orderOracle.postDominates y x = true)
    ∧ (∀ r ∈ RefPrunePass.refOps cyclicFunction, r.inst.arg = Value.ptr 7 →
        r = ⟨0, mkIncref 1 (Value.ptr 7)⟩ ∨ r = ⟨0, mkDecref 2 (Value.ptr 7)⟩)
    ∧ ∀ fuel, RefPrunePass.runOnFunction fuel orderOracle cyclicFunction = none := by
  refine ⟨?_, by decide, ?_⟩
  · intro b i j x y hx hy hij
    rcases cyclicFunction_instAt hx with ⟨h0, h1⟩ | ⟨h1, h2, h3⟩ <;>
      rcases cyclicFunction_instAt hy with ⟨h7, h4⟩ | ⟨h4, h5, h6⟩ <;>
      simp [orderOracle] <;> omega
  · intro fuel
    have hE : eraseNullList cyclicFunction = cyclicFunction := rfl
    have hI : increfList cyclicFunction
        = [⟨0, mkIncref 0 (Value.ptr 8)⟩, ⟨0, mkIncref 1 (Value.ptr 7)⟩] := rfl
    have hD : decrefList cyclicFunction
        = [⟨0, mkDecref 2 (Value.ptr 7)⟩, ⟨2, mkDecref 3 (Value.ptr 8)⟩] := rfl
    have hin : innerLoop fuel orderOracle cyclicFunction ⟨0, mkIncref 0 (Value.ptr 8)⟩
        [some ⟨0, mkDecref 2 (Value.ptr 7)⟩, some ⟨2, mkDecref 3 (Value.ptr 8)⟩] = none := by
      simp [innerLoop, mkIncref, mkDecref, orderOracle, keepEntry, cyclicFunction_walk_0_2]
    simp [RefPrunePass.runOnFunction, run, hI, outerLoop, initState, hE, hD, hin]


/-- The inner loop matches `d0` whatever the fuel when `d0` is in the list,
has the parent of the incref, passes the dominance test, and is the only
decref of the list with the operand of the incref. -/
theorem innerLoop_same_block {fuel : Nat} {O : DomOracle} {G : Function} {i d0 : RefOp}
    {ds : List (Option RefOp)} (hmem : some d0 ∈ ds)
    (honly : ∀ d, some d ∈ ds → d.inst.arg = i.inst.arg → d = d0)
    (harg : i.inst.arg = d0.inst.arg) (hpar : i.parent = d0.parent)
    (hdom : O.dominates i.inst d0.inst = true) (hpdom : O.postDominates d0.inst i.inst = true) :
    ∃ l, innerLoop fuel O G i ds = some (some (d0, l)) := by
  obtain ⟨pre, post, hds, hpre⟩ := List.eq_append_cons_of_mem hmem
  refine ⟨pre ++ none :: post, ?_⟩
  rw [hds]
  apply innerLoop_of_first_eligible
  · intro d' hd'
    refine Or.inl (fun h => ?_)
    have : d' = d0 := honly d' (by rw [hds]; simp [hd']) h.symm
    exact hpre (this ▸ hd')
  · exact ⟨harg, hdom, hpdom, fun h => absurd hpar h⟩

/-- C9 (amended): let the pass return on a function in which block `b` holds
`incref(p)` at position `i` and `decref(p)` at a later position `j`, `p` not
null, with no other refop on `p` in the function, and let the oracle relate
every instruction to the later instructions of its block.  Then both are gone
from the result, they are recorded as one pair, and the inner loop finds this
match also when no call of `hasDecrefBetweenGraph` can return (fuel 0): the
cross-block check is not consulted for it. -/
theorem C9_intra_block_matching (fuel : Nat) (O : DomOracle) (F : Function) (s : PruneState)
    (b i j ii jd : Nat) (p : Value)
    (h : run fuel O F = (s, true))
    (hp : p ≠ Value.null) (hij : i < j)
    (hI : InstAt F b i (mkIncref ii p)) (hD : InstAt F b j (mkDecref jd p))
    (honly : ∀ r ∈ refOps F, r.inst.arg = p → r = ⟨b, mkIncref ii p⟩ ∨ r = ⟨b, mkDecref jd p⟩)
    (horacle : ∀ b i j x y, InstAt F b i x → InstAt F b j y → i < j →
      O.dominates x y = true ∧ O.postDominates y x = true) :
    mkIncref ii p ∉ (blockAt s.F b).insts ∧ mkDecref jd p ∉ (blockAt s.F b).insts ∧
    ∃ e ∈ s.pruned, e.incref = ⟨b, mkIncref ii p⟩ ∧ e.decref = ⟨b, mkDecref jd p⟩ ∧
      ∃ l, innerLoop 0 O e.F e.incref e.decrefs = some (some (e.decref, l)) := by
  have hImem : mkIncref ii p ∈ (blockAt F b).insts := List.get?_mem hI
  have hDmem : mkDecref jd p ∈ (blockAt F b).insts := List.get?_mem hD
  have hnn : isNonNullFirstArg (mkIncref ii p) = true := by
    simpa [isNonNullFirstArg, mkIncref] using hp
  have hIl : (⟨b, mkIncref ii p⟩ : RefOp) ∈ increfList F :=
    mem_increfList.mpr ⟨hImem, hnn, rfl⟩
  have hDl : (⟨b, mkDecref jd p⟩ : RefOp) ∈ decrefList F :=
    mem_decrefList.mpr ⟨hDmem, by simpa [isNonNullFirstArg, mkDecref] using hp, rfl⟩
  obtain ⟨l1, l2, hsplit, hl1⟩ := List.eq_append_cons_of_mem hIl
  unfold run at h
  rw [hsplit, outerLoop_append] at h
  cases hfl : (outerLoop fuel O l1 (initState F)).2 with
  | false => simp [hfl] at h
  | true =>
    simp only [hfl, if_true] at h
    obtain ⟨s1, h1⟩ : ∃ s1, (outerLoop fuel O l1 (initState F)).1 = s1 := ⟨_, rfl⟩
    rw [h1] at h
    -- the increfs visited before have another operand
    have hl1arg : ∀ r ∈ l1, r.inst.arg ≠ p := by
      intro r hr harg
      have hrl : r ∈ increfList F := by rw [hsplit]; simp [hr]
      have hr' := List.mem_filter.mp hrl
      rcases honly r hr'.1 harg with rfl | rfl
      · exact hl1 hr
      · simp [IsIncRef, mkDecref] at hr'
    -- so the decref is still in the list, and it is the only one on `p`
    have hQ : some (⟨b, mkDecref jd p⟩ : RefOp) ∈ s1.decrefs ∧
        ∀ d, some d ∈ s1.decrefs → d ∈ decrefList F := by
      refine outerLoop_induction
        (fun s => some (⟨b, mkDecref jd p⟩ : RefOp) ∈ s.decrefs ∧
          ∀ d, some d ∈ s.decrefs → d ∈ decrefList F) l1 ?_ ?_ h1
      · intro s r d l hr hP hin
        obtain ⟨pre, post, e1, e2, hE, _⟩ := innerLoop_match hin
        have hne : d ≠ ⟨b, mkDecref jd p⟩ := by
          rintro rfl
          exact hl1arg r hr hE.1
        constructor
        · have := hP.1
          rw [e1] at this
          simp only [PruneState.erasePair, e2, List.mem_append, List.mem_cons] at this ⊢
          rcases this with h | h | h
          · exact Or.inl h
          · exact absurd (Option.some.inj h).symm hne
          · exact Or.inr (Or.inr h)
        · intro d' hd'
          apply hP.2
          rw [e1]
          simp only [PruneState.erasePair, e2, List.mem_append, List.mem_cons] at hd' ⊢
          rcases hd' with h | h | h
          · exact Or.inl h
          · cases h
          · exact Or.inr (Or.inr h)
      · simp only [initState, List.mem_map, Option.some.injEq, exists_eq_right]
        exact ⟨hDl, fun d hd => hd⟩
    have honlyD : ∀ d, some d ∈ s1.decrefs →
        d.inst.arg = (⟨b, mkIncref ii p⟩ : RefOp).inst.arg → d = ⟨b, mkDecref jd p⟩ := by
      intro d hd harg
      have hd' := List.mem_filter.mp (hQ.2 d hd)
      rcases honly d hd'.1 harg with rfl | rfl
      · simp [IsDecRef, mkIncref] at hd'
      · rfl
    have hor := horacle b i j _ _ hI hD hij
    obtain ⟨l, hin⟩ := @innerLoop_same_block fuel O s1.F _ _ _ hQ.1 honlyD rfl rfl
      hor.1 hor.2
    obtain ⟨l0, hin0⟩ := @innerLoop_same_block 0 O s1.F _ _ _ hQ.1 honlyD rfl rfl
      hor.1 hor.2
    rw [outerLoop_cons_eq, hin] at h
    simp only at h
    have hshr := outerLoop_shrinks (congrArg Prod.fst h) b
    have hgrow := outerLoop_pruned_grows (congrArg Prod.fst h)
    refine ⟨fun hx => ?_, fun hx => ?_, ?_⟩
    · have := hshr.1 _ hx
      simp [PruneState.erasePair, mem_blockAt_eraseFromParent] at this
    · have := hshr.1 _ hx
      simp [PruneState.erasePair, mem_blockAt_eraseFromParent] at this
    · exact ⟨⟨⟨b, mkIncref ii p⟩, ⟨b, mkDecref jd p⟩, s1.F, s1.decrefs⟩,
        hgrow _ (by simp [PruneState.erasePair]), rfl, rfl, l0, hin0⟩

/-- C9 (amended) on `intraBlockFunction`, where an unrelated decref stands
between `incref(p)` and `decref(p)`. -/
theorem C9_intra_block_matching_witness :
    run 0 orderOracle intraBlockFunction
      = (⟨[⟨[mkDecref 1 (Value.ptr 8)], ⟨10, []⟩⟩],
          [some ⟨0, mkDecref 1 (Value.ptr 8)⟩, none], true,
          [⟨⟨0, mkIncref 0 (Value.ptr 7)⟩, ⟨0, mkDecref 2 (Value.ptr 7)⟩, intraBlockFunction,
            [some ⟨0, mkDecref 1 (Value.ptr 8)⟩, some ⟨0, mkDecref 2 (Value.ptr 7)⟩]⟩]⟩, true)
    ∧ mkIncref 0 (Value.ptr 7)
        ∉ (blockAt [⟨[mkDecref 1 (Value.ptr 8)], ⟨10, []⟩⟩] 0).insts
    ∧ mkDecref 2 (Value.ptr 7)
        ∉ (blockAt [⟨[mkDecref 1 (Value.ptr 8)], ⟨10, []⟩⟩] 0).insts :=
  have h := C9_intra_block_matching 0 orderOracle intraBlockFunction
    ⟨[⟨[mkDecref 1 (Value.ptr 8)], ⟨10, []⟩⟩],
      [some ⟨0, mkDecref 1 (Value.ptr 8)⟩, none], true,
      [⟨⟨0, mkIncref 0 (Value.ptr 7)⟩, ⟨0, mkDecref 2 (Value.ptr 7)⟩, intraBlockFunction,
        [some ⟨0, mkDecref 1 (Value.ptr 8)⟩, some ⟨0, mkDecref 2 (Value.ptr 7)⟩]⟩]⟩
    0 0 2 0 2 (Value.ptr 7) (by decide) (by decide) (by decide) rfl rfl
    (by decide)
    (by
      intro b i j x y hx hy hij
      have key : ∀ {a k : Nat} {z : Instruction}, InstAt intraBlockFunction a k z → z.id = k := by
        intro a k z hz
        unfold InstAt at hz
        match a, k with
        | 0, 0 => simp [blockAt, intraBlockFunction, mkIncref] at hz; simp [← hz]
        | 0, 1 => simp [blockAt, intraBlockFunction, mkDecref] at hz; simp [← hz]
        | 0, 2 => simp [blockAt, intraBlockFunction, mkDecref] at hz; simp [← hz]
        | 0, k + 3 => simp [blockAt, intraBlockFunction] at hz
        | a + 1, k => simp [blockAt, intraBlockFunction] at hz
      simp [orderOracle, key hx, key hy, hij])
  ⟨by decide, h.1, h.2.1⟩


/-! ## Running the pruner twice -/

/-- C3 (counterexample): on `staleChain` the first run rejects the pair on `p`
because block 1 holds `decref(q)`, then erases the pair on `q`; the second run,
on the output of the first, erases the pair on `p` and returns `true`. -/
theorem C3_counterexample :
    RefPrunePass.runOnFunction 3 orderOracle staleChain = some (staleChainOnce, true)
    ∧ RefPrunePass.runOnFunction 3 orderOracle staleChainOnce = some (staleChainTwice, true)
    ∧ staleChainTwice ≠ staleChainOnce := by
  decide

/-- Entries of the decref list are only ever set to NULL. -/
theorem outerLoop_decrefs_shrink {fuel : Nat} {O : DomOracle} {increfs : List RefOp}
    {s0 s : PruneState} (h : (outerLoop fuel O increfs s0).1 = s) :
    ∀ d, some d ∈ s.decrefs → some d ∈ s0.decrefs := by
  refine outerLoop_induction (fun s => ∀ d, some d ∈ s.decrefs → some d ∈ s0.decrefs)
    increfs ?_ (fun _ hd => hd) h
  intro s i d l _ hP hin d' hd'
  obtain ⟨pre, post, e1, e2, _, _⟩ := innerLoop_match hin
  apply hP
  rw [e1]
  simp only [PruneState.erasePair, e2, List.mem_append, List.mem_cons] at hd' ⊢
  rcases hd' with h | h | h
  · exact Or.inl h
  · cases h
  · exact Or.inr (Or.inr h)

/-- A decref whose entry was set to NULL is erased from its block. -/
theorem outerLoop_consumed_erased {fuel : Nat} {O : DomOracle} {increfs : List RefOp}
    {s0 s : PruneState} (h : (outerLoop fuel O increfs s0).1 = s) :
    ∀ d, some d ∈ s0.decrefs →
      some d ∈ s.decrefs ∨ d.inst ∉ (blockAt s.F d.parent).insts := by
  refine outerLoop_induction
    (fun s => ∀ d, some d ∈ s0.decrefs →
      some d ∈ s.decrefs ∨ d.inst ∉ (blockAt s.F d.parent).insts)
    increfs ?_ (fun _ hd => Or.inl hd) h
  intro s i d l _ hP hin d' hd'
  obtain ⟨pre, post, e1, e2, _, _⟩ := innerLoop_match hin
  rcases hP d' hd' with h | h
  · rw [e1] at h
    simp only [List.mem_append, List.mem_cons] at h
    rcases h with h | h | h
    · left; simp [PruneState.erasePair, e2, h]
    · right
      cases h
      simp [PruneState.erasePair, mem_blockAt_eraseFromParent]
    · left; simp [PruneState.erasePair, e2, h]
  · right
    intro hx
    simp only [PruneState.erasePair, mem_blockAt_eraseFromParent] at hx
    exact h hx.1.1

/-- After a loop that came to its end, an incref of the list that is still in
its block has no decref left in the list that has its parent, its operand and
passes the dominance test. -/
theorem outerLoop_unmatched {fuel : Nat} {O : DomOracle} {increfs : List RefOp}
    {s0 s : PruneState} (h : outerLoop fuel O increfs s0 = (s, true)) :
    ∀ i ∈ increfs, i.inst ∈ (blockAt s.F i.parent).insts →
      ∀ d, some d ∈ s.decrefs → i.parent = d.parent → i.inst.arg = d.inst.arg →
        ¬ (O.dominates i.inst d.inst = true ∧ O.postDominates d.inst i.inst = true) := by
  induction increfs generalizing s0 with
  | nil => simp
  | cons i0 rest ih =>
    rw [outerLoop_cons_eq] at h
    intro i hi hmem d hd hpar harg hdom
    cases hin : innerLoop fuel O s0.F i0 s0.decrefs with
    | none => simp [hin] at h
    | some r =>
      cases r with
      | none =>
        simp only [hin] at h
        rcases List.mem_cons.mp hi with rfl | hi
        · have hd0 := outerLoop_decrefs_shrink (congrArg Prod.fst h) d hd
          rcases innerLoop_no_match hin d hd0 with h1 | h1 | h1
          · exact h1 harg
          · exact h1 hdom
          · exact h1.1 hpar
        · exact ih h i hi hmem d hd hpar harg hdom
      | some dl =>
        obtain ⟨dm, l⟩ := dl
        simp only [hin] at h
        rcases List.mem_cons.mp hi with rfl | hi
        · have := (outerLoop_shrinks (congrArg Prod.fst h) i.parent).1 _ hmem
          simp [PruneState.erasePair, mem_blockAt_eraseFromParent] at this
        · exact ih h i hi hmem d hd hpar harg hdom

/-- When the loop records no pair it leaves the function and the flag as they
were. -/
theorem outerLoop_of_pruned_nil {fuel : Nat} {O : DomOracle} {increfs : List RefOp}
    {s0 s : PruneState} (h : (outerLoop fuel O increfs s0).1 = s) :
    s.pruned = [] → s.F = s0.F ∧ s.mutated = s0.mutated := by
  refine outerLoop_induction (fun s => s.pruned = [] → s.F = s0.F ∧ s.mutated = s0.mutated)
    increfs ?_ (fun _ => ⟨rfl, rfl⟩) h
  intro s i d l _ _ _ hnil
  simp [PruneState.erasePair] at hnil

theorem run_leaves_no_null (fuel : Nat) (O : DomOracle) (F : Function) :
    ∀ b x, x ∈ (blockAt (run fuel O F).1.F b).insts → (GetRefOpCall x).isSome = true →
      isNonNullFirstArg x = true := by
  intro b x hx hs
  have h : (outerLoop fuel O (increfList F) (initState F)).1 = (run fuel O F).1 := rfl
  have h1 : x ∈ (blockAt (eraseNullList F) b).insts := (outerLoop_shrinks h b).1 x hx
  have := (mem_blockAt_eraseNullList.mp h1).2
  simpa [hs] using this

theorem nullList_run_eq_nil (fuel : Nat) (O : DomOracle) (F : Function) :
    nullList (run fuel O F).1.F = [] := by
  simp only [nullList, List.filter_eq_nil_iff]
  intro r hr
  have hr' := mem_refOps.mp hr
  have := run_leaves_no_null fuel O F r.parent r.inst hr'.1 hr'.2
  simp [this]



/-! ## The change flag of the normaliser -/

theorem lastIncrefPos_cons (ii : Instruction) (rest : List Instruction) (pos : Nat)
    (last : Option Nat) :
    lastIncrefPos (ii :: rest) pos last
      = lastIncrefPos rest (pos + 1) (if IsIncRef ii = true then some pos else last) := by
  by_cases h : IsIncRef ii = true
  · simp [lastIncrefPos, GetRefOpCall, h]
  · by_cases hd : IsDecRef ii = true
    · simp [lastIncrefPos, GetRefOpCall, h, hd]
    · simp [lastIncrefPos, GetRefOpCall, h, hd]

theorem lastIncrefPos_of_no_incref (l : List Instruction) (pos : Nat) (last : Option Nat)
    (h : ∀ x ∈ l, IsIncRef x = false) : lastIncrefPos l pos last = last := by
  induction l generalizing pos with
  | nil => rfl
  | cons x rest ih =>
    rw [lastIncrefPos_cons]
    simp only [h x (List.mem_cons_self _ _), Bool.false_eq_true, if_false]
    exact ih _ (fun y hy => h y (List.mem_cons_of_mem _ hy))

/-- When the list holds an incref, the position remembered so far does not
matter, and a position is found. -/
theorem lastIncrefPos_of_incref (l : List Instruction) (p : Nat) (q : Option Nat)
    (h : ∃ y ∈ l, IsIncRef y = true) :
    lastIncrefPos l p q = lastIncrefPos l p none ∧ lastIncrefPos l p none ≠ none := by
  induction l generalizing p q with
  | nil => simp at h
  | cons y l ih =>
    rw [lastIncrefPos_cons, lastIncrefPos_cons]
    by_cases hl : ∃ z ∈ l, IsIncRef z = true
    · have h1 := ih (p + 1) (if IsIncRef y = true then some p else q) hl
      have h2 := ih (p + 1) (if IsIncRef y = true then some p else none) hl
      exact ⟨h1.1.trans h2.1.symm, h2.1 ▸ h2.2⟩
    · have hl' : ∀ z ∈ l, IsIncRef z = false := by
        intro z hz
        by_contra hne
        exact hl ⟨z, hz, by simpa using hne⟩
      have hy : IsIncRef y = true := by
        obtain ⟨z, hz, hzi⟩ := h
        rcases List.mem_cons.mp hz with rfl | hz
        · exact hzi
        · rw [hl' z hz] at hzi; cases hzi
      rw [lastIncrefPos_of_no_incref l _ _ hl', lastIncrefPos_of_no_incref l _ _ hl']
      simp [hy]

/-- The first loop finds the last incref: the list splits at it. -/
theorem lastIncrefPos_eq_some {l : List Instruction} {pos k : Nat}
    (h : lastIncrefPos l pos none = some k) :
    ∃ a i c, l = a ++ i :: c ∧ IsIncRef i = true ∧ (∀ x ∈ c, IsIncRef x = false) ∧
      k = pos + a.length := by
  induction l generalizing pos with
  | nil => simp [lastIncrefPos] at h
  | cons x rest ih =>
    rw [lastIncrefPos_cons] at h
    by_cases hr : ∃ y ∈ rest, IsIncRef y = true
    · rw [(lastIncrefPos_of_incref rest _ _ hr).1] at h
      obtain ⟨a, i, c, h1, h2, h3, h4⟩ := ih h
      exact ⟨x :: a, i, c, by simp [h1], h2, h3, by simp [h4]; omega⟩
    · have hr' : ∀ z ∈ rest, IsIncRef z = false := by
        intro z hz
        by_contra hne
        exact hr ⟨z, hz, by simpa using hne⟩
      rw [lastIncrefPos_of_no_incref rest _ _ hr'] at h
      by_cases hx : IsIncRef x = true
      · simp only [hx, if_true, Option.some.injEq] at h
        exact ⟨[], x, rest, rfl, hx, hr', by simp [h]⟩
      · simp [hx] at h

theorem lastIncrefPos_eq_none {l : List Instruction} {pos : Nat}
    (h : lastIncrefPos l pos none = none) : ∀ x ∈ l, IsIncRef x = false := by
  intro x hx
  by_contra hne
  exact (lastIncrefPos_of_incref l pos none ⟨x, hx, by simpa using hne⟩).2 h

theorem moveLoop_step (k : Nat) (before : List Instruction) (x : Instruction)
    (rest : List Instruction) (pos : Nat) (hpos : pos < k) :
    moveLoop k before (x :: rest) pos
      = if IsDecRef x = true then (before ++ rest ++ [x], true)
        else moveLoop k (before ++ [x]) rest (pos + 1) := by
  by_cases hd : IsDecRef x = true
  · simp [moveLoop, hpos, GetRefOpCall, hd]
  · by_cases hi : IsIncRef x = true
    · simp [moveLoop, hpos, GetRefOpCall, hd, hi]
    · simp [moveLoop, hpos, GetRefOpCall, hd, hi]

/-- The second loop leaves the block as it is when the part before the last
incref holds no decref. -/
theorem moveLoop_of_no_decref (k : Nat) (a c before : List Instruction) (pos : Nat)
    (hk : k = pos + a.length) (ha : ∀ x ∈ a, IsDecRef x = false) :
    moveLoop k before (a ++ c) pos = (before ++ (a ++ c), false) := by
  induction a generalizing before pos with
  | nil =>
    have : ¬ pos < k := by simp at hk; omega
    cases c with
    | nil => simp [moveLoop]
    | cons y c => simp [moveLoop, this]
  | cons x a ih =>
    have hpos : pos < k := by simp at hk; omega
    rw [List.cons_append, moveLoop_step _ _ _ _ _ hpos]
    simp only [ha x (List.mem_cons_self _ _), Bool.false_eq_true, if_false]
    rw [ih (before ++ [x]) (pos + 1) (by simp at hk ⊢; omega)
      (fun y hy => ha y (List.mem_cons_of_mem _ hy))]
    simp

/-- The second loop moves the first decref of the part before the last incref
to the end of the instruction list. -/
theorem moveLoop_of_first_decref (k : Nat) (l1 : List Instruction) (d : Instruction)
    (l2 before : List Instruction) (pos : Nat)
    (hk : pos + l1.length < k) (hl1 : ∀ x ∈ l1, IsDecRef x = false) (hd : IsDecRef d = true) :
    moveLoop k before (l1 ++ d :: l2) pos = (before ++ l1 ++ l2 ++ [d], true) := by
  induction l1 generalizing before pos with
  | nil =>
    rw [List.nil_append, moveLoop_step _ _ _ _ _ (by simpa using hk)]
    simp [hd]
  | cons x l1 ih =>
    have hpos : pos < k := by simp at hk; omega
    rw [List.cons_append, moveLoop_step _ _ _ _ _ hpos]
    simp only [hl1 x (List.mem_cons_self _ _), Bool.false_eq_true, if_false]
    rw [ih (before ++ [x]) (pos + 1) (by simp at hk ⊢; omega)
      (fun y hy => hl1 y (List.mem_cons_of_mem _ hy))]
    simp


theorem exists_first_split {α : Type} (P : α → Bool) (a : List α) (h : ∃ d ∈ a, P d = true) :
    ∃ l1 d l2, a = l1 ++ d :: l2 ∧ P d = true ∧ ∀ x ∈ l1, P x = false := by
  induction a with
  | nil => simp at h
  | cons x a ih =>
    by_cases hx : P x = true
    · exact ⟨[], x, a, rfl, hx, by simp⟩
    · have : ∃ d ∈ a, P d = true := by
        obtain ⟨d, hd, hp⟩ := h
        rcases List.mem_cons.mp hd with rfl | hd
        · exact absurd hp hx
        · exact ⟨d, hd, hp⟩
      obtain ⟨l1, d, l2, h1, h2, h3⟩ := ih this
      refine ⟨x :: l1, d, l2, by simp [h1], h2, ?_⟩
      intro y hy
      rcases List.mem_cons.mp hy with rfl | hy
      · simpa using hx
      · exact h3 y hy

theorem decrefBeforeLastIncref_of_split {l1 r : List Instruction} {d i : Instruction}
    (hd : IsDecRef d = true) (hi : i ∈ r) (hii : IsIncRef i = true) :
    DecrefBeforeLastIncref (l1 ++ d :: r) := by
  obtain ⟨n, hn, hget⟩ := List.getElem_of_mem hi
  refine ⟨l1.length, l1.length + 1 + n, d, i, by omega, ?_, hd, ?_, hii⟩
  · rw [List.get?_eq_getElem?, List.getElem?_append_right (le_refl _)]
    simp
  · rw [List.get?_eq_getElem?, List.getElem?_append_right (by omega)]
    have : l1.length + 1 + n - l1.length = n + 1 := by omega
    rw [this]
    simp [List.getElem?_eq_getElem hn, hget]

theorem not_decrefBeforeLastIncref_of_no_incref {l : List Instruction}
    (h : ∀ x ∈ l, IsIncRef x = false) : ¬ DecrefBeforeLastIncref l := by
  rintro ⟨m, k, d, i, _, _, _, hk, hi⟩
  rw [h i (List.get?_mem hk)] at hi
  cases hi

theorem not_decrefBeforeLastIncref_of_no_decref {l : List Instruction}
    (h : ∀ x ∈ l, IsDecRef x = false) : ¬ DecrefBeforeLastIncref l := by
  rintro ⟨m, k, d, i, _, hm, hd, _, _⟩
  rw [h d (List.get?_mem hm)] at hd
  cases hd

theorem not_decrefBeforeLastIncref_of_last {a c : List Instruction} {i : Instruction}
    (ha : ∀ x ∈ a, IsDecRef x = false) (hc : ∀ x ∈ c, IsIncRef x = false) :
    ¬ DecrefBeforeLastIncref (a ++ i :: c) := by
  rintro ⟨m, k, d, j, hmk, hm, hd, hk, hj⟩
  rw [List.get?_eq_getElem?] at hm hk
  have hk' : k ≤ a.length := by
    by_contra hlt
    rw [List.getElem?_append_right (by omega)] at hk
    have : k - a.length = (k - a.length - 1) + 1 := by omega
    rw [this, List.getElem?_cons_succ] at hk
    rw [hc j (List.getElem?_mem hk)] at hj
    cases hj
  rw [List.getElem?_append_left (by omega)] at hm
  rw [ha d (List.getElem?_mem hm)] at hd
  cases hd

/-- What the pass does to one block: it leaves it as it is, and then the block
holds no decref before its last incref; or it moves the first decref, which an
incref follows, to the end. -/
theorem normalizeBlock_cases (bb : BasicBlock) :
    (normalizeBlock bb = (bb, false) ∧ ¬ DecrefBeforeLastIncref bb.insts) ∨
    ∃ l1 d r, bb.insts = l1 ++ d :: r ∧ IsDecRef d = true ∧
      (∀ x ∈ l1, IsDecRef x = false) ∧ (∃ i ∈ r, IsIncRef i = true) ∧
      normalizeBlock bb = ({ bb with insts := l1 ++ r ++ [d] }, true) := by
  unfold normalizeBlock
  cases hl : lastIncrefPos bb.insts 0 none with
  | none =>
    left
    exact ⟨rfl, not_decrefBeforeLastIncref_of_no_incref (lastIncrefPos_eq_none hl)⟩
  | some k =>
    obtain ⟨a, i, c, h1, h2, h3, h4⟩ := lastIncrefPos_eq_some hl
    by_cases ha : ∃ d ∈ a, IsDecRef d = true
    · right
      obtain ⟨l1, d, l2, e1, e2, e3⟩ := exists_first_split (fun x => IsDecRef x) a ha
      refine ⟨l1, d, l2 ++ i :: c, by simp [h1, e1], e2, e3, ⟨i, by simp, h2⟩, ?_⟩
      have hm := moveLoop_of_first_decref k l1 d (l2 ++ i :: c) [] 0
        (by simp [h4, e1]) e3 e2
      have hins : bb.insts = l1 ++ d :: (l2 ++ i :: c) := by simp [h1, e1]
      simp only [hins, hm]
      simp
    · left
      have ha' : ∀ x ∈ a, IsDecRef x = false := by
        intro x hx
        by_contra hne
        exact ha ⟨x, hx, by simpa using hne⟩
      have hm := moveLoop_of_no_decref k a (i :: c) [] 0 (by simp [h4]) ha'
      refine ⟨?_, h1 ▸ not_decrefBeforeLastIncref_of_last ha' h3⟩
      simp only [h1, hm]
      cases bb
      simp_all

theorem cons_ne_append_singleton {d i : Instruction} {r : List Instruction}
    (hi : i ∈ r) (hne : i ≠ d) : d :: r ≠ r ++ [d] := by
  induction r with
  | nil => simp at hi
  | cons y r ih =>
    intro h
    simp only [List.cons_append, List.cons.injEq] at h
    obtain ⟨rfl, h⟩ := h
    rcases List.mem_cons.mp hi with rfl | hi
    · exact hne rfl
    · exact ih hi h

/-- The flag of a block says whether the block changed, and whether it held a
decref before its last incref. -/
theorem normalizeBlock_flag (bb : BasicBlock) :
    ((normalizeBlock bb).2 = true ↔ (normalizeBlock bb).1 ≠ bb) ∧
    ((normalizeBlock bb).2 = true ↔ DecrefBeforeLastIncref bb.insts) := by
  rcases normalizeBlock_cases bb with ⟨h1, h2⟩ | ⟨l1, d, r, e1, hd, hl1, ⟨i, hi, hii⟩, h⟩
  · simp [h1, h2]
  · have hdiff : ({ bb with insts := l1 ++ r ++ [d] } : BasicBlock) ≠ bb := by
      intro heq
      have := congrArg BasicBlock.insts heq
      simp only [e1, List.append_assoc, List.append_cancel_left_eq] at this
      have hne : i ≠ d := by
        rintro rfl
        simp only [IsIncRef, IsDecRef, beq_iff_eq] at hii hd
        rw [hii] at hd
        cases hd
      exact cons_ne_append_singleton hi hne this.symm
    have hdb : DecrefBeforeLastIncref bb.insts := e1 ▸ decrefBeforeLastIncref_of_split hd hi hii
    rw [h]
    exact ⟨⟨fun _ => hdiff, fun _ => rfl⟩, ⟨fun _ => hdb, fun _ => rfl⟩⟩


theorem map_eq_self_iff {α : Type} (f : α → α) (l : List α) :
    l.map f = l ↔ ∀ x ∈ l, f x = x := by
  induction l with
  | nil => simp
  | cons x l ih => simp [ih]

theorem blockAt_map_of_default (f : BasicBlock → BasicBlock) (F : Function) (b : Nat)
    (hf : f ⟨[], ⟨0, []⟩⟩ = ⟨[], ⟨0, []⟩⟩) : blockAt (F.map f) b = f (blockAt F b) := by
  by_cases hb : b < F.length
  · exact blockAt_map f F b hb
  · rw [blockAt_of_length_le (by simpa using hb), blockAt_of_length_le (by simpa using hb), hf]

theorem mem_of_blockAt {F : Function} {b : Nat} (hb : b < F.length) : blockAt F b ∈ F := by
  simp [blockAt, List.get?_eq_getElem?, List.getElem?_eq_getElem hb]

/-- C11: the normaliser returns `true` exactly when the function it leaves
differs from the function it was given, and it returns `false` exactly when no
block holds a decref before its last incref; a block without incref (so also a
block without refops) and a block without decref (so also a block whose only
refops are increfs) is left as it is. -/
theorem C11_normalize_change_flag (F : Function) :
    ((RefNormalizePass.runOnFunction F).2 = true ↔ (RefNormalizePass.runOnFunction F).1 ≠ F) ∧
    ((RefNormalizePass.runOnFunction F).2 = false ↔
      ∀ bb ∈ F, ¬ DecrefBeforeLastIncref bb.insts) ∧
    (∀ b, ((∀ x ∈ (blockAt F b).insts, IsIncRef x = false) ∨
        (∀ x ∈ (blockAt F b).insts, IsDecRef x = false)) →
      blockAt (RefNormalizePass.runOnFunction F).1 b = blockAt F b) := by
  refine ⟨?_, ?_, ?_⟩
  · simp only [RefNormalizePass.runOnFunction, List.any_eq_true, ne_eq, map_eq_self_iff,
      not_forall]
    constructor
    · rintro ⟨bb, hbb, h⟩
      exact ⟨bb, hbb, (normalizeBlock_flag bb).1.mp h⟩
    · rintro ⟨bb, hbb, h⟩
      exact ⟨bb, hbb, (normalizeBlock_flag bb).1.mpr h⟩
  · simp only [RefNormalizePass.runOnFunction, List.any_eq_false]
    constructor
    · intro h bb hbb hd
      exact h bb hbb ((normalizeBlock_flag bb).2.mpr hd)
    · intro h bb hbb hflag
      exact h bb hbb ((normalizeBlock_flag bb).2.mp hflag)
  · intro b hb
    simp only [RefNormalizePass.runOnFunction]
    rw [blockAt_map_of_default _ _ _ rfl]
    have hnot : ¬ DecrefBeforeLastIncref (blockAt F b).insts := by
      rcases hb with h | h
      · exact not_decrefBeforeLastIncref_of_no_incref h
      · exact not_decrefBeforeLastIncref_of_no_decref h
    rcases normalizeBlock_cases (blockAt F b) with ⟨h1, _⟩ | ⟨l1, d, r, e1, hd, _, ⟨i, hi, hii⟩, _⟩
    · rw [h1]
    · exact absurd (e1 ▸ decrefBeforeLastIncref_of_split hd hi hii) hnot


/-! ## The change flag of the pruner -/

/-- The flag is set exactly when the loop started with it set or a pair is
recorded. -/
theorem outerLoop_mutated_iff {fuel : Nat} {O : DomOracle} {increfs : List RefOp}
    {s0 s : PruneState} (h : (outerLoop fuel O increfs s0).1 = s) (hp : s0.pruned = []) :
    s.mutated = true ↔ (s0.mutated = true ∨ s.pruned ≠ []) := by
  refine outerLoop_induction
    (fun s => s.mutated = true ↔ (s0.mutated = true ∨ s.pruned ≠ [])) increfs ?_ ?_ h
  · intro s i d l _ _ _
    simp [PruneState.erasePair]
  · simp [hp]

/-- Both halves of a recorded pair are gone from their blocks. -/
theorem outerLoop_pruned_erased {fuel : Nat} {O : DomOracle} {increfs : List RefOp}
    {s0 s : PruneState} (h : (outerLoop fuel O increfs s0).1 = s) (hp : s0.pruned = []) :
    ∀ e ∈ s.pruned, e.incref.inst ∉ (blockAt s.F e.incref.parent).insts ∧
      e.decref.inst ∉ (blockAt s.F e.decref.parent).insts := by
  refine outerLoop_induction
    (fun s => ∀ e ∈ s.pruned, e.incref.inst ∉ (blockAt s.F e.incref.parent).insts ∧
      e.decref.inst ∉ (blockAt s.F e.decref.parent).insts) increfs ?_ (by simp [hp]) h
  intro s i d l _ hP _ e he
  simp only [PruneState.erasePair, List.mem_append, List.mem_singleton] at he
  rcases he with he | rfl
  · constructor
    · intro hx
      simp only [PruneState.erasePair, mem_blockAt_eraseFromParent] at hx
      exact (hP e he).1 hx.1.1
    · intro hx
      simp only [PruneState.erasePair, mem_blockAt_eraseFromParent] at hx
      exact (hP e he).2 hx.1.1
  · simp [PruneState.erasePair, mem_blockAt_eraseFromParent]

/-- The state that the pass reaches has its flag set exactly when an
instruction of the function is gone, and then the function has changed. -/
theorem run_mutated_iff (fuel : Nat) (O : DomOracle) (F : Function) :
    ((run fuel O F).1.mutated = true ↔
      (nullList F ≠ [] ∨ (run fuel O F).1.pruned ≠ [])) ∧
    ((run fuel O F).1.mutated = true ↔
      ∃ b x, x ∈ (blockAt F b).insts ∧ x ∉ (blockAt (run fuel O F).1.F b).insts) ∧
    ((run fuel O F).1.mutated = true ↔ (run fuel O F).1.F ≠ F) := by
  have h : (outerLoop fuel O (increfList F) (initState F)).1 = (run fuel O F).1 := rfl
  have h1 : (run fuel O F).1.mutated = true ↔
      (nullList F ≠ [] ∨ (run fuel O F).1.pruned ≠ []) := by
    have := outerLoop_mutated_iff h rfl
    simpa [initState] using this
  have h2 : (run fuel O F).1.mutated = true →
      ∃ b x, x ∈ (blockAt F b).insts ∧ x ∉ (blockAt (run fuel O F).1.F b).insts := by
    intro hm
    rcases h1.mp hm with hn | hp
    · obtain ⟨r, hr⟩ := List.exists_mem_of_ne_nil _ hn
      have hr' := mem_nullList.mp hr
      refine ⟨r.parent, r.inst, hr'.1, fun hx => ?_⟩
      have := (mem_blockAt_eraseNullList.mp ((outerLoop_shrinks h r.parent).1 _ hx)).2
      exact this ⟨hr'.2.1, hr'.2.2⟩
    · obtain ⟨e, he⟩ := List.exists_mem_of_ne_nil _ hp
      have hi := ((outerLoop_pruned_spec h (entryOf_map_some (decrefList F)) rfl).2 e he).1
      exact ⟨e.incref.parent, e.incref.inst, (mem_increfList.mp hi).1,
        (outerLoop_pruned_erased h rfl e he).1⟩
  have h3 : (∃ b x, x ∈ (blockAt F b).insts ∧ x ∉ (blockAt (run fuel O F).1.F b).insts) →
      (run fuel O F).1.F ≠ F := by
    rintro ⟨b, x, hx, hnx⟩ heq
    rw [heq] at hnx
    exact hnx hx
  have h4 : (run fuel O F).1.F ≠ F → (run fuel O F).1.mutated = true := by
    intro hne
    by_contra hm
    have hno : ¬ (nullList F ≠ [] ∨ (run fuel O F).1.pruned ≠ []) := fun hc => hm (h1.mpr hc)
    simp only [not_or, not_not] at hno
    have := (outerLoop_of_pruned_nil h hno.2).1
    apply hne
    simpa [initState, eraseNullList_of_nullList_nil hno.1] using this
  exact ⟨h1, ⟨h2, fun hx => h4 (h3 hx)⟩, ⟨fun hm => h3 (h2 hm), h4⟩⟩

/-- C12: when the pruner returns, it returns `true` exactly when it erased an
instruction (a null refop, or a matched pair), that is, exactly when some
instruction of a block is gone, that is, exactly when the function it leaves
differs from the function it was given. -/
theorem C12_prune_change_flag (fuel : Nat) (O : DomOracle) (F F' : Function) (changed : Bool)
    (h : RefPrunePass.runOnFunction fuel O F = some (F', changed)) :
    (changed = true ↔ (nullList F ≠ [] ∨ (run fuel O F).1.pruned ≠ [])) ∧
    (changed = true ↔ ∃ b x, x ∈ (blockAt F b).insts ∧ x ∉ (blockAt F' b).insts) ∧
    (changed = true ↔ F' ≠ F) := by
  obtain ⟨_, rfl, rfl⟩ := (runOnFunction_eq_some_iff fuel O F F' changed).mp h
  exact run_mutated_iff fuel O F

/-- C12 on `sampleFunction`, which changes, and on `unsafeChain`, which does
not. -/
theorem C12_prune_change_flag_witness :
    (RefPrunePass.runOnFunction 3 orderOracle sampleFunction = some (sampleFunctionPruned, true)
      ∧ sampleFunctionPruned ≠ sampleFunction)
    ∧ (true = true ↔ sampleFunctionPruned ≠ sampleFunction)
    ∧ (false = true ↔ unsafeChain ≠ unsafeChain) :=
  ⟨⟨by decide, by decide⟩,
    (C12_prune_change_flag 3 orderOracle sampleFunction sampleFunctionPruned true
      (by decide)).2.2,
    (C12_prune_change_flag 3 orderOracle unsafeChain unsafeChain false (by decide)).2.2⟩


/-! ## The blocks that the pruner leaves -/

theorem blockAt_eraseFromParent_insts (G : Function) (ci : RefOp) (b : Nat) :
    (blockAt (eraseFromParent ci G) b).insts
      = (blockAt G b).insts.filter (fun x => decide ((⟨b, x⟩ : RefOp) ≠ ci)) := by
  unfold eraseFromParent
  rw [blockAt_eraseAt_insts]
  rcases ci with ⟨n, c⟩
  by_cases hb : b = n
  · subst hb
    simp only [if_true]
    apply List.filter_congr
    intro x _
    by_cases hxc : x = c <;> simp [hxc]
  · simp only [hb, if_false]
    symm
    rw [List.filter_eq_self]
    intro x _
    simp [hb]

theorem blockAt_foldl_erase_insts (rs : List RefOp) (G : Function) (b : Nat) :
    (blockAt (rs.foldl (fun G ci => eraseFromParent ci G) G) b).insts
      = (blockAt G b).insts.filter (fun x => decide ((⟨b, x⟩ : RefOp) ∉ rs)) := by
  induction rs generalizing G with
  | nil => simp
  | cons r rs ih =>
    rw [List.foldl_cons, ih, blockAt_eraseFromParent_insts, List.filter_filter]
    apply List.filter_congr
    intro x _
    simp only [List.mem_cons, not_or, Bool.decide_and, Bool.and_comm]

/-- The blocks in the state that the loop reaches: the blocks of the start
without the halves of the recorded pairs. -/
theorem outerLoop_insts {fuel : Nat} {O : DomOracle} {increfs : List RefOp}
    {s0 s : PruneState} (h : (outerLoop fuel O increfs s0).1 = s) (hp : s0.pruned = []) :
    ∀ b, (blockAt s.F b).insts
      = (blockAt s0.F b).insts.filter (fun x => decide ((⟨b, x⟩ : RefOp) ∉ s.erasedOps)) := by
  refine outerLoop_induction
    (fun s => ∀ b, (blockAt s.F b).insts
      = (blockAt s0.F b).insts.filter (fun x => decide ((⟨b, x⟩ : RefOp) ∉ s.erasedOps)))
    increfs ?_ ?_ h
  · intro s i d l _ hP _ b
    simp only [PruneState.erasePair, blockAt_eraseFromParent_insts, hP b, List.filter_filter]
    apply List.filter_congr
    intro x _
    simp only [PruneState.erasedOps, List.map_append, List.map_cons, List.map_nil,
      List.mem_append, List.mem_singleton, Bool.decide_and, decide_not, Bool.decide_or,
      Bool.not_or, ne_eq]
    cases decide ((⟨b, x⟩ : RefOp) = i) <;> cases decide ((⟨b, x⟩ : RefOp) = d) <;>
      cases decide ((⟨b, x⟩ : RefOp) ∈ s.pruned.map fun e => e.incref) <;>
      cases decide ((⟨b, x⟩ : RefOp) ∈ s.pruned.map fun e => e.decref) <;> rfl
  · intro b
    simp [PruneState.erasedOps, hp]

/-- The halves of the recorded pairs are refops of the lists of the pass. -/
theorem mem_erasedOps_run {fuel : Nat} {O : DomOracle} {F : Function} {r : RefOp}
    (hr : r ∈ (run fuel O F).1.erasedOps) : r ∈ increfList F ∨ r ∈ decrefList F := by
  have h : (outerLoop fuel O (increfList F) (initState F)).1 = (run fuel O F).1 := rfl
  have hs := (outerLoop_pruned_spec h (entryOf_map_some (decrefList F)) rfl).2
  simp only [PruneState.erasedOps, List.mem_append, List.mem_map] at hr
  rcases hr with ⟨e, he, rfl⟩ | ⟨e, he, rfl⟩
  · exact Or.inl (hs e he).1
  · exact Or.inr (hs e he).2.1

/-- The blocks in the state that the pass reaches: the blocks of the function
without its null refops and without the halves of the recorded pairs. -/
theorem run_insts (fuel : Nat) (O : DomOracle) (F : Function) (b : Nat) :
    (blockAt (run fuel O F).1.F b).insts
      = (blockAt F b).insts.filter (fun x =>
          decide ((⟨b, x⟩ : RefOp) ∉ nullList F) &&
            decide ((⟨b, x⟩ : RefOp) ∉ (run fuel O F).1.erasedOps)) := by
  have h : (outerLoop fuel O (increfList F) (initState F)).1 = (run fuel O F).1 := rfl
  rw [outerLoop_insts h rfl b]
  show List.filter _ (blockAt (eraseNullList F) b).insts = _
  rw [eraseNullList, blockAt_foldl_erase_insts, List.filter_filter]
  apply List.filter_congr
  intro x _
  rw [Bool.and_comm]

theorem isSome_getRefOpCall_of_mem_lists {F : Function} {r : RefOp}
    (hr : r ∈ nullList F ∨ r ∈ increfList F ∨ r ∈ decrefList F) :
    (GetRefOpCall r.inst).isSome = true := by
  rcases hr with h | h | h
  · exact (mem_nullList.mp h).2.1
  · simp [GetRefOpCall, (mem_increfList.mp h).2.2]
  · simp [GetRefOpCall, (mem_decrefList.mp h).2.2]

/-- C13: in the state that the pruner reaches, every block is a sublist of the
block it was (instructions are erased, never moved or created), the
instructions that are no refops are all kept, in their order, and the refops
that stay are a sublist of the refops that were there. -/
theorem C13_prune_keeps_order (fuel : Nat) (O : DomOracle) (F : Function) (b : Nat) :
    ((blockAt (run fuel O F).1.F b).insts).Sublist (blockAt F b).insts ∧
    (blockAt (run fuel O F).1.F b).insts.filter (fun x => (GetRefOpCall x).isNone)
      = (blockAt F b).insts.filter (fun x => (GetRefOpCall x).isNone) ∧
    (∀ x ∈ (blockAt F b).insts, GetRefOpCall x = none →
      x ∈ (blockAt (run fuel O F).1.F b).insts) ∧
    ((blockAt (run fuel O F).1.F b).insts.filter (fun x => (GetRefOpCall x).isSome)).Sublist
      ((blockAt F b).insts.filter (fun x => (GetRefOpCall x).isSome)) := by
  have hkeep : ∀ x, GetRefOpCall x = none →
      (decide ((⟨b, x⟩ : RefOp) ∉ nullList F) &&
        decide ((⟨b, x⟩ : RefOp) ∉ (run fuel O F).1.erasedOps)) = true := by
    intro x hx
    simp only [Bool.and_eq_true, decide_eq_true_eq]
    constructor
    · intro hm
      have := isSome_getRefOpCall_of_mem_lists (Or.inl hm)
      simp [hx] at this
    · intro hm
      have := isSome_getRefOpCall_of_mem_lists (Or.inr (mem_erasedOps_run hm))
      simp [hx] at this
  have hsub : ((blockAt (run fuel O F).1.F b).insts).Sublist (blockAt F b).insts := by
    rw [run_insts]
    exact List.filter_sublist _
  refine ⟨hsub, ?_, ?_, hsub.filter _⟩
  · rw [run_insts, List.filter_filter]
    apply List.filter_congr
    intro x _
    cases hx : GetRefOpCall x with
    | none =>
      have := hkeep x hx
      simp only [Bool.and_eq_true, decide_eq_true_eq] at this
      simp [this.1, this.2]
    | some y => simp
  · intro x hx hn
    rw [run_insts, List.mem_filter]
    exact ⟨hx, hkeep x hn⟩


/-! ## The structure of the blocks -/

/-- What the normaliser keeps of a block: the terminator, the instructions up
to their order, and the order of the instructions that are no decrefs. -/
theorem normalizeBlock_structure (bb : BasicBlock) :
    (normalizeBlock bb).1.term = bb.term ∧
    (normalizeBlock bb).1.insts.Perm bb.insts ∧
    (normalizeBlock bb).1.insts.filter (fun x => !IsDecRef x)
      = bb.insts.filter (fun x => !IsDecRef x) := by
  rcases normalizeBlock_cases bb with ⟨h1, _⟩ | ⟨l1, d, r, e1, hd, _, _, h⟩
  · rw [h1]
    exact ⟨rfl, List.Perm.refl _, rfl⟩
  · rw [h, e1]
    refine ⟨rfl, ?_, ?_⟩
    · simp only [List.append_assoc]
      exact List.Perm.append_left l1 (List.perm_append_singleton d r)
    · simp [List.filter_append, List.filter_cons, hd]

theorem length_eraseFromParent (ci : RefOp) (G : Function) :
    (eraseFromParent ci G).length = G.length :=
  length_eraseAt G ci.parent ci.inst

theorem length_foldl_erase (rs : List RefOp) (G : Function) :
    (rs.foldl (fun G ci => eraseFromParent ci G) G).length = G.length := by
  induction rs generalizing G with
  | nil => rfl
  | cons r rs ih => rw [List.foldl_cons, ih, length_eraseFromParent]

theorem outerLoop_length {fuel : Nat} {O : DomOracle} {increfs : List RefOp}
    {s0 s : PruneState} (h : (outerLoop fuel O increfs s0).1 = s) :
    s.F.length = s0.F.length := by
  refine outerLoop_induction (fun s => s.F.length = s0.F.length) increfs ?_ rfl h
  intro s i d l _ hP _
  simp only [PruneState.erasePair, length_eraseFromParent, hP]

/-- C14: the normaliser keeps the number of blocks; each block it leaves has
the terminator it had, as its last instruction, its instruction sequence is a
permutation of the one it had, and the instructions that are no decrefs keep
their order.  The pruner, in the state it reaches, keeps the number of blocks,
and each block has the terminator it had, as its last instruction. -/
theorem C14_block_structure (fuel : Nat) (O : DomOracle) (F : Function) :
    ((RefNormalizePass.runOnFunction F).1.length = F.length ∧
      ∀ b, (blockAt (RefNormalizePass.runOnFunction F).1 b).term = (blockAt F b).term ∧
        (blockAt (RefNormalizePass.runOnFunction F).1 b).sequence.getLast?
          = some (Sum.inr (blockAt F b).term) ∧
        (blockAt (RefNormalizePass.runOnFunction F).1 b).sequence.Perm
          (blockAt F b).sequence ∧
        (blockAt (RefNormalizePass.runOnFunction F).1 b).insts.Perm (blockAt F b).insts ∧
        (blockAt (RefNormalizePass.runOnFunction F).1 b).insts.filter (fun x => !IsDecRef x)
          = (blockAt F b).insts.filter (fun x => !IsDecRef x))
    ∧ ((run fuel O F).1.F.length = F.length ∧
      ∀ b, (blockAt (run fuel O F).1.F b).term = (blockAt F b).term ∧
        (blockAt (run fuel O F).1.F b).sequence.getLast?
          = some (Sum.inr (blockAt F b).term)) := by
  constructor
  · refine ⟨by simp [RefNormalizePass.runOnFunction], fun b => ?_⟩
    have hb : blockAt (RefNormalizePass.runOnFunction F).1 b
        = (normalizeBlock (blockAt F b)).1 := by
      simp only [RefNormalizePass.runOnFunction]
      exact blockAt_map_of_default _ _ _ rfl
    obtain ⟨h1, h2, h3⟩ := normalizeBlock_structure (blockAt F b)
    rw [hb]
    refine ⟨h1, by simp [BasicBlock.sequence, h1], ?_, h2, h3⟩
    simp only [BasicBlock.sequence, h1]
    exact List.Perm.append_right _ (h2.map _)
  · have h : (outerLoop fuel O (increfList F) (initState F)).1 = (run fuel O F).1 := rfl
    have hterm : ∀ b, (blockAt (run fuel O F).1.F b).term = (blockAt F b).term := by
      intro b
      rw [(outerLoop_shrinks h b).2]
      exact blockAt_eraseNullList_term F b
    refine ⟨?_, fun b => ⟨hterm b, by simp [BasicBlock.sequence, hterm b]⟩⟩
    rw [outerLoop_length h]
    exact length_foldl_erase _ _


/-! ## What the cross-block check computes -/

theorem acyclic_of_edge_lt {F : Function} (h : ∀ a b, Edge F a b → a < b) : Acyclic F := by
  intro path hp
  have hlt : List.Chain' (fun a b => a < b) path := hp.imp (fun {a b} hab => h a b hab)
  exact (List.chain'_iff_pairwise.mp hlt).imp (fun {a b} hab => Nat.ne_of_lt hab)

theorem triangleFunction_edge_lt : ∀ a b, Edge triangleFunction a b → a < b := by
  intro a b h
  unfold Edge at h
  match a with
  | 0 => simp [triangleFunction] at h; omega
  | 1 => simp [triangleFunction] at h; omega
  | 2 => simp [triangleFunction] at h
  | a + 3 => simp [triangleFunction] at h

/-- When the check returns `true`, a block with a decref is reachable from the
head on a path that avoids the tail. -/
theorem decrefReachable_of_hasDecrefBetweenGraph {F : Function} {fuel head tail : Nat}
    (h : hasDecrefBetweenGraph F fuel head tail = some true) : DecrefReachable F head tail := by
  induction fuel generalizing head with
  | zero => simp [hasDecrefBetweenGraph] at h
  | succ fuel ih =>
    rw [hasDecrefBetweenGraph_succ] at h
    have key : ∀ succs : List Nat, (∀ c ∈ succs, Edge F head c) →
        succLoop F tail (fun child => hasDecrefBetweenGraph F fuel child tail) succs = some true →
        DecrefReachable F head tail := by
      intro succs
      induction succs with
      | nil => intro _ h; simp [succLoop] at h
      | cons c rest ihs =>
        intro hedge h
        have hc : Edge F head c := hedge c (List.mem_cons_self _ _)
        simp only [succLoop] at h
        by_cases hct : c = tail
        · simp [hct] at h
        · simp only [hct, if_false] at h
          by_cases hdec : blockHasDecref (blockAt F c) = true
          · exact ⟨[head, c], c, by simp, rfl, by simp [hc], by simp [hct], rfl, hdec⟩
          · simp only [hdec, Bool.false_eq_true, if_false] at h
            cases hr : hasDecrefBetweenGraph F fuel c tail with
            | none => simp [hr] at h
            | some v =>
              cases v with
              | true =>
                obtain ⟨path, bk, h1, h2, h3, h4, h5, h6⟩ := ih hr
                cases path with
                | nil => simp at h1
                | cons p ps =>
                  simp only [List.head?_cons, Option.some.injEq] at h2
                  subst h2
                  refine ⟨head :: p :: ps, bk, by simp, rfl, List.Chain'.cons hc h3, ?_, ?_, h6⟩
                  · intro b hb
                    simp only [List.tail_cons, List.mem_cons] at hb h4
                    rcases hb with rfl | hb
                    · exact hct
                    · exact h4 b hb
                  · rw [List.getLast?_cons_cons]
                    exact h5
              | false =>
                simp only [hr] at h
                exact ihs (fun c' hc' => hedge c' (List.mem_cons_of_mem _ hc')) h
    exact key _ (fun c hc => hc) h

/-- C15: `triangleFunction` has no cycle, its block 0 (the head) dominates its
block 2 (the tail), and block 1, which holds a decref, is reached from the head
on a path that avoids the tail; yet the check returns `false`, because the
tail comes first among the successors of the head.  With the successors in the
other order it returns `true`. -/
theorem C15_walk_depends_on_successor_order :
    Acyclic triangleFunction
    ∧ BlockDominates triangleFunction 0 2
    ∧ DecrefReachable triangleFunction 0 2
    ∧ (∀ fuel, hasDecrefBetweenGraph triangleFunction (fuel + 1) 0 2 = some false)
    ∧ (∀ fuel, hasDecrefBetweenGraph triangleFunctionSwapped (fuel + 1) 0 2 = some true) := by
  refine ⟨acyclic_of_edge_lt triangleFunction_edge_lt, ?_, ?_, fun fuel => rfl, fun fuel => rfl⟩
  · intro path _ hh _
    cases path with
    | nil => simp at hh
    | cons c rest => simp at hh; simp [hh]
  · exact ⟨[0, 1], 1, by simp, rfl, by simp [Edge, triangleFunction], by simp, rfl, rfl⟩


/-! ## Divergence of the cross-block check on a cycle -/

/-- Whenever the only successor of `head` is `L`, the successors of `L` are
`L` itself and then `tail`, and `L` holds no decref, the check started at
`head` produces no result, whatever the recursion depth allowed. -/
theorem hasDecrefBetweenGraph_self_loop (F : Function) (head L tail : Nat)
    (hne : L ≠ tail)
    (hhead : (blockAt F head).term.succs = [L])
    (hL : (blockAt F L).term.succs = [L, tail])
    (hdec : blockHasDecref (blockAt F L) = false) (fuel : Nat) :
    hasDecrefBetweenGraph F fuel head tail = none := by
  have hloop : ∀ fuel, hasDecrefBetweenGraph F fuel L tail = none := by
    intro fuel
    induction fuel with
    | zero => rfl
    | succ fuel ih =>
      rw [hasDecrefBetweenGraph_succ, hL]
      simp [succLoop, hdec, ih, hne]
  cases fuel with
  | zero => rfl
  | succ fuel =>
    rw [hasDecrefBetweenGraph_succ, hhead]
    simp [succLoop, hdec, hloop, hne]

/-- C17: in `cyclicFunction` block 0 (the head) has the single successor
block 1, block 1 has the successors block 1 and block 2 (the tail) and holds
no decref; the graph has a cycle, block 0 dominates block 2, and the check
from block 0 to block 2 produces no result at any recursion depth. -/
theorem C17_walk_diverges_on_cycle :
    (blockAt cyclicFunction 0).term.succs = [1]
    ∧ (blockAt cyclicFunction 1).term.succs = [1, 2]
    ∧ blockHasDecref (blockAt cyclicFunction 1) = false
    ∧ ¬ Acyclic cyclicFunction
    ∧ BlockDominates cyclicFunction 0 2
    ∧ ∀ fuel, hasDecrefBetweenGraph cyclicFunction fuel 0 2 = none := by
  refine ⟨rfl, rfl, rfl, ?_, ?_, fun fuel => cyclicFunction_walk_0_2 fuel⟩
  · intro h
    have := h [1, 1] (by simp [Edge, cyclicFunction])
    simp at this
  · intro path _ hh _
    cases path with
    | nil => simp at hh
    | cons c rest => simp at hh; simp [hh]


/-! ## Termination of the cross-block check on acyclic graphs -/

theorem succLoop_eq_none {F : Function} {tail : Nat} {recurse : Nat → Option Bool} :
    ∀ succs : List Nat, succLoop F tail recurse succs = none →
      ∃ c ∈ succs, recurse c = none := by
  intro succs
  induction succs with
  | nil => intro h; simp [succLoop] at h
  | cons c rest ih =>
    intro h
    simp only [succLoop] at h
    by_cases hct : c = tail
    · simp [hct] at h
    · simp only [hct, if_false] at h
      by_cases hdec : blockHasDecref (blockAt F c) = true
      · simp [hdec] at h
      · simp only [hdec, Bool.false_eq_true, if_false] at h
        cases hr : recurse c with
        | none => exact ⟨c, List.mem_cons_self _ _, hr⟩
        | some v =>
          cases v with
          | true => simp [hr] at h
          | false =>
            simp only [hr] at h
            obtain ⟨c', hc', hn⟩ := ih h
            exact ⟨c', List.mem_cons_of_mem _ hc', hn⟩

/-- When the check runs out of depth, the recursion has followed a chain of
successor edges with one block per level. -/
theorem exists_chain_of_walk_none {F : Function} {tail : Nat} :
    ∀ fuel head, hasDecrefBetweenGraph F fuel head tail = none →
      ∃ path, path.length = fuel + 1 ∧ path.head? = some head ∧ List.Chain' (Edge F) path := by
  intro fuel
  induction fuel with
  | zero => intro head _; exact ⟨[head], rfl, rfl, List.chain'_singleton _⟩
  | succ fuel ih =>
    intro head h
    rw [hasDecrefBetweenGraph_succ] at h
    obtain ⟨c, hc, hn⟩ := succLoop_eq_none _ h
    obtain ⟨path, hlen, hhead, hchain⟩ := ih c hn
    cases path with
    | nil => simp at hhead
    | cons p ps =>
      simp only [List.head?_cons, Option.some.injEq] at hhead
      subst hhead
      refine ⟨head :: p :: ps, by simp at hlen ⊢; omega, rfl, List.Chain'.cons hc hchain⟩

theorem lt_length_of_edge {F : Function} {a b : Nat} (h : Edge F a b) : a < F.length := by
  by_contra hlt
  unfold Edge at h
  rw [blockAt_of_length_le (Nat.le_of_not_lt hlt)] at h
  simp at h

theorem lt_length_of_mem_dropLast {F : Function} :
    ∀ path : List Nat, List.Chain' (Edge F) path → ∀ x ∈ path.dropLast, x < F.length := by
  intro path
  induction path with
  | nil => intro _ x hx; simp at hx
  | cons a rest ih =>
    intro hc x hx
    cases rest with
    | nil => simp at hx
    | cons b rest2 =>
      rw [List.dropLast_cons₂, List.mem_cons] at hx
      rcases hx with rfl | hx
      · exact lt_length_of_edge (List.chain'_cons.mp hc).1
      · exact ih (List.chain'_cons.mp hc).2 x hx

/-- In a function without a cycle a chain of successor edges has at most one
block more than the function has blocks. -/
theorem chain_length_le_of_acyclic {F : Function} (hac : Acyclic F) (path : List Nat)
    (hc : List.Chain' (Edge F) path) : path.length ≤ F.length + 1 := by
  have hnd : path.dropLast.Nodup := (hac path hc).sublist (List.dropLast_sublist path)
  have hsub : path.dropLast ⊆ List.range F.length := by
    intro x hx
    exact List.mem_range.mpr (lt_length_of_mem_dropLast path hc x hx)
  have := (List.subperm_of_subset hnd hsub).length_le
  simp only [List.length_dropLast, List.length_range] at this
  omega

theorem walk_isSome_of_acyclic {F : Function} (hac : Acyclic F) {fuel : Nat}
    (hfuel : F.length < fuel) (head tail : Nat) :
    (hasDecrefBetweenGraph F fuel head tail).isSome = true := by
  cases h : hasDecrefBetweenGraph F fuel head tail with
  | some v => rfl
  | none =>
    obtain ⟨path, hlen, _, hchain⟩ := exists_chain_of_walk_none fuel head h
    have := chain_length_le_of_acyclic hac path hchain
    omega

theorem keepEntry_ne_none {x : Option RefOp}
    {r : Option (Option (RefOp × List (Option RefOp)))} (h : r ≠ none) :
    keepEntry x r ≠ none := by
  cases r with
  | none => exact absurd rfl h
  | some v =>
    cases v with
    | none => simp [keepEntry]
    | some p => obtain ⟨d, l⟩ := p; simp [keepEntry]

theorem innerLoop_ne_none {fuel : Nat} {O : DomOracle} {F : Function}
    (hw : ∀ head tail, (hasDecrefBetweenGraph F fuel head tail).isSome = true)
    (incref : RefOp) (decrefs : List (Option RefOp)) :
    innerLoop fuel O F incref decrefs ≠ none := by
  induction decrefs with
  | nil => simp [innerLoop]
  | cons e rest ih =>
    cases e with
    | none => simp only [innerLoop]; exact keepEntry_ne_none ih
    | some d =>
      simp only [innerLoop]
      split
      · exact keepEntry_ne_none ih
      · split
        · split
          · have := hw incref.parent d.parent
            cases hr : hasDecrefBetweenGraph F fuel incref.parent d.parent with
            | none => simp [hr] at this
            | some v =>
              cases v with
              | true => simp only; exact keepEntry_ne_none ih
              | false => simp
          · simp
        · exact keepEntry_ne_none ih

theorem acyclic_of_term_eq {F G : Function}
    (h : ∀ b, (blockAt G b).term = (blockAt F b).term) (hac : Acyclic F) : Acyclic G := by
  intro path hp
  exact hac path (hp.imp (fun {a b} hab => by unfold Edge at hab ⊢; rw [← h a]; exact hab))

theorem outerLoop_completes {fuel : Nat} {O : DomOracle} :
    ∀ (increfs : List RefOp) (s : PruneState), Acyclic s.F → s.F.length < fuel →
      (outerLoop fuel O increfs s).2 = true := by
  intro increfs
  induction increfs with
  | nil => intro s _ _; rfl
  | cons i rest ih =>
    intro s hac hfuel
    have hne := innerLoop_ne_none (walk_isSome_of_acyclic hac hfuel) (O := O) i s.decrefs
    simp only [outerLoop]
    cases hr : innerLoop fuel O s.F i s.decrefs with
    | none => exact absurd hr hne
    | some v =>
      cases v with
      | none => exact ih s hac hfuel
      | some p =>
        obtain ⟨d, l⟩ := p
        apply ih
        · apply acyclic_of_term_eq _ hac
          intro b
          simp only [blockAt_eraseFromParent_term]
        · simp only [length_eraseFromParent]
          exact hfuel

theorem succLoop_mono {F : Function} {tail : Nat} {r1 r2 : Nat → Option Bool}
    (h : ∀ c v, r1 c = some v → r2 c = some v) :
    ∀ (succs : List Nat) (v : Bool), succLoop F tail r1 succs = some v →
      succLoop F tail r2 succs = some v := by
  intro succs
  induction succs with
  | nil => intro v hv; exact hv
  | cons c rest ih =>
    intro v hv
    simp only [succLoop] at hv ⊢
    by_cases hct : c = tail
    · simpa [hct] using hv
    · simp only [hct, if_false] at hv ⊢
      by_cases hdec : blockHasDecref (blockAt F c) = true
      · simpa [hdec] using hv
      · simp only [hdec, Bool.false_eq_true, if_false] at hv ⊢
        cases hr : r1 c with
        | none => simp [hr] at hv
        | some w =>
          rw [h c w hr]
          rw [hr] at hv
          cases w with
          | true => exact hv
          | false => exact ih v hv

/-- A result of the check stays the same when more recursion depth is
allowed. -/
theorem hasDecrefBetweenGraph_mono {F : Function} {tail : Nat} :
    ∀ (fuel head : Nat) (v : Bool), hasDecrefBetweenGraph F fuel head tail = some v →
      hasDecrefBetweenGraph F (fuel + 1) head tail = some v := by
  intro fuel
  induction fuel with
  | zero => intro head v h; simp [hasDecrefBetweenGraph] at h
  | succ fuel ih =>
    intro head v h
    rw [hasDecrefBetweenGraph_succ] at h ⊢
    exact succLoop_mono (fun c w hw => ih c w hw) _ v h

theorem hasDecrefBetweenGraph_mono_le {F : Function} {head tail : Nat} {v : Bool} {fuel : Nat}
    (h : hasDecrefBetweenGraph F fuel head tail = some v) :
    ∀ fuel2, fuel ≤ fuel2 → hasDecrefBetweenGraph F fuel2 head tail = some v := by
  intro fuel2 hle
  induction fuel2 with
  | zero =>
    have : fuel = 0 := by omega
    subst this
    exact h
  | succ n ih =>
    by_cases hn : fuel ≤ n
    · exact hasDecrefBetweenGraph_mono n head v (ih hn)
    · have : fuel = n + 1 := by omega
      subst this
      exact h

theorem walk_eq_of_acyclic {F : Function} (hac : Acyclic F) {fuel fuel2 : Nat}
    (hfuel : F.length < fuel) (hfuel2 : F.length < fuel2) (head tail : Nat) :
    hasDecrefBetweenGraph F fuel2 head tail = hasDecrefBetweenGraph F fuel head tail := by
  have h0 := walk_isSome_of_acyclic hac (Nat.lt_succ_self F.length) head tail
  cases hv : hasDecrefBetweenGraph F (F.length + 1) head tail with
  | none => rw [hv] at h0; cases h0
  | some v =>
    rw [hasDecrefBetweenGraph_mono_le hv fuel hfuel, hasDecrefBetweenGraph_mono_le hv fuel2 hfuel2]

theorem innerLoop_congr_fuel {fuel fuel2 : Nat} {O : DomOracle} {F : Function}
    (hw : ∀ head tail, hasDecrefBetweenGraph F fuel2 head tail
      = hasDecrefBetweenGraph F fuel head tail)
    (incref : RefOp) (decrefs : List (Option RefOp)) :
    innerLoop fuel2 O F incref decrefs = innerLoop fuel O F incref decrefs := by
  induction decrefs with
  | nil => rfl
  | cons e rest ih =>
    cases e with
    | none => simp only [innerLoop, ih]
    | some d => simp only [innerLoop, ih, hw]

theorem outerLoop_congr_fuel {fuel fuel2 : Nat} {O : DomOracle} :
    ∀ (increfs : List RefOp) (s : PruneState), Acyclic s.F → s.F.length < fuel →
      s.F.length < fuel2 → outerLoop fuel2 O increfs s = outerLoop fuel O increfs s := by
  intro increfs
  induction increfs with
  | nil => intro s _ _ _; rfl
  | cons i rest ih =>
    intro s hac hfuel hfuel2
    simp only [outerLoop]
    rw [innerLoop_congr_fuel (fun head tail => walk_eq_of_acyclic hac hfuel hfuel2 head tail)]
    cases hr : innerLoop fuel O s.F i s.decrefs with
    | none => rfl
    | some v =>
      cases v with
      | none => exact ih s hac hfuel hfuel2
      | some p =>
        obtain ⟨d, l⟩ := p
        apply ih
        · apply acyclic_of_term_eq _ hac
          intro b
          simp only [blockAt_eraseFromParent_term]
        · simp only [length_eraseFromParent]
          exact hfuel
        · simp only [length_eraseFromParent]
          exact hfuel2

/-- C20: in a function whose successor relation has no cycle, a recursion
depth above the number of blocks is enough for `hasDecrefBetweenGraph` to
return a result for every head and tail, and with it the pruner runs to
completion and returns a result for every oracle; neither result depends on
the depth that is allowed beyond that. -/
theorem C20_walk_terminates_on_acyclic (F : Function) (hac : Acyclic F) (fuel : Nat)
    (hfuel : F.length < fuel) :
    (∀ head tail, (hasDecrefBetweenGraph F fuel head tail).isSome = true)
    ∧ (∀ O : DomOracle, (run fuel O F).2 = true ∧
        RefPrunePass.runOnFunction fuel O F
          = some ((run fuel O F).1.F, (run fuel O F).1.mutated))
    ∧ (∀ fuel2, F.length < fuel2 →
        (∀ head tail, hasDecrefBetweenGraph F fuel2 head tail
          = hasDecrefBetweenGraph F fuel head tail)
        ∧ ∀ O : DomOracle, RefPrunePass.runOnFunction fuel2 O F
            = RefPrunePass.runOnFunction fuel O F) := by
  have hinit : Acyclic (initState F).F :=
    acyclic_of_term_eq (fun b => blockAt_eraseNullList_term F b) hac
  have hlen : (initState F).F.length = F.length := by
    simp only [initState, eraseNullList, length_foldl_erase]
  refine ⟨walk_isSome_of_acyclic hac hfuel, fun O => ?_, fun fuel2 hfuel2 => ⟨?_, fun O => ?_⟩⟩
  · have hrun : (run fuel O F).2 = true :=
      outerLoop_completes _ _ hinit (by rw [hlen]; exact hfuel)
    refine ⟨hrun, ?_⟩
    simp only [RefPrunePass.runOnFunction, hrun, if_true]
  · exact walk_eq_of_acyclic hac hfuel hfuel2
  · have : run fuel2 O F = run fuel O F :=
      outerLoop_congr_fuel _ _ hinit (by rw [hlen]; exact hfuel) (by rw [hlen]; exact hfuel2)
    simp only [RefPrunePass.runOnFunction, this]

theorem C20_walk_terminates_on_acyclic_witness :
    Acyclic triangleFunction ∧ triangleFunction.length < 4
    ∧ (∀ head tail, (hasDecrefBetweenGraph triangleFunction 4 head tail).isSome = true)
    ∧ (∀ O : DomOracle, (run 4 O triangleFunction).2 = true ∧
        RefPrunePass.runOnFunction 4 O triangleFunction
          = some ((run 4 O triangleFunction).1.F, (run 4 O triangleFunction).1.mutated))
    ∧ (∀ fuel2, triangleFunction.length < fuel2 →
        (∀ head tail, hasDecrefBetweenGraph triangleFunction fuel2 head tail
          = hasDecrefBetweenGraph triangleFunction 4 head tail)
        ∧ ∀ O : DomOracle, RefPrunePass.runOnFunction fuel2 O triangleFunction
            = RefPrunePass.runOnFunction 4 O triangleFunction) :=
  ⟨acyclic_of_edge_lt triangleFunction_edge_lt, by decide,
    C20_walk_terminates_on_acyclic triangleFunction (acyclic_of_edge_lt triangleFunction_edge_lt)
      4 (by decide)⟩


/-! ## Balance of the pruner -/

theorem map_eq_range_map {α : Type} (f : BasicBlock → α) (F : Function) :
    F.map f = (List.range F.length).map (fun b => f (blockAt F b)) := by
  apply List.ext_getElem
  · simp
  · intro i h1 h2
    simp only [List.length_map] at h1
    simp [blockAt, List.get?_eq_getElem?, List.getElem?_eq_getElem h1]

theorem length_filter_locatedInsts (q : RefOp → Bool) (F : Function) :
    ((locatedInsts F).filter q).length
      = ((List.range F.length).map
          (fun b => ((blockAt F b).insts.filter (fun x => q ⟨b, x⟩)).length)).sum := by
  unfold locatedInsts
  rw [List.filter_flatMap, List.length_flatMap]
  congr 1
  apply List.map_congr_left
  intro b _
  simp only [Function.comp_apply, List.filter_map, List.length_map]
  rfl

theorem increfCount_eq (p : Value) (F : Function) :
    increfCount p F
      = ((locatedInsts F).filter (fun r => IsIncRef r.inst && r.inst.arg == p)).length := by
  rw [length_filter_locatedInsts, increfCount, map_eq_range_map]

theorem decrefCount_eq (p : Value) (F : Function) :
    decrefCount p F
      = ((locatedInsts F).filter (fun r => IsDecRef r.inst && r.inst.arg == p)).length := by
  rw [length_filter_locatedInsts, decrefCount, map_eq_range_map]

theorem length_filter_locatedInsts_of_filter (q k : RefOp → Bool) {F G : Function}
    (hlen : G.length = F.length)
    (hG : ∀ b, (blockAt G b).insts = (blockAt F b).insts.filter (fun x => k ⟨b, x⟩)) :
    ((locatedInsts G).filter q).length
      = ((locatedInsts F).filter (fun r => q r && k r)).length := by
  rw [length_filter_locatedInsts, length_filter_locatedInsts, hlen]
  congr 1
  apply List.map_congr_left
  intro b _
  rw [hG b, List.filter_filter]

theorem mem_locatedInsts {r : RefOp} {F : Function} :
    r ∈ locatedInsts F ↔ r.inst ∈ (blockAt F r.parent).insts := by
  rcases r with ⟨b, x⟩
  simp only [locatedInsts, List.mem_flatMap, List.mem_range, List.mem_map, RefOp.mk.injEq]
  constructor
  · rintro ⟨a, _, y, hy, rfl, rfl⟩
    exact hy
  · intro h
    exact ⟨b, lt_length_of_insts_ne_nil (List.ne_nil_of_mem h), x, h, rfl, rfl⟩

theorem nodup_blockAt_of_wellFormed {F : Function} (hwf : WellFormed F) (b : Nat) :
    (blockAt F b).insts.Nodup := by
  by_cases hb : b < F.length
  · apply hwf
    have : blockAt F b = F[b] := by
      simp [blockAt, List.get?_eq_getElem?, List.getElem?_eq_getElem hb]
    rw [this]
    exact List.getElem_mem hb
  · rw [blockAt_of_length_le (Nat.le_of_not_lt hb)]
    exact List.nodup_nil

theorem locatedInsts_nodup {F : Function} (hwf : WellFormed F) : (locatedInsts F).Nodup := by
  unfold locatedInsts
  rw [List.nodup_flatMap]
  constructor
  · intro b _
    apply List.Nodup.map _ (nodup_blockAt_of_wellFormed hwf b)
    intro x y hxy
    simpa using hxy
  · apply (List.nodup_range F.length).imp
    intro a b hab
    simp only [Function.onFun]
    intro r h1 h2
    simp only [List.mem_map] at h1 h2
    obtain ⟨x, _, rfl⟩ := h1
    obtain ⟨y, _, hy⟩ := h2
    simp only [RefOp.mk.injEq] at hy
    exact hab hy.1.symm

theorem refOpsFrom_nodup : ∀ (bbs : List BasicBlock) (k : Nat),
    (∀ bb ∈ bbs, bb.insts.Nodup) → (refOpsFrom k bbs).Nodup := by
  intro bbs
  induction bbs with
  | nil => intro _ _; exact List.nodup_nil
  | cons bb rest ih =>
    intro k hwf
    simp only [refOpsFrom]
    rw [List.nodup_append]
    refine ⟨?_, ih (k + 1) (fun bb' h => hwf bb' (List.mem_cons_of_mem _ h)), ?_⟩
    · unfold blockRefOps
      apply List.Nodup.map _ ((hwf bb (List.mem_cons_self _ _)).filter _)
      intro x y hxy
      simpa using hxy
    · intro r h1 h2
      have := (mem_blockRefOps.mp h1).1
      have := (mem_refOpsFrom.mp h2).1
      omega

theorem increfList_nodup {F : Function} (hwf : WellFormed F) : (increfList F).Nodup :=
  (refOpsFrom_nodup F 0 hwf).filter _

theorem decrefList_nodup {F : Function} (hwf : WellFormed F) : (decrefList F).Nodup :=
  (refOpsFrom_nodup F 0 hwf).filter _

theorem entryOf_split_nodup {pre post : List (Option RefOp)} {d : RefOp} :
    ∀ {L : List RefOp}, List.Forall₂ EntryOf (pre ++ some d :: post) L → L.Nodup →
      some d ∉ pre ∧ some d ∉ post := by
  induction pre with
  | nil =>
    intro L h hnd
    cases h with
    | cons h1 h2 =>
      rcases h1 with h1 | h1
      · cases h1
      · cases h1
        refine ⟨by simp, fun hd => ?_⟩
        exact (List.nodup_cons.mp hnd).1 (mem_of_entryOf h2 hd)
  | cons x pre ih =>
    intro L h hnd
    cases h with
    | cons h1 h2 =>
      have hr := ih h2 (List.nodup_cons.mp hnd).2
      refine ⟨fun hd => ?_, hr.2⟩
      rcases List.mem_cons.mp hd with hd | hd
      · rcases h1 with h1 | h1
        · rw [h1] at hd; cases hd
        · rw [h1] at hd
          cases hd
          exact (List.nodup_cons.mp hnd).1 (mem_of_entryOf h2 (by simp))
      · exact hr.1 hd

/-- No decref is matched twice: the decrefs of the recorded pairs are distinct
and their entries in the list are NULL. -/
theorem outerLoop_pruned_decref_nodup {fuel : Nat} {O : DomOracle} {increfs : List RefOp}
    {L : List RefOp} {s0 s : PruneState} (h : (outerLoop fuel O increfs s0).1 = s)
    (h0 : List.Forall₂ EntryOf s0.decrefs L) (hL : L.Nodup) (hp : s0.pruned = []) :
    (s.pruned.map fun e => e.decref).Nodup := by
  have key : List.Forall₂ EntryOf s.decrefs L ∧ (s.pruned.map fun e => e.decref).Nodup ∧
      ∀ e ∈ s.pruned, some e.decref ∉ s.decrefs := by
    refine outerLoop_induction
      (fun s => List.Forall₂ EntryOf s.decrefs L ∧ (s.pruned.map fun e => e.decref).Nodup ∧
        ∀ e ∈ s.pruned, some e.decref ∉ s.decrefs) increfs ?_ ⟨h0, by simp [hp], by simp [hp]⟩ h
    intro s i d l _ hP hm
    obtain ⟨hF, hnd, hcons⟩ := hP
    obtain ⟨pre, post, hds, hl, _, _⟩ := innerLoop_match hm
    rw [hds] at hF
    have hsplit := entryOf_split_nodup hF hL
    have hdl : some d ∉ l := by
      rw [hl]
      simp only [List.mem_append, List.mem_cons, not_or]
      exact ⟨hsplit.1, by simp, hsplit.2⟩
    have hsub : ∀ x : RefOp, some x ∈ l → some x ∈ s.decrefs := by
      intro x hx
      rw [hl] at hx
      rw [hds]
      simp only [List.mem_append, List.mem_cons] at hx ⊢
      rcases hx with hx | hx | hx
      · exact Or.inl hx
      · cases hx
      · exact Or.inr (Or.inr hx)
    refine ⟨hl ▸ entryOf_set_none hF, ?_, ?_⟩
    · simp only [PruneState.erasePair, List.map_append, List.map_cons, List.map_nil]
      rw [List.nodup_append]
      refine ⟨hnd, List.nodup_singleton _, ?_⟩
      intro r h1 h2
      simp only [List.mem_singleton] at h2
      subst h2
      simp only [List.mem_map] at h1
      obtain ⟨e, he, hed⟩ := h1
      apply hcons e he
      rw [hed, hds]
      simp
    · intro e he
      simp only [PruneState.erasePair, List.mem_append, List.mem_singleton] at he
      rcases he with he | rfl
      · intro hx
        exact hcons e he (hsub _ hx)
      · exact hdl
  exact key.2.1

theorem isIncRef_not_isDecRef {x : Instruction} (h : IsIncRef x = true) : IsDecRef x = false := by
  simp only [IsIncRef, IsDecRef, beq_iff_eq] at h ⊢
  rw [h]
  rfl

/-- The number of refops of one kind on the non-null pointer `p` that the loop
takes out of the function is the number of recorded pairs on `p`. -/
theorem count_erased {F : Function} (hwf : WellFormed F) {keep : RefOp → Bool}
    {q : RefOp → Bool} {E : List RefOp} (hE : E.Nodup)
    (hmem : ∀ r, (r ∈ locatedInsts F ∧ q r = true ∧ keep r = false) ↔ r ∈ E) :
    ((locatedInsts F).filter q).length
      = ((locatedInsts F).filter (fun r => q r && keep r)).length + E.length := by
  have h1 := @List.length_eq_length_filter_add _ ((locatedInsts F).filter q) keep
  rw [List.filter_filter, List.filter_filter] at h1
  have hperm : ((locatedInsts F).filter (fun a => !keep a && q a)).Perm E := by
    rw [List.perm_ext_iff_of_nodup ((locatedInsts_nodup hwf).filter _) hE]
    intro r
    rw [← hmem r]
    simp only [List.mem_filter, Bool.and_eq_true, Bool.not_eq_true']
    tauto
  rw [hperm.length_eq] at h1
  rw [h1]
  congr 2
  apply List.filter_congr
  intro r _
  rw [Bool.and_comm]


theorem run_pruned_spec (fuel : Nat) (O : DomOracle) (F : Function) :
    ∀ e ∈ (run fuel O F).1.pruned, e.incref ∈ increfList F ∧ e.decref ∈ decrefList F ∧
      e.incref.inst.arg = e.decref.inst.arg := by
  have h : (outerLoop fuel O (increfList F) (initState F)).1 = (run fuel O F).1 := rfl
  have hs := (outerLoop_pruned_spec h (entryOf_map_some (decrefList F)) rfl).2
  intro e he
  exact ⟨(hs e he).1, (hs e he).2.1, (hs e he).2.2.2.1.1⟩

theorem run_pruned_nodup (fuel : Nat) (O : DomOracle) {F : Function} (hwf : WellFormed F) :
    ((run fuel O F).1.pruned.map fun e => e.incref).Nodup ∧
    ((run fuel O F).1.pruned.map fun e => e.decref).Nodup := by
  have h : (outerLoop fuel O (increfList F) (initState F)).1 = (run fuel O F).1 := rfl
  constructor
  · obtain ⟨new, hnew, hsub⟩ := outerLoop_pruned_sublist h
    have : (run fuel O F).1.pruned = new := by rw [hnew]; rfl
    rw [this]
    exact (increfList_nodup hwf).sublist hsub
  · exact outerLoop_pruned_decref_nodup h (entryOf_map_some (decrefList F))
      (decrefList_nodup hwf) rfl

theorem run_length (fuel : Nat) (O : DomOracle) (F : Function) :
    (run fuel O F).1.F.length = F.length := by
  have h : (outerLoop fuel O (increfList F) (initState F)).1 = (run fuel O F).1 := rfl
  rw [outerLoop_length h]
  simp only [initState, eraseNullList, length_foldl_erase]

theorem run_increfCount (fuel : Nat) (O : DomOracle) {F : Function} (hwf : WellFormed F)
    {p : Value} (hp : p ≠ Value.null) :
    increfCount p F = increfCount p (run fuel O F).1.F
      + ((run fuel O F).1.pruned.filter (fun e => e.incref.inst.arg == p)).length := by
  have hs := run_pruned_spec fuel O F
  rw [increfCount_eq, increfCount_eq,
    length_filter_locatedInsts_of_filter _
      (fun r => decide (r ∉ nullList F) && decide (r ∉ (run fuel O F).1.erasedOps))
      (run_length fuel O F) (run_insts fuel O F),
    count_erased hwf (((run_pruned_nodup fuel O hwf).1).filter (fun r => r.inst.arg == p))]
  · rw [List.filter_map, List.length_map]
    rfl
  · intro r
    simp only [List.mem_filter, List.mem_map, Bool.and_eq_true, Bool.and_eq_false_iff,
      decide_eq_false_iff_not, not_not, beq_iff_eq, PruneState.erasedOps, List.mem_append]
    constructor
    · rintro ⟨_, ⟨hinc, harg⟩, hk⟩
      refine ⟨?_, harg⟩
      rcases hk with hk | hk | hk
      · have := (mem_nullList.mp hk).2.2
        simp only [isNonNullFirstArg, bne_eq_false_iff_eq] at this
        exact absurd (harg ▸ this) hp
      · exact hk
      · obtain ⟨e, he, rfl⟩ := hk
        have := (mem_decrefList.mp (hs e he).2.1).2.2
        rw [isIncRef_not_isDecRef hinc] at this
        cases this
    · rintro ⟨⟨e, he, rfl⟩, harg⟩
      have := mem_increfList.mp (hs e he).1
      exact ⟨mem_locatedInsts.mpr this.1, ⟨this.2.2, harg⟩, Or.inr (Or.inl ⟨e, he, rfl⟩)⟩

theorem run_decrefCount (fuel : Nat) (O : DomOracle) {F : Function} (hwf : WellFormed F)
    {p : Value} (hp : p ≠ Value.null) :
    decrefCount p F = decrefCount p (run fuel O F).1.F
      + ((run fuel O F).1.pruned.filter (fun e => e.decref.inst.arg == p)).length := by
  have hs := run_pruned_spec fuel O F
  rw [decrefCount_eq, decrefCount_eq,
    length_filter_locatedInsts_of_filter _
      (fun r => decide (r ∉ nullList F) && decide (r ∉ (run fuel O F).1.erasedOps))
      (run_length fuel O F) (run_insts fuel O F),
    count_erased hwf (((run_pruned_nodup fuel O hwf).2).filter (fun r => r.inst.arg == p))]
  · rw [List.filter_map, List.length_map]
    rfl
  · intro r
    simp only [List.mem_filter, List.mem_map, Bool.and_eq_true, Bool.and_eq_false_iff,
      decide_eq_false_iff_not, not_not, beq_iff_eq, PruneState.erasedOps, List.mem_append]
    constructor
    · rintro ⟨_, ⟨hdec, harg⟩, hk⟩
      refine ⟨?_, harg⟩
      rcases hk with hk | hk | hk
      · have := (mem_nullList.mp hk).2.2
        simp only [isNonNullFirstArg, bne_eq_false_iff_eq] at this
        exact absurd (harg ▸ this) hp
      · obtain ⟨e, he, rfl⟩ := hk
        have := (mem_increfList.mp (hs e he).1).2.2
        rw [isIncRef_not_isDecRef this] at hdec
        cases hdec
      · exact hk
    · rintro ⟨⟨e, he, rfl⟩, harg⟩
      have := mem_decrefList.mp (hs e he).2.1
      exact ⟨mem_locatedInsts.mpr this.1, ⟨this.2.2, harg⟩, Or.inr (Or.inr ⟨e, he, rfl⟩)⟩

theorem sampleFunction_wellFormed : WellFormed sampleFunction := by
  unfold WellFormed
  decide

/-- C19: in a function whose blocks hold no instruction twice, for every
non-null pointer `p` the pruner takes out as many increfs of `p` as decrefs of
`p`, one of each for every pair on `p` that it matches; the number of increfs
of `p` minus the number of decrefs of `p` in the function is the same before
and after the pass. -/
theorem C19_pairwise_balance (fuel : Nat) (O : DomOracle) (F : Function) (hwf : WellFormed F)
    (p : Value) (hp : p ≠ Value.null) :
    increfCount p F = increfCount p (run fuel O F).1.F
      + ((run fuel O F).1.pruned.filter (fun e => e.incref.inst.arg == p)).length
    ∧ decrefCount p F = decrefCount p (run fuel O F).1.F
      + ((run fuel O F).1.pruned.filter (fun e => e.decref.inst.arg == p)).length
    ∧ (run fuel O F).1.pruned.filter (fun e => e.incref.inst.arg == p)
      = (run fuel O F).1.pruned.filter (fun e => e.decref.inst.arg == p)
    ∧ increfCount p F - increfCount p (run fuel O F).1.F
      = decrefCount p F - decrefCount p (run fuel O F).1.F
    ∧ ∀ F' changed, RefPrunePass.runOnFunction fuel O F = some (F', changed) →
        (increfCount p F' : Int) - (decrefCount p F' : Int)
          = (increfCount p F : Int) - (decrefCount p F : Int) := by
  have hi := run_increfCount fuel O hwf hp
  have hd := run_decrefCount fuel O hwf hp
  have heq : (run fuel O F).1.pruned.filter (fun e => e.incref.inst.arg == p)
      = (run fuel O F).1.pruned.filter (fun e => e.decref.inst.arg == p) := by
    apply List.filter_congr
    intro e he
    rw [(run_pruned_spec fuel O F e he).2.2]
  refine ⟨hi, hd, heq, ?_, ?_⟩
  · rw [heq] at hi
    omega
  · intro F' changed h
    have hF : (run fuel O F).1.F = F' := by
      have := (runOnFunction_eq_some_iff fuel O F F' changed).mp h
      exact this.2.1
    rw [← hF]
    rw [heq] at hi
    omega

theorem C19_pairwise_balance_witness :
    WellFormed sampleFunction ∧ Value.ptr 7 ≠ Value.null
    ∧ increfCount (Value.ptr 7) sampleFunction
        = increfCount (Value.ptr 7) (run 3 orderOracle sampleFunction).1.F
          + ((run 3 orderOracle sampleFunction).1.pruned.filter
              (fun e => e.incref.inst.arg == Value.ptr 7)).length
    ∧ decrefCount (Value.ptr 7) sampleFunction
        = decrefCount (Value.ptr 7) (run 3 orderOracle sampleFunction).1.F
          + ((run 3 orderOracle sampleFunction).1.pruned.filter
              (fun e => e.decref.inst.arg == Value.ptr 7)).length
    ∧ (run 3 orderOracle sampleFunction).1.pruned.filter
          (fun e => e.incref.inst.arg == Value.ptr 7)
        = (run 3 orderOracle sampleFunction).1.pruned.filter
          (fun e => e.decref.inst.arg == Value.ptr 7)
    ∧ increfCount (Value.ptr 7) sampleFunction
          - increfCount (Value.ptr 7) (run 3 orderOracle sampleFunction).1.F
        = decrefCount (Value.ptr 7) sampleFunction
          - decrefCount (Value.ptr 7) (run 3 orderOracle sampleFunction).1.F
    ∧ ∀ F' changed, RefPrunePass.runOnFunction 3 orderOracle sampleFunction = some (F', changed) →
        (increfCount (Value.ptr 7) F' : Int) - (decrefCount (Value.ptr 7) F' : Int)
          = (increfCount (Value.ptr 7) sampleFunction : Int)
            - (decrefCount (Value.ptr 7) sampleFunction : Int) :=
  ⟨sampleFunction_wellFormed, by decide,
    C19_pairwise_balance 3 orderOracle sampleFunction sampleFunction_wellFormed (Value.ptr 7)
      (by decide)⟩


/-! ## The fan-out walk -/

theorem mem_foldl_insert (inner acc : List Nat) (x : Nat) :
    x ∈ inner.foldl (fun s each => s.insert each) acc ↔ x ∈ acc ∨ x ∈ inner := by
  induction inner generalizing acc with
  | nil => simp
  | cons a rest ih =>
    rw [List.foldl_cons, ih, List.mem_insert_iff, List.mem_cons]
    tauto

theorem basicBlockInList_eq_true {bb : Nat} {list : List Nat} :
    basicBlockInList bb list = true ↔ bb ∈ list := by
  simp only [basicBlockInList, List.any_eq_true, beq_iff_eq]
  constructor
  · rintro ⟨y, hy, rfl⟩
    exact hy
  · intro h
    exact ⟨bb, h, rfl⟩

theorem exists_mem_cons_iff_or {p : Nat → Prop} {c : Nat} {rest : List Nat} :
    (∃ x, x ∈ c :: rest ∧ p x) ↔ p c ∨ ∃ x, x ∈ rest ∧ p x := by
  simp

theorem isRelatedDecref_isSome {incref ii : Instruction} :
    (isRelatedDecref incref ii).isSome = true ↔ IsDecRef ii = true ∧ ii.arg = incref.arg := by
  unfold isRelatedDecref
  by_cases h1 : IsDecRef ii = true
  · by_cases h2 : incref.arg = ii.arg
    · simp [h1, h2]
    · simp [h1, h2, Ne.symm h2]
  · simp [h1]

theorem hasDecrefInNode_eq_true {F : Function} {incref : Instruction} {bb : Nat} :
    hasDecrefInNode F incref bb = true
      ↔ ∃ ii ∈ (blockAt F bb).insts, IsDecRef ii = true ∧ ii.arg = incref.arg := by
  simp only [hasDecrefInNode, List.any_eq_true, isRelatedDecref_isSome]

theorem mem_fanoutLoop {F : Function} {incref : Instruction} {stack : List Nat}
    {recurse : Nat → List Nat} (x : Nat) :
    ∀ (succs : List Nat) (acc : List Nat) (m : Bool),
      x ∈ (fanoutLoop F incref stack recurse succs (acc, m)).1 ↔
        x ∈ acc ∨ ∃ c, c ∈ succs ∧ (c ∉ stack ∧
          ((hasDecrefInNode F incref c = true ∧ x = c) ∨
            (hasDecrefInNode F incref c = false ∧ x ∈ recurse c))) := by
  intro succs
  induction succs with
  | nil => intro acc m; simp [fanoutLoop]
  | cons c rest ih =>
    intro acc m
    simp only [fanoutLoop]
    rw [exists_mem_cons_iff_or]
    by_cases hst : c ∈ stack
    · rw [if_pos (basicBlockInList_eq_true.mpr hst), ih]
      constructor
      · rintro (h | h)
        · exact Or.inl h
        · exact Or.inr (Or.inr h)
      · rintro (h | h | h)
        · exact Or.inl h
        · exact absurd hst h.1
        · exact Or.inr h
    · rw [if_neg (fun h => hst (basicBlockInList_eq_true.mp h))]
      by_cases hdec : hasDecrefInNode F incref c = true
      · rw [if_pos hdec, ih, List.mem_insert_iff]
        constructor
        · rintro ((h | h) | h)
          · exact Or.inr (Or.inl ⟨hst, Or.inl ⟨hdec, h⟩⟩)
          · exact Or.inl h
          · exact Or.inr (Or.inr h)
        · rintro (h | ⟨_, (h | h)⟩ | h)
          · exact Or.inl (Or.inr h)
          · exact Or.inl (Or.inl h.2)
          · rw [hdec] at h; cases h.1
          · exact Or.inr h
      · rw [if_neg hdec]
        have hdec' : hasDecrefInNode F incref c = false := by simpa using hdec
        by_cases hin : (recurse c).length > 0
        · rw [if_pos hin, ih, mem_foldl_insert]
          constructor
          · rintro ((h | h) | h)
            · exact Or.inl h
            · exact Or.inr (Or.inl ⟨hst, Or.inr ⟨hdec', h⟩⟩)
            · exact Or.inr (Or.inr h)
          · rintro (h | ⟨_, (h | h)⟩ | h)
            · exact Or.inl (Or.inl h)
            · exact absurd h.1 hdec
            · exact Or.inl (Or.inr h.2)
            · exact Or.inr h
        · rw [if_neg hin, ih]
          have hnil : recurse c = [] := List.length_eq_zero.mp (by omega)
          constructor
          · rintro (h | h)
            · exact Or.inl h
            · exact Or.inr (Or.inr h)
          · rintro (h | ⟨_, (h | h)⟩ | h)
            · exact Or.inl h
            · exact absurd h.1 hdec
            · rw [hnil] at h; cases h.2
            · exact Or.inr h

theorem fanoutLoop_missing {F : Function} {incref : Instruction} {stack : List Nat}
    {recurse : Nat → List Nat} :
    ∀ (succs : List Nat) (acc : List Nat) (m : Bool),
      (fanoutLoop F incref stack recurse succs (acc, m)).2 = true ↔
        m = true ∨ ∃ c, c ∈ succs ∧ (c ∉ stack ∧ hasDecrefInNode F incref c = false ∧
          recurse c = []) := by
  intro succs
  induction succs with
  | nil => intro acc m; simp [fanoutLoop]
  | cons c rest ih =>
    intro acc m
    simp only [fanoutLoop]
    rw [exists_mem_cons_iff_or]
    by_cases hst : c ∈ stack
    · rw [if_pos (basicBlockInList_eq_true.mpr hst), ih]
      constructor
      · rintro (h | h)
        · exact Or.inl h
        · exact Or.inr (Or.inr h)
      · rintro (h | h | h)
        · exact Or.inl h
        · exact absurd hst h.1
        · exact Or.inr h
    · rw [if_neg (fun h => hst (basicBlockInList_eq_true.mp h))]
      by_cases hdec : hasDecrefInNode F incref c = true
      · rw [if_pos hdec, ih]
        constructor
        · rintro (h | h)
          · exact Or.inl h
          · exact Or.inr (Or.inr h)
        · rintro (h | h | h)
          · exact Or.inl h
          · rw [hdec] at h; cases h.2.1
          · exact Or.inr h
      · rw [if_neg hdec]
        have hdec' : hasDecrefInNode F incref c = false := by simpa using hdec
        by_cases hin : (recurse c).length > 0
        · rw [if_pos hin, ih]
          constructor
          · rintro (h | h)
            · exact Or.inl h
            · exact Or.inr (Or.inr h)
          · rintro (h | h | h)
            · exact Or.inl h
            · rw [h.2.2] at hin; simp at hin
            · exact Or.inr h
        · rw [if_neg hin, ih]
          have hnil : recurse c = [] := List.length_eq_zero.mp (by omega)
          constructor
          · intro _
            exact Or.inr (Or.inl ⟨hst, hdec', hnil⟩)
          · intro _
            exact Or.inl rfl

theorem graphWalkhandleFanout_succ (F : Function) (incref : Instruction) (cur_node : Nat)
    (stack : List Nat) (depth : Nat) :
    graphWalkhandleFanout F incref cur_node stack (depth + 1)
      = if depth ≤ 0 then []
        else if (fanoutLoop F incref (stack ++ [cur_node])
            (fun child => graphWalkhandleFanout F incref child (stack ++ [cur_node]) depth)
            (blockAt F cur_node).term.succs ([], false)).2 then []
          else (fanoutLoop F incref (stack ++ [cur_node])
            (fun child => graphWalkhandleFanout F incref child (stack ++ [cur_node]) depth)
            (blockAt F cur_node).term.succs ([], false)).1 := rfl

/-- The blocks that the walk returns, in terms of the walks from the
successors. -/
theorem mem_graphWalkhandleFanout {F : Function} {incref : Instruction} {cur_node : Nat}
    {stack : List Nat} {depth : Nat} (x : Nat) :
    x ∈ graphWalkhandleFanout F incref cur_node stack (depth + 1) ↔
      depth ≠ 0 ∧
      (∀ c, Edge F cur_node c → c ∉ stack ++ [cur_node] → hasDecrefInNode F incref c = false →
        graphWalkhandleFanout F incref c (stack ++ [cur_node]) depth ≠ []) ∧
      ∃ c, Edge F cur_node c ∧ c ∉ stack ++ [cur_node] ∧
        ((hasDecrefInNode F incref c = true ∧ x = c) ∨
          (hasDecrefInNode F incref c = false ∧
            x ∈ graphWalkhandleFanout F incref c (stack ++ [cur_node]) depth)) := by
  rw [graphWalkhandleFanout_succ]
  by_cases hd : depth = 0
  · simp [hd]
  · rw [if_neg (by omega)]
    by_cases hm : (fanoutLoop F incref (stack ++ [cur_node])
        (fun child => graphWalkhandleFanout F incref child (stack ++ [cur_node]) depth)
        (blockAt F cur_node).term.succs ([], false)).2 = true
    · rw [if_pos hm]
      have hm' := (fanoutLoop_missing _ _ _).mp hm
      simp only [Bool.false_eq_true, false_or] at hm'
      obtain ⟨c, hc, hst, hdec, hnil⟩ := hm'
      simp only [List.not_mem_nil, false_iff, not_and]
      intro _ hall
      exact absurd hnil (hall c hc hst hdec)
    · rw [if_neg hm, mem_fanoutLoop]
      have hm' : ¬ _ := fun h => hm ((fanoutLoop_missing _ _ _).mpr h)
      simp only [Bool.false_eq_true, false_or, not_exists, not_and] at hm'
      simp only [List.not_mem_nil, false_or]
      constructor
      · rintro ⟨c, hc, hst, h⟩
        exact ⟨hd, fun c hc hst hdec => hm' c hc hst hdec, c, hc, hst, h⟩
      · rintro ⟨_, _, c, hc, hst, h⟩
        exact ⟨c, hc, hst, h⟩

theorem graphWalkhandleFanout_eq_nil_of_missing {F : Function} {incref : Instruction}
    {cur_node : Nat} {stack : List Nat} {depth : Nat} {c : Nat}
    (hc : Edge F cur_node c) (hst : c ∉ stack ++ [cur_node])
    (hdec : hasDecrefInNode F incref c = false)
    (hnil : graphWalkhandleFanout F incref c (stack ++ [cur_node]) depth = []) :
    graphWalkhandleFanout F incref cur_node stack (depth + 1) = [] := by
  apply List.eq_nil_iff_forall_not_mem.mpr
  intro x hx
  exact (mem_graphWalkhandleFanout x).mp hx |>.2.1 c hc hst hdec hnil


theorem graphWalkhandleFanout_has_decref {F : Function} {incref : Instruction} :
    ∀ (depth cur_node : Nat) (stack : List Nat),
      ∀ x ∈ graphWalkhandleFanout F incref cur_node stack depth,
        hasDecrefInNode F incref x = true ∧ x ∉ stack ++ [cur_node] := by
  intro depth
  induction depth with
  | zero => intro cur_node stack x hx; simp [graphWalkhandleFanout] at hx
  | succ depth ih =>
    intro cur_node stack x hx
    obtain ⟨_, _, c, _, hst, h⟩ := (mem_graphWalkhandleFanout x).mp hx
    rcases h with ⟨hdec, rfl⟩ | ⟨_, hin⟩
    · exact ⟨hdec, hst⟩
    · have := ih c (stack ++ [cur_node]) x hin
      refine ⟨this.1, fun hx' => this.2 ?_⟩
      exact List.mem_append_left _ hx'

/-- When the walk from `cur_node` returns blocks, every path from `cur_node`
to an exit meets, after its first block, a returned block or a block of the
stack. -/
theorem graphWalkhandleFanout_covers {F : Function} {incref : Instruction} :
    ∀ (depth cur_node : Nat) (stack : List Nat),
      graphWalkhandleFanout F incref cur_node stack depth ≠ [] →
      ∀ path, path.head? = some cur_node → List.Chain' (Edge F) path → EndsInExit F path →
        ∃ x ∈ path.tail, x ∈ graphWalkhandleFanout F incref cur_node stack depth ∨ x ∈ stack := by
  intro depth
  induction depth with
  | zero => intro cur_node stack h; exact absurd rfl h
  | succ depth ih =>
    intro cur_node stack hne
    obtain ⟨x0, hx0⟩ := List.exists_mem_of_ne_nil _ hne
    obtain ⟨hd, hall, c0, hc0, _, _⟩ := (mem_graphWalkhandleFanout x0).mp hx0
    have key : ∀ n path, path.length ≤ n → path.head? = some cur_node →
        List.Chain' (Edge F) path → EndsInExit F path →
        ∃ x ∈ path.tail,
          x ∈ graphWalkhandleFanout F incref cur_node stack (depth + 1) ∨ x ∈ stack := by
      intro n
      induction n with
      | zero =>
        intro path hlen hhead
        cases path with
        | nil => simp at hhead
        | cons a rest => simp at hlen
      | succ n ihn =>
        intro path hlen hhead hchain hexit
        cases path with
        | nil => simp at hhead
        | cons a rest =>
          simp only [List.head?_cons, Option.some.injEq] at hhead
          subst hhead
          cases rest with
          | nil =>
            obtain ⟨e, he, hex⟩ := hexit
            simp only [List.getLast?_singleton, Option.some.injEq] at he
            subst he
            unfold IsExit at hex
            unfold Edge at hc0
            rw [hex] at hc0
            cases hc0
          | cons c1 rest2 =>
            have hedge : Edge F a c1 := (List.chain'_cons.mp hchain).1
            have hchain1 : List.Chain' (Edge F) (c1 :: rest2) := (List.chain'_cons.mp hchain).2
            have hexit1 : EndsInExit F (c1 :: rest2) := by
              obtain ⟨e, he, hex⟩ := hexit
              rw [List.getLast?_cons_cons] at he
              exact ⟨e, he, hex⟩
            simp only [List.length_cons] at hlen
            by_cases hst : c1 ∈ stack
            · exact ⟨c1, by simp, Or.inr hst⟩
            · by_cases hca : c1 = a
              · subst hca
                obtain ⟨x, hx, h⟩ := ihn (c1 :: rest2) (by simp; omega) rfl hchain1 hexit1
                exact ⟨x, by simp only [List.tail_cons] at hx ⊢; exact List.mem_cons_of_mem _ hx, h⟩
              · have hst' : c1 ∉ stack ++ [a] := by
                  simp only [List.mem_append, List.mem_singleton, not_or]
                  exact ⟨hst, hca⟩
                by_cases hdec : hasDecrefInNode F incref c1 = true
                · refine ⟨c1, by simp, Or.inl ?_⟩
                  exact (mem_graphWalkhandleFanout c1).mpr
                    ⟨hd, hall, c1, hedge, hst', Or.inl ⟨hdec, rfl⟩⟩
                · have hdec' : hasDecrefInNode F incref c1 = false := by simpa using hdec
                  have hne1 := hall c1 hedge hst' hdec'
                  obtain ⟨x, hx, h⟩ := ih c1 (stack ++ [a]) hne1 (c1 :: rest2) rfl hchain1 hexit1
                  simp only [List.tail_cons] at hx
                  rcases h with h | h
                  · refine ⟨x, by simp only [List.tail_cons]; exact List.mem_cons_of_mem _ hx,
                      Or.inl ?_⟩
                    exact (mem_graphWalkhandleFanout x).mpr
                      ⟨hd, hall, c1, hedge, hst', Or.inr ⟨hdec', h⟩⟩
                  · simp only [List.mem_append, List.mem_singleton] at h
                    rcases h with h | h
                    · exact ⟨x, by simp only [List.tail_cons]; exact List.mem_cons_of_mem _ hx,
                        Or.inr h⟩
                    · subst h
                      obtain ⟨s, t, hsplit⟩ := List.append_of_mem hx
                      have hchain2 : List.Chain' (Edge F) (x :: t) := by
                        have : List.Chain' (Edge F) ((c1 :: s) ++ (x :: t)) := by
                          rw [List.cons_append, ← hsplit]
                          exact hchain1
                        exact this.right_of_append
                      have hexit2 : EndsInExit F (x :: t) := by
                        obtain ⟨e, he, hex⟩ := hexit1
                        refine ⟨e, ?_, hex⟩
                        rw [hsplit, ← List.cons_append,
                          List.getLast?_append_of_ne_nil _ (List.cons_ne_nil _ _)] at he
                        exact he
                      have hlen2 : (x :: t).length ≤ n := by
                        have : rest2.length = s.length + (t.length + 1) := by
                          rw [hsplit]; simp
                        simp only [List.length_cons]
                        omega
                      obtain ⟨y, hy, h⟩ := ihn (x :: t) hlen2 rfl hchain2 hexit2
                      simp only [List.tail_cons] at hy
                      refine ⟨y, ?_, h⟩
                      simp only [List.tail_cons]
                      apply List.mem_cons_of_mem
                      rw [hsplit]
                      exact List.mem_append_right _ (List.mem_cons_of_mem _ hy)
    intro path
    exact key path.length path (le_refl _)

/-- The walk gives up when it follows a path without repeated blocks and
without a related decref down to its depth bound. -/
theorem graphWalkhandleFanout_depth_bound {F : Function} {incref : Instruction} :
    ∀ (depth cur_node : Nat) (stack : List Nat) (path : List Nat),
      path.length = depth → path.head? = some cur_node → List.Chain' (Edge F) path →
      path.Nodup → (∀ x ∈ path, x ∉ stack) →
      (∀ x ∈ path.tail, hasDecrefInNode F incref x = false) →
      graphWalkhandleFanout F incref cur_node stack depth = [] := by
  intro depth
  induction depth with
  | zero => intro cur_node stack path _ _ _ _ _ _; rfl
  | succ depth ih =>
    intro cur_node stack path hlen hhead hchain hnd hst hdec
    cases path with
    | nil => simp at hhead
    | cons a rest =>
      simp only [List.head?_cons, Option.some.injEq] at hhead
      subst hhead
      cases rest with
      | nil =>
        simp only [List.length_singleton] at hlen
        have : depth = 0 := by omega
        subst this
        rfl
      | cons c1 rest2 =>
        have hedge : Edge F a c1 := (List.chain'_cons.mp hchain).1
        have hnd1 := List.nodup_cons.mp hnd
        have hst' : ∀ x ∈ c1 :: rest2, x ∉ stack ++ [a] := by
          intro x hx
          simp only [List.mem_append, List.mem_singleton, not_or]
          refine ⟨hst x (List.mem_cons_of_mem _ hx), ?_⟩
          rintro rfl
          exact hnd1.1 hx
        apply graphWalkhandleFanout_eq_nil_of_missing hedge (hst' c1 (List.mem_cons_self _ _))
          (hdec c1 (by simp))
        apply ih c1 (stack ++ [a]) (c1 :: rest2) (by simpa using hlen) rfl
          (List.chain'_cons.mp hchain).2 hnd1.2 hst'
        intro x hx
        apply hdec
        simp only [List.tail_cons] at hx ⊢
        exact List.mem_cons_of_mem _ hx


/-- C18 (counterexample): in `fanoutLoopFunction` the path `fanoutLoopPath`
leads from block 0 to an exit block, and its first ten blocks after block 0
hold no decref related to the incref of block 0; the walk from block 0 with an
empty stack and depth 10 still returns the blocks 2 and 3. -/
theorem C18_counterexample :
    fanoutLoopPath.head? = some 0
    ∧ List.Chain' (Edge fanoutLoopFunction) fanoutLoopPath
    ∧ EndsInExit fanoutLoopFunction fanoutLoopPath
    ∧ (∀ x ∈ fanoutLoopPath.tail.take 10,
        hasDecrefInNode fanoutLoopFunction (mkIncref 0 (Value.ptr 7)) x = false)
    ∧ graphWalkhandleFanout fanoutLoopFunction (mkIncref 0 (Value.ptr 7)) 0 [] 10 = [2, 3] := by
  refine ⟨rfl, ?_, ⟨2, rfl, rfl⟩, ?_, rfl⟩
  · simp [fanoutLoopPath, Edge, fanoutLoopFunction]
  · decide

/-- C18: the fan-out walk from block `B` with an empty stack and depth 10 is a
total function.  Every block it returns holds a decref on the operand of the
incref and is not `B`.  When it returns blocks, every successor path from `B`
to an exit block meets one of them after its first block.  When some
successor path from `B` to an exit block has no related decref after its
first block, or some successor path from `B` without a repeated block has ten
blocks and no related decref after its first block, the walk returns no
block. -/
theorem C18_fanout_walk_sound (F : Function) (incref : Instruction) (B : Nat) :
    (∀ x ∈ graphWalkhandleFanout F incref B [] 10,
      (∃ ii ∈ (blockAt F x).insts, IsDecRef ii = true ∧ ii.arg = incref.arg) ∧ x ≠ B)
    ∧ (graphWalkhandleFanout F incref B [] 10 ≠ [] →
        ∀ path, path.head? = some B → List.Chain' (Edge F) path → EndsInExit F path →
          ∃ x ∈ path.tail, x ∈ graphWalkhandleFanout F incref B [] 10)
    ∧ (∀ path, path.head? = some B → List.Chain' (Edge F) path → EndsInExit F path →
        (∀ x ∈ path.tail, hasDecrefInNode F incref x = false) →
        graphWalkhandleFanout F incref B [] 10 = [])
    ∧ (∀ path, path.head? = some B → List.Chain' (Edge F) path → path.Nodup →
        path.length = 10 → (∀ x ∈ path.tail, hasDecrefInNode F incref x = false) →
        graphWalkhandleFanout F incref B [] 10 = []) := by
  have hcov : graphWalkhandleFanout F incref B [] 10 ≠ [] →
      ∀ path, path.head? = some B → List.Chain' (Edge F) path → EndsInExit F path →
        ∃ x ∈ path.tail, x ∈ graphWalkhandleFanout F incref B [] 10 := by
    intro hne path hhead hchain hexit
    obtain ⟨x, hx, h⟩ := graphWalkhandleFanout_covers 10 B [] hne path hhead hchain hexit
    rcases h with h | h
    · exact ⟨x, hx, h⟩
    · cases h
  refine ⟨?_, hcov, ?_, ?_⟩
  · intro x hx
    have := graphWalkhandleFanout_has_decref 10 B [] x hx
    refine ⟨hasDecrefInNode_eq_true.mp this.1, ?_⟩
    rintro rfl
    exact this.2 (by simp)
  · intro path hhead hchain hexit hdec
    by_contra hne
    obtain ⟨x, hx, h⟩ := hcov hne path hhead hchain hexit
    have := (graphWalkhandleFanout_has_decref 10 B [] x h).1
    rw [hdec x hx] at this
    cases this
  · intro path hhead hchain hnd hlen hdec
    exact graphWalkhandleFanout_depth_bound 10 B [] path hlen hhead hchain hnd (by simp) hdec

theorem C18_fanout_walk_sound_witness :
    graphWalkhandleFanout fanoutFunction (mkIncref 0 (Value.ptr 7)) 0 [] 10 = [2, 1]
    ∧ (∀ x ∈ graphWalkhandleFanout fanoutFunction (mkIncref 0 (Value.ptr 7)) 0 [] 10,
        (∃ ii ∈ (blockAt fanoutFunction x).insts,
          IsDecRef ii = true ∧ ii.arg = (mkIncref 0 (Value.ptr 7)).arg) ∧ x ≠ 0)
    ∧ (∀ path, path.head? = some 0 → List.Chain' (Edge fanoutFunction) path →
        EndsInExit fanoutFunction path →
          ∃ x ∈ path.tail,
            x ∈ graphWalkhandleFanout fanoutFunction (mkIncref 0 (Value.ptr 7)) 0 [] 10) :=
  ⟨rfl, (C18_fanout_walk_sound fanoutFunction (mkIncref 0 (Value.ptr 7)) 0).1,
    (C18_fanout_walk_sound fanoutFunction (mkIncref 0 (Value.ptr 7)) 0).2.1 (by decide)⟩

/-! ## The fan-out loop is never run -/

theorem isNonNullFirstArg_of_arg_eq {x y : Instruction} (h : x.arg = y.arg)
    (hy : isNonNullFirstArg y = true) : isNonNullFirstArg x = true := by
  simp only [isNonNullFirstArg] at hy ⊢
  rw [h]
  exact hy

/-- With an incref on a non-null pointer and two decrefs on it as the only
refops, neither decref post-dominating the incref, the pass erases nothing
and returns `false`. -/
theorem runOnFunction_of_fanout_shape (fuel : Nat) (O : DomOracle) (F : Function)
    (a b c : Nat) (i d1 d2 : Instruction)
    (hrefs : ∀ r ∈ refOps F, r = ⟨a, i⟩ ∨ r = ⟨b, d1⟩ ∨ r = ⟨c, d2⟩)
    (hi : IsIncRef i = true) (hnn : isNonNullFirstArg i = true)
    (hd1 : IsDecRef d1 = true) (hd2 : IsDecRef d2 = true)
    (harg1 : d1.arg = i.arg) (harg2 : d2.arg = i.arg)
    (hp1 : O.postDominates d1 i = false) (hp2 : O.postDominates d2 i = false) :
    RefPrunePass.runOnFunction fuel O F = some (F, false) := by
  have hnull : nullList F = [] := by
    apply List.eq_nil_iff_forall_not_mem.mpr
    intro r hr
    have h := mem_nullList.mp hr
    have hmem : r ∈ refOps F := mem_refOps.mpr ⟨h.1, h.2.1⟩
    rcases hrefs r hmem with rfl | rfl | rfl
    · rw [hnn] at h; cases h.2.2
    · rw [isNonNullFirstArg_of_arg_eq harg1 hnn] at h; cases h.2.2
    · rw [isNonNullFirstArg_of_arg_eq harg2 hnn] at h; cases h.2.2
  have hloop : outerLoop fuel O (increfList F) (initState F) = (initState F, true) := by
    apply outerLoop_of_no_match
    intro i' hi'
    apply innerLoop_of_rejected
    intro d' hd'
    have hd'' : d' ∈ decrefList F := by
      simp only [initState, List.mem_map] at hd'
      obtain ⟨x, hx, hxe⟩ := hd'
      cases hxe
      exact hx
    have hI := mem_increfList.mp hi'
    have hD := mem_decrefList.mp hd''
    have hImem : i' ∈ refOps F :=
      mem_refOps.mpr ⟨hI.1, by simp [GetRefOpCall, hI.2.2]⟩
    have hDmem : d' ∈ refOps F :=
      mem_refOps.mpr ⟨hD.1, by simp [GetRefOpCall, hD.2.2]⟩
    have hDnot : d' ≠ ⟨a, i⟩ := by
      rintro rfl
      have := isIncRef_not_isDecRef hi
      rw [this] at hD
      cases hD.2.2
    refine Or.inr (Or.inl ?_)
    rintro ⟨_, hpd⟩
    have hi'eq : i'.inst = i := by
      rcases hrefs i' hImem with rfl | rfl | rfl
      · rfl
      · have := isIncRef_not_isDecRef hI.2.2
        rw [hd1] at this
        cases this
      · have := isIncRef_not_isDecRef hI.2.2
        rw [hd2] at this
        cases this
    rw [hi'eq] at hpd
    rcases hrefs d' hDmem with rfl | rfl | rfl
    · exact hDnot rfl
    · rw [hp1] at hpd; cases hpd
    · rw [hp2] at hpd; cases hpd
  rw [runOnFunction_eq_some_iff]
  show (outerLoop fuel O (increfList F) (initState F)).2 = true ∧
    (outerLoop fuel O (increfList F) (initState F)).1.F = F ∧
    (outerLoop fuel O (increfList F) (initState F)).1.mutated = false
  rw [hloop]
  refine ⟨rfl, eraseNullList_of_nullList_nil hnull, ?_⟩
  simp [initState, hnull]


theorem fanoutFunction_refOps :
    ∀ r ∈ refOps fanoutFunction,
      r = ⟨0, mkIncref 0 (Value.ptr 7)⟩ ∨ r = ⟨1, mkDecref 1 (Value.ptr 7)⟩ ∨
        r = ⟨2, mkDecref 2 (Value.ptr 7)⟩ := by
  decide

theorem fanoutGreedy_instAt {a i : Nat} {x : Instruction} (h : InstAt fanoutGreedy a i x) :
    (a = 0 ∧ i = 0 ∧ x = mkIncref 0 (Value.ptr 7)) ∨
      (a = 0 ∧ i = 1 ∧ x = mkDecref 1 (Value.ptr 7)) ∨
      (a = 1 ∧ i = 0 ∧ x = mkDecref 2 (Value.ptr 7)) ∨
      (a = 2 ∧ i = 0 ∧ x = mkDecref 3 (Value.ptr 7)) := by
  unfold InstAt at h
  match a, i with
  | 0, 0 => left; simpa [blockAt, fanoutGreedy, eq_comm] using h
  | 0, 1 => right; left; simpa [blockAt, fanoutGreedy, eq_comm] using h
  | 0, i + 2 => simp [blockAt, fanoutGreedy] at h
  | 1, 0 => right; right; left; simpa [blockAt, fanoutGreedy, eq_comm] using h
  | 1, i + 1 => simp [blockAt, fanoutGreedy] at h
  | 2, 0 => right; right; right; simpa [blockAt, fanoutGreedy, eq_comm] using h
  | 2, i + 1 => simp [blockAt, fanoutGreedy] at h
  | a + 3, i => simp [blockAt, fanoutGreedy] at h

theorem fanoutGreedy_dom_0 (b : Nat) : BlockDominates fanoutGreedy 0 b := by
  intro path _ hh _
  cases path with
  | nil => simp at hh
  | cons c rest => simp at hh; simp [hh]

theorem fanoutGreedy_not_dom_of_path {a b : Nat} (path : List Nat)
    (hp : IsPath fanoutGreedy path) (hh : path.head? = some 0) (hl : path.getLast? = some b)
    (ha : a ∉ path) : ¬ BlockDominates fanoutGreedy a b :=
  fun h => ha (h path hp hh hl)

theorem fanoutGreedy_not_pdom_of_path {a b : Nat} (path : List Nat)
    (hp : IsPath fanoutGreedy path) (hh : path.head? = some b)
    (he : EndsInExit fanoutGreedy path) (ha : a ∉ path) :
    ¬ BlockPostDominates fanoutGreedy a b :=
  fun h => ha (h path hp hh he)

theorem fanoutGreedy_path_0 : IsPath fanoutGreedy [0] :=
  ⟨by simp, by simp [fanoutGreedy], by simp⟩

theorem fanoutGreedy_path_1 : IsPath fanoutGreedy [1] :=
  ⟨by simp, by simp [fanoutGreedy], by simp⟩

theorem fanoutGreedy_path_2 : IsPath fanoutGreedy [2] :=
  ⟨by simp, by simp [fanoutGreedy], by simp⟩

theorem fanoutGreedy_path_0_1 : IsPath fanoutGreedy [0, 1] :=
  ⟨by simp, by simp [fanoutGreedy], by simp [Edge, blockAt, fanoutGreedy]⟩

theorem fanoutGreedy_path_0_2 : IsPath fanoutGreedy [0, 2] :=
  ⟨by simp, by simp [fanoutGreedy], by simp [Edge, blockAt, fanoutGreedy]⟩

theorem fanoutGreedy_exit_1 : IsExit fanoutGreedy 1 := rfl

theorem fanoutGreedy_exit_2 : IsExit fanoutGreedy 2 := rfl

theorem fanoutGreedyOracle_true : TrueOracle fanoutGreedy fanoutGreedyOracle := by
  have d10 : ¬ BlockDominates fanoutGreedy 1 0 :=
    fanoutGreedy_not_dom_of_path [0] fanoutGreedy_path_0 rfl rfl (by simp)
  have d20 : ¬ BlockDominates fanoutGreedy 2 0 :=
    fanoutGreedy_not_dom_of_path [0] fanoutGreedy_path_0 rfl rfl (by simp)
  have d12 : ¬ BlockDominates fanoutGreedy 1 2 :=
    fanoutGreedy_not_dom_of_path [0, 2] fanoutGreedy_path_0_2 rfl rfl (by simp)
  have d21 : ¬ BlockDominates fanoutGreedy 2 1 :=
    fanoutGreedy_not_dom_of_path [0, 1] fanoutGreedy_path_0_1 rfl rfl (by simp)
  have p10 : ¬ BlockPostDominates fanoutGreedy 1 0 :=
    fanoutGreedy_not_pdom_of_path [0, 2] fanoutGreedy_path_0_2 rfl
      ⟨2, rfl, fanoutGreedy_exit_2⟩ (by simp)
  have p20 : ¬ BlockPostDominates fanoutGreedy 2 0 :=
    fanoutGreedy_not_pdom_of_path [0, 1] fanoutGreedy_path_0_1 rfl
      ⟨1, rfl, fanoutGreedy_exit_1⟩ (by simp)
  have p01 : ¬ BlockPostDominates fanoutGreedy 0 1 :=
    fanoutGreedy_not_pdom_of_path [1] fanoutGreedy_path_1 rfl
      ⟨1, rfl, fanoutGreedy_exit_1⟩ (by simp)
  have p21 : ¬ BlockPostDominates fanoutGreedy 2 1 :=
    fanoutGreedy_not_pdom_of_path [1] fanoutGreedy_path_1 rfl
      ⟨1, rfl, fanoutGreedy_exit_1⟩ (by simp)
  have p02 : ¬ BlockPostDominates fanoutGreedy 0 2 :=
    fanoutGreedy_not_pdom_of_path [2] fanoutGreedy_path_2 rfl
      ⟨2, rfl, fanoutGreedy_exit_2⟩ (by simp)
  have p12 : ¬ BlockPostDominates fanoutGreedy 1 2 :=
    fanoutGreedy_not_pdom_of_path [2] fanoutGreedy_path_2 rfl
      ⟨2, rfl, fanoutGreedy_exit_2⟩ (by simp)
  intro a i x b j y hx hy
  rcases fanoutGreedy_instAt hx with ⟨rfl, rfl, rfl⟩ | ⟨rfl, rfl, rfl⟩ | ⟨rfl, rfl, rfl⟩ |
      ⟨rfl, rfl, rfl⟩ <;>
    rcases fanoutGreedy_instAt hy with ⟨rfl, rfl, rfl⟩ | ⟨rfl, rfl, rfl⟩ | ⟨rfl, rfl, rfl⟩ |
      ⟨rfl, rfl, rfl⟩ <;>
    simp [fanoutGreedyOracle, mkIncref, mkDecref, fanoutGreedy_dom_0, d10, d20, d12, d21,
      p10, p20, p01, p21, p02, p12]

/-- C16 (counterexample): in `fanoutGreedy` block 0 holds `incref(p)`, `p` not
null, and branches to the blocks 1 and 2, which each hold `decref(p)`; the
oracle is the dominance relation of the function, and neither of these two
decrefs post-dominates the incref.  Block 0 holds a `decref(p)` of its own
behind the incref: the pass erases that pair and returns `true`. -/
theorem C16_counterexample :
    (blockAt fanoutGreedy 0).term.succs = [1, 2]
    ∧ mkIncref 0 (Value.ptr 7) ∈ (blockAt fanoutGreedy 0).insts
    ∧ mkDecref 2 (Value.ptr 7) ∈ (blockAt fanoutGreedy 1).insts
    ∧ mkDecref 3 (Value.ptr 7) ∈ (blockAt fanoutGreedy 2).insts
    ∧ TrueOracle fanoutGreedy fanoutGreedyOracle
    ∧ fanoutGreedyOracle.postDominates (mkDecref 2 (Value.ptr 7)) (mkIncref 0 (Value.ptr 7))
        = false
    ∧ fanoutGreedyOracle.postDominates (mkDecref 3 (Value.ptr 7)) (mkIncref 0 (Value.ptr 7))
        = false
    ∧ ∀ fuel, RefPrunePass.runOnFunction fuel fanoutGreedyOracle fanoutGreedy
        = some (fanoutGreedyPruned, true) := by
  refine ⟨rfl, by decide, by decide, by decide, fanoutGreedyOracle_true, rfl, rfl,
    fun fuel => rfl⟩

/-- A non-null incref that the pass takes out of its block is the incref of a
recorded pair: a decref on its operand, which the oracle reports as dominated
by it and as post-dominating it, is taken out with it. -/
theorem run_erased_incref (fuel : Nat) (O : DomOracle) (F : Function) (b : Nat)
    (x : Instruction) (hx : x ∈ (blockAt F b).insts) (hinc : IsIncRef x = true)
    (hnn : isNonNullFirstArg x = true)
    (hgone : x ∉ (blockAt (run fuel O F).1.F b).insts) :
    ∃ e ∈ (run fuel O F).1.pruned, e.incref = ⟨b, x⟩ ∧ e.decref ∈ decrefList F ∧
      e.decref.inst.arg = x.arg ∧ O.dominates x e.decref.inst = true ∧
      O.postDominates e.decref.inst x = true ∧
      e.decref.inst ∉ (blockAt (run fuel O F).1.F e.decref.parent).insts := by
  have h : (outerLoop fuel O (increfList F) (initState F)).1 = (run fuel O F).1 := rfl
  have hx0 : x ∈ (blockAt (initState F).F b).insts := by
    show x ∈ (blockAt (eraseNullList F) b).insts
    rw [mem_blockAt_eraseNullList]
    exact ⟨hx, by simp [hnn]⟩
  obtain ⟨e, he, hor⟩ := outerLoop_erased_in_pruned h b x hx0 hgone
  obtain ⟨_, hd, _, hE, _⟩ :=
    (outerLoop_pruned_spec h (entryOf_map_some (decrefList F)) rfl).2 e he
  have hgone2 := (outerLoop_pruned_erased h rfl e he).2
  rcases hor with hor | hor
  · refine ⟨e, he, hor.symm, hd, ?_, ?_, ?_, hgone2⟩
    · rw [← hE.1, ← hor]
    · have := hE.2.1
      rwa [← hor] at this
    · have := hE.2.2.1
      rwa [← hor] at this
  · have hdec := (mem_decrefList.mp hd).2.2
    rw [← hor] at hdec
    rw [isIncRef_not_isDecRef hinc] at hdec
    cases hdec

/-- C16 (amended): the pass takes a non-null incref out of a function only as
the incref of a matched pair, together with one decref on its operand that the
oracle reports as dominated by it and as post-dominating it; an incref whose
decrefs lie on several branches is never taken out against them.  In every
function whose refops are an incref on a non-null pointer `p` in a block `a`
and a decref on `p` in each of two blocks `b` and `c`, neither decref
post-dominating the incref, the pass erases nothing and returns `false`.
`fanoutFunction` is such a function, with block 0 branching to the blocks 1 and
2, neither of which post-dominates block 0: the pass leaves it as it is and
returns `false`, while the loop behind `return mutated` would have erased the
three refops and set the flag. -/
theorem C16_fanout_phase_dead :
    (∀ (fuel : Nat) (O : DomOracle) (F : Function) (b : Nat) (x : Instruction),
      x ∈ (blockAt F b).insts → IsIncRef x = true → isNonNullFirstArg x = true →
      x ∉ (blockAt (run fuel O F).1.F b).insts →
      ∃ e ∈ (run fuel O F).1.pruned, e.incref = ⟨b, x⟩ ∧ e.decref ∈ decrefList F ∧
        e.decref.inst.arg = x.arg ∧ O.dominates x e.decref.inst = true ∧
        O.postDominates e.decref.inst x = true ∧
        e.decref.inst ∉ (blockAt (run fuel O F).1.F e.decref.parent).insts)
    ∧ (∀ (fuel : Nat) (O : DomOracle) (F : Function) (a b c : Nat) (i d1 d2 : Instruction),
        (∀ r ∈ refOps F, r = ⟨a, i⟩ ∨ r = ⟨b, d1⟩ ∨ r = ⟨c, d2⟩) →
        IsIncRef i = true → isNonNullFirstArg i = true →
        IsDecRef d1 = true → IsDecRef d2 = true → d1.arg = i.arg → d2.arg = i.arg →
        O.postDominates d1 i = false → O.postDominates d2 i = false →
        RefPrunePass.runOnFunction fuel O F = some (F, false))
    ∧ ((blockAt fanoutFunction 0).term.succs = [1, 2]
      ∧ ¬ BlockPostDominates fanoutFunction 1 0
      ∧ ¬ BlockPostDominates fanoutFunction 2 0
      ∧ graphWalkhandleFanout fanoutFunction (mkIncref 0 (Value.ptr 7)) 0 [] 10 = [2, 1]
      ∧ (∀ fuel, RefPrunePass.runOnFunction fuel fanoutOracle fanoutFunction
            = some (fanoutFunction, false))
      ∧ (∀ fuel, runWithFanout fuel fanoutOracle fanoutFunction
            = some (fanoutFunctionPruned, true))) := by
  refine ⟨run_erased_incref, ?_, rfl, ?_, ?_, rfl, ?_, ?_⟩
  · intro fuel O F a b c i d1 d2 hrefs hi hnn hd1 hd2 harg1 harg2 hp1 hp2
    exact runOnFunction_of_fanout_shape fuel O F a b c i d1 d2 hrefs hi hnn hd1 hd2 harg1 harg2
      hp1 hp2
  · intro h
    have := h [0, 2] ⟨by simp, by decide, by simp [Edge, fanoutFunction]⟩ rfl ⟨2, rfl, rfl⟩
    simp at this
  · intro h
    have := h [0, 1] ⟨by simp, by decide, by simp [Edge, fanoutFunction]⟩ rfl ⟨1, rfl, rfl⟩
    simp at this
  · intro fuel
    exact runOnFunction_of_fanout_shape fuel fanoutOracle fanoutFunction 0 1 2 _ _ _
      fanoutFunction_refOps rfl rfl rfl rfl rfl rfl rfl rfl
  · intro fuel
    have hrun : run fuel fanoutOracle fanoutFunction
        = (⟨fanoutFunction, (decrefList fanoutFunction).map some, false, []⟩, true) := rfl
    simp only [runWithFanout, hrun, if_true]
    rfl

/-- C16 (amended) on `fanoutFunction`. -/
theorem C16_fanout_phase_dead_witness :
    RefPrunePass.runOnFunction 1 fanoutOracle fanoutFunction = some (fanoutFunction, false) :=
  C16_fanout_phase_dead.2.1 1 fanoutOracle fanoutFunction 0 1 2 _ _ _
    fanoutFunction_refOps rfl rfl rfl rfl rfl rfl rfl rfl

/-! ## A second run of the pruner -/

theorem succLoop_congr {F G : Function} {tail : Nat} {r : Nat → Option Bool}
    (hdec : ∀ b, blockHasDecref (blockAt G b) = blockHasDecref (blockAt F b)) :
    ∀ succs : List Nat, succLoop G tail r succs = succLoop F tail r succs := by
  intro succs
  induction succs with
  | nil => rfl
  | cons c rest ih => simp only [succLoop, hdec, ih]

/-- The cross-block check only looks at the successors of the blocks and at
which blocks hold a decref. -/
theorem hasDecrefBetweenGraph_congr {F G : Function}
    (hterm : ∀ b, (blockAt G b).term = (blockAt F b).term)
    (hdec : ∀ b, blockHasDecref (blockAt G b) = blockHasDecref (blockAt F b)) :
    ∀ fuel head tail,
      hasDecrefBetweenGraph G fuel head tail = hasDecrefBetweenGraph F fuel head tail := by
  intro fuel
  induction fuel with
  | zero => intro head tail; rfl
  | succ fuel ih =>
    intro head tail
    rw [hasDecrefBetweenGraph_succ, hasDecrefBetweenGraph_succ, hterm head,
      succLoop_congr hdec]
    congr 1
    funext child
    exact ih child tail

/-- The snapshots of the recorded pairs have the terminators of the function
in which the loop started. -/
theorem outerLoop_pruned_term {fuel : Nat} {O : DomOracle} {increfs : List RefOp}
    {s0 s : PruneState} (h : (outerLoop fuel O increfs s0).1 = s) (hp : s0.pruned = []) :
    ∀ e ∈ s.pruned, ∀ b, (blockAt e.F b).term = (blockAt s0.F b).term := by
  have key : (∀ b, (blockAt s.F b).term = (blockAt s0.F b).term) ∧
      ∀ e ∈ s.pruned, ∀ b, (blockAt e.F b).term = (blockAt s0.F b).term := by
    refine outerLoop_induction
      (fun s => (∀ b, (blockAt s.F b).term = (blockAt s0.F b).term) ∧
        ∀ e ∈ s.pruned, ∀ b, (blockAt e.F b).term = (blockAt s0.F b).term)
      increfs ?_ ⟨fun _ => rfl, by simp [hp]⟩ h
    intro s i d l _ hP _
    refine ⟨fun b => ?_, fun e he b => ?_⟩
    · simp only [PruneState.erasePair, blockAt_eraseFromParent_term]
      exact hP.1 b
    · simp only [PruneState.erasePair, List.mem_append, List.mem_singleton] at he
      rcases he with he | rfl
      · exact hP.2 e he b
      · exact hP.1 b
  exact key.2

/-- An incref of the list that is still in its block when the loop has come to
its end was visited in a state in which every decref that is left in the list
was rejected for it. -/
theorem outerLoop_survivor_rejected {fuel : Nat} {O : DomOracle} {increfs : List RefOp}
    {s0 s : PruneState} (h : outerLoop fuel O increfs s0 = (s, true))
    {i : RefOp} (hi : i ∈ increfs) (hmem : i.inst ∈ (blockAt s.F i.parent).insts) :
    ∃ pre post, increfs = pre ++ i :: post ∧ (outerLoop fuel O pre s0).2 = true ∧
      (∀ b, (blockAt s.F b).term = (blockAt (outerLoop fuel O pre s0).1.F b).term ∧
        ∀ x ∈ (blockAt s.F b).insts, x ∈ (blockAt (outerLoop fuel O pre s0).1.F b).insts) ∧
      ∀ d, some d ∈ s.decrefs → Rejected fuel O (outerLoop fuel O pre s0).1.F i d := by
  obtain ⟨pre, post, hsplit⟩ := List.append_of_mem hi
  refine ⟨pre, post, hsplit, ?_⟩
  rw [hsplit, outerLoop_append] at h
  by_cases hflag : (outerLoop fuel O pre s0).2 = true
  · rw [if_pos hflag, outerLoop_cons_eq] at h
    refine ⟨hflag, ?_⟩
    cases hin : innerLoop fuel O (outerLoop fuel O pre s0).1.F i
        (outerLoop fuel O pre s0).1.decrefs with
    | none => simp [hin] at h
    | some r =>
      cases r with
      | none =>
        simp only [hin] at h
        have hsh := outerLoop_shrinks (congrArg Prod.fst h)
        refine ⟨fun b => ⟨(hsh b).2, (hsh b).1⟩, fun d hd => ?_⟩
        exact innerLoop_no_match hin d (outerLoop_decrefs_shrink (congrArg Prod.fst h) d hd)
      | some dl =>
        obtain ⟨dm, l⟩ := dl
        simp only [hin] at h
        have := (outerLoop_shrinks (congrArg Prod.fst h) i.parent).1 _ hmem
        simp [PruneState.erasePair, mem_blockAt_eraseFromParent] at this
  · rw [if_neg hflag] at h
    simp at h

/-- C3 (amended): let a first run of the pass on `F` end in `s1` and a second
run, on the function that the first left, end in `s2`.  The second run finds no
null refop.  Every pair it erases has its incref and its decref in two
different blocks, and both were in the lists of the first run.  When the first
run visited the incref, the cross-block check for the pair returned `true` on
the function as it was then; in the second run the check returns `false` on
the function as it is at the match, which has the same terminators and is the
former without some instructions, among them a decref of a block that holds no
decref any more.  When the second run erases no pair, it leaves the function as
it was and returns `false`. -/
theorem C3_second_run (fuel1 fuel2 : Nat) (O : DomOracle) (F : Function) (s1 s2 : PruneState)
    (h1 : run fuel1 O F = (s1, true)) (h2 : run fuel2 O s1.F = (s2, true)) :
    nullList s1.F = [] ∧
    (∀ e ∈ s2.pruned, e.incref.parent ≠ e.decref.parent ∧
      e.incref ∈ increfList F ∧ e.decref ∈ decrefList F ∧
      (∃ pre post, increfList F = pre ++ e.incref :: post ∧
        (visitState fuel1 O F pre).2 = true ∧
        hasDecrefBetweenGraph (visitState fuel1 O F pre).1.F fuel1
          e.incref.parent e.decref.parent = some true ∧
        (∀ b, (blockAt e.F b).term = (blockAt (visitState fuel1 O F pre).1.F b).term ∧
          ∀ x ∈ (blockAt e.F b).insts, x ∈ (blockAt (visitState fuel1 O F pre).1.F b).insts) ∧
        ∃ b x, x ∈ (blockAt (visitState fuel1 O F pre).1.F b).insts ∧ IsDecRef x = true ∧
          blockHasDecref (blockAt e.F b) = false) ∧
      hasDecrefBetweenGraph e.F fuel2 e.incref.parent e.decref.parent = some false) ∧
    (s2.pruned = [] → s2.F = s1.F ∧ s2.mutated = false ∧
      RefPrunePass.runOnFunction fuel2 O s1.F = some (s1.F, false)) := by
  have hnull : nullList s1.F = [] := by
    have := nullList_run_eq_nil fuel1 O F
    rwa [h1] at this
  have h1' : outerLoop fuel1 O (increfList F) (initState F) = (s1, true) := h1
  have h2' : (outerLoop fuel2 O (increfList s1.F) (initState s1.F)).1 = s2 :=
    congrArg Prod.fst h2
  have hinit2 : (initState s1.F).F = s1.F := by
    show eraseNullList s1.F = s1.F
    exact eraseNullList_of_nullList_nil hnull
  have hlast : s2.pruned = [] → s2.F = s1.F ∧ s2.mutated = false := by
    intro hnil
    have := outerLoop_of_pruned_nil h2' hnil
    simpa [initState, eraseNullList_of_nullList_nil hnull, hnull] using this
  refine ⟨hnull, ?_, fun hnil => ⟨(hlast hnil).1, (hlast hnil).2, ?_⟩⟩
  · intro e he
    -- what the second run knows about the pair
    obtain ⟨hi2, hd2, _, ⟨harg, hdom, hpdom, hwalk2⟩, _⟩ :=
      (outerLoop_pruned_spec h2' (entryOf_map_some (decrefList s1.F)) rfl).2 e he
    have hi2' := mem_increfList.mp hi2
    have hd2' := mem_decrefList.mp hd2
    -- both were in the lists of the first run
    have hsub : ∀ b x, x ∈ (blockAt s1.F b).insts → x ∈ (blockAt F b).insts := by
      intro b x hx
      exact (mem_blockAt_eraseNullList.mp
        ((outerLoop_shrinks (congrArg Prod.fst h1') b).1 x hx)).1
    have hi1 : e.incref ∈ increfList F :=
      mem_increfList.mpr ⟨hsub _ _ hi2'.1, hi2'.2.1, hi2'.2.2⟩
    have hd1 : e.decref ∈ decrefList F :=
      mem_decrefList.mpr ⟨hsub _ _ hd2'.1, hd2'.2.1, hd2'.2.2⟩
    -- the decref was not consumed by the first run
    have hd1' : some e.decref ∈ s1.decrefs := by
      rcases outerLoop_consumed_erased (congrArg Prod.fst h1') e.decref
          (by simp only [initState, List.mem_map]; exact ⟨_, hd1, rfl⟩) with h | h
      · exact h
      · exact absurd hd2'.1 h
    -- the visit of the incref in the first run
    obtain ⟨pre, post, hsplit, hflag, hsh, hrej⟩ :=
      outerLoop_survivor_rejected h1' hi1 hi2'.1
    have hR := hrej e.decref hd1'
    have hpw : e.incref.parent ≠ e.decref.parent ∧
        hasDecrefBetweenGraph (outerLoop fuel1 O pre (initState F)).1.F fuel1
          e.incref.parent e.decref.parent = some true := by
      rcases hR with h | h | h
      · exact absurd harg h
      · exact absurd ⟨hdom, hpdom⟩ h
      · exact h
    have hw2 := hwalk2 hpw.1
    -- the snapshot of the second run lies below the function of that visit
    have hbet := outerLoop_pruned_between h2' rfl e he
    have hterm2 := outerLoop_pruned_term h2' rfl e he
    have hrel : ∀ b, (blockAt e.F b).term
          = (blockAt (outerLoop fuel1 O pre (initState F)).1.F b).term ∧
        ∀ x ∈ (blockAt e.F b).insts,
          x ∈ (blockAt (outerLoop fuel1 O pre (initState F)).1.F b).insts := by
      intro b
      constructor
      · rw [hterm2 b, hinit2]
        exact (hsh b).1
      · intro x hx
        have := (hbet b x).2 hx
        rw [hinit2] at this
        exact (hsh b).2 x this
    refine ⟨hpw.1, hi1, hd1, ⟨pre, post, hsplit, hflag, hpw.2, hrel, ?_⟩, hw2⟩
    -- a decref is gone in between
    by_contra hno
    have hdec : ∀ b, blockHasDecref (blockAt e.F b)
        = blockHasDecref (blockAt (outerLoop fuel1 O pre (initState F)).1.F b) := by
      intro b
      cases hG : blockHasDecref (blockAt (outerLoop fuel1 O pre (initState F)).1.F b) with
      | true =>
        obtain ⟨x, hx, hxd⟩ := blockHasDecref_eq_true.mp hG
        by_contra hne
        apply hno
        exact ⟨b, x, hx, hxd, by simpa using hne⟩
      | false =>
        rw [blockHasDecref_eq_false] at hG ⊢
        intro x hx
        exact hG x ((hrel b).2 x hx)
    have hcongr := hasDecrefBetweenGraph_congr (fun b => (hrel b).1) hdec
    have ha := hasDecrefBetweenGraph_mono_le hpw.2 (max fuel1 fuel2) (le_max_left _ _)
    have hb := hasDecrefBetweenGraph_mono_le hw2 (max fuel1 fuel2) (le_max_right _ _)
    rw [hcongr] at hb
    rw [ha] at hb
    cases hb
  · simp [RefPrunePass.runOnFunction, h2, (hlast hnil).1, (hlast hnil).2]

/-- C3 (amended) on `staleChainFour`: the first run erases the pair on `s`.
The second run erases the pair on `q` and then the pair on `p`; on the function
that the first run has left the cross-block check for the pair on `p` still
returns `true`, it is the erasure of `decref(q)` by the second run that frees
the pair. -/
theorem C3_second_run_witness :
    run 4 orderOracle staleChainFour = (staleFourFirst, true)
    ∧ run 4 orderOracle staleFourFirst.F = (staleFourSecond, true)
    ∧ staleFourFirst.pruned.map (fun e => (e.incref, e.decref))
        = [((⟨0, mkIncref 1 (Value.ptr 9)⟩ : RefOp), (⟨1, mkDecref 3 (Value.ptr 9)⟩ : RefOp))]
    ∧ staleFourSecond.pruned.map (fun e => (e.incref, e.decref))
        = [((⟨0, mkIncref 0 (Value.ptr 8)⟩ : RefOp), (⟨2, mkDecref 4 (Value.ptr 8)⟩ : RefOp)),
            (⟨1, mkIncref 2 (Value.ptr 7)⟩, ⟨3, mkDecref 5 (Value.ptr 7)⟩)]
    ∧ hasDecrefBetweenGraph staleFourFirst.F 4 1 3 = some true
    ∧ (nullList staleFourFirst.F = [] ∧
      (∀ e ∈ staleFourSecond.pruned, e.incref.parent ≠ e.decref.parent ∧
        e.incref ∈ increfList staleChainFour ∧ e.decref ∈ decrefList staleChainFour ∧
        (∃ pre post, increfList staleChainFour = pre ++ e.incref :: post ∧
          (visitState 4 orderOracle staleChainFour pre).2 = true ∧
          hasDecrefBetweenGraph (visitState 4 orderOracle staleChainFour pre).1.F 4
            e.incref.parent e.decref.parent = some true ∧
          (∀ b, (blockAt e.F b).term
              = (blockAt (visitState 4 orderOracle staleChainFour pre).1.F b).term ∧
            ∀ x ∈ (blockAt e.F b).insts,
              x ∈ (blockAt (visitState 4 orderOracle staleChainFour pre).1.F b).insts) ∧
          ∃ b x, x ∈ (blockAt (visitState 4 orderOracle staleChainFour pre).1.F b).insts ∧
            IsDecRef x = true ∧ blockHasDecref (blockAt e.F b) = false) ∧
        hasDecrefBetweenGraph e.F 4 e.incref.parent e.decref.parent = some false) ∧
      (staleFourSecond.pruned = [] → staleFourSecond.F = staleFourFirst.F ∧
        staleFourSecond.mutated = false ∧
        RefPrunePass.runOnFunction 4 orderOracle staleFourFirst.F
          = some (staleFourFirst.F, false))) :=
  ⟨by decide, by decide, by decide, by decide, by decide,
    C3_second_run 4 4 orderOracle staleChainFour staleFourFirst staleFourSecond
      (by decide) (by decide)⟩

/-! ## A pair across a chain of three blocks -/

/-- The inner loop comes to its end when every cross-block check that it calls
returns. -/
theorem innerLoop_ne_none_of {fuel : Nat} {O : DomOracle} {F : Function} {incref : RefOp} :
    ∀ decrefs : List (Option RefOp),
      (∀ d', some d' ∈ decrefs → incref.inst.arg = d'.inst.arg →
        O.dominates incref.inst d'.inst = true → O.postDominates d'.inst incref.inst = true →
        incref.parent ≠ d'.parent →
        hasDecrefBetweenGraph F fuel incref.parent d'.parent ≠ none) →
      innerLoop fuel O F incref decrefs ≠ none := by
  intro decrefs
  induction decrefs with
  | nil => intro _; simp [innerLoop]
  | cons e rest ih =>
    intro hw
    have ih' := ih (fun d' hd' => hw d' (List.mem_cons_of_mem _ hd'))
    cases e with
    | none => simp only [innerLoop]; exact keepEntry_ne_none ih'
    | some d =>
      rcases innerLoop_cons_cases fuel O F incref d with hE | hR | ⟨harg, hpar, hnone⟩
      · rw [innerLoop_cons_of_eligible rest hE]
        simp
      · rw [innerLoop_cons_of_rejected rest hR]
        exact keepEntry_ne_none ih'
      · by_cases hd : O.dominates incref.inst d.inst = true ∧
            O.postDominates d.inst incref.inst = true
        · exact absurd hnone (hw d (List.mem_cons_self _ _) harg hd.1 hd.2 hpar)
        · rw [innerLoop_cons_of_rejected rest (Or.inr (Or.inl hd))]
          exact keepEntry_ne_none ih'

/-- The loop comes to its end when every cross-block check that it can call
returns, on every function that it can reach. -/
theorem outerLoop_completes_of {fuel : Nat} {O : DomOracle} (Q : Function → Prop)
    (L : List RefOp) (hQ : ∀ G r, Q G → Q (eraseFromParent r G)) :
    ∀ (increfs : List RefOp) (s : PruneState), Q s.F →
      (∀ d', some d' ∈ s.decrefs → d' ∈ L) →
      (∀ G, Q G → ∀ i ∈ increfs, ∀ d' ∈ L, i.inst.arg = d'.inst.arg →
        O.dominates i.inst d'.inst = true → O.postDominates d'.inst i.inst = true →
        i.parent ≠ d'.parent → hasDecrefBetweenGraph G fuel i.parent d'.parent ≠ none) →
      (outerLoop fuel O increfs s).2 = true := by
  intro increfs
  induction increfs with
  | nil => intro s _ _ _; rfl
  | cons i rest ih =>
    intro s hQs hL hw
    have hne : innerLoop fuel O s.F i s.decrefs ≠ none :=
      innerLoop_ne_none_of s.decrefs (fun d' hd' harg hdom hpdom hpar =>
        hw s.F hQs i (List.mem_cons_self _ _) d' (hL d' hd') harg hdom hpdom hpar)
    have hw' : ∀ G, Q G → ∀ i ∈ rest, ∀ d' ∈ L, i.inst.arg = d'.inst.arg →
        O.dominates i.inst d'.inst = true → O.postDominates d'.inst i.inst = true →
        i.parent ≠ d'.parent → hasDecrefBetweenGraph G fuel i.parent d'.parent ≠ none :=
      fun G hG i hi => hw G hG i (List.mem_cons_of_mem _ hi)
    rw [outerLoop_cons_eq]
    cases hr : innerLoop fuel O s.F i s.decrefs with
    | none => exact absurd hr hne
    | some v =>
      cases v with
      | none => exact ih s hQs hL hw'
      | some p =>
        obtain ⟨d, l⟩ := p
        apply ih _ _ _ hw'
        · exact hQ _ _ (hQ _ _ hQs)
        · intro d' hd'
          obtain ⟨pre, post, e1, e2, _, _⟩ := innerLoop_match hr
          apply hL
          rw [e1]
          simp only [PruneState.erasePair, e2, List.mem_append, List.mem_cons] at hd' ⊢
          rcases hd' with h | h | h
          · exact Or.inl h
          · cases h
          · exact Or.inr (Or.inr h)

/-- A decref stays in the list while the loop visits increfs on other
operands. -/
theorem outerLoop_keeps_decref {fuel : Nat} {O : DomOracle} {increfs : List RefOp}
    {s0 s : PruneState} (h : (outerLoop fuel O increfs s0).1 = s) {D : RefOp}
    (hne : ∀ i ∈ increfs, i.inst.arg ≠ D.inst.arg) (h0 : some D ∈ s0.decrefs) :
    some D ∈ s.decrefs := by
  refine outerLoop_induction (fun s => some D ∈ s.decrefs) increfs ?_ h0 h
  intro s i d l hi hP hin
  obtain ⟨pre, post, e1, e2, hE, _⟩ := innerLoop_match hin
  have hdD : d ≠ D := by
    rintro rfl
    exact hne i hi hE.1
  rw [e1] at hP
  simp only [PruneState.erasePair, e2, List.mem_append, List.mem_cons] at hP ⊢
  rcases hP with h | h | h
  · exact Or.inl h
  · exact absurd (Option.some.inj h).symm hdD
  · exact Or.inr (Or.inr h)

theorem chain_walk_0_2 {A B C : BasicBlock} {G : Function} (fuel : Nat)
    (hterm : ∀ b, (blockAt G b).term = (blockAt [A, B, C] b).term)
    (hsub : ∀ b x, x ∈ (blockAt G b).insts → x ∈ (blockAt [A, B, C] b).insts)
    (hB : ∀ x ∈ B.insts, IsDecRef x = false)
    (hAs : A.term.succs = [1]) (hBs : B.term.succs = [2]) :
    hasDecrefBetweenGraph G (fuel + 2) 0 2 = some false := by
  have hnoB : blockHasDecref (blockAt G 1) = false := by
    rw [blockHasDecref_eq_false]
    intro x hx
    exact hB x (by simpa using hsub 1 x hx)
  rw [hasDecrefBetweenGraph_succ, hterm 0]
  simp only [blockAt_cons_zero, hAs, succLoop, hnoB]
  rw [hasDecrefBetweenGraph_succ, hterm 1]
  simp [hBs, succLoop]

theorem chain_walk_1_2 {A B C : BasicBlock} {G : Function} (fuel : Nat)
    (hterm : ∀ b, (blockAt G b).term = (blockAt [A, B, C] b).term)
    (hBs : B.term.succs = [2]) :
    hasDecrefBetweenGraph G (fuel + 1) 1 2 = some false := by
  rw [hasDecrefBetweenGraph_succ, hterm 1]
  simp [hBs, succLoop]

theorem chain_walk_2 {A B C : BasicBlock} {G : Function} (fuel tail : Nat)
    (hterm : ∀ b, (blockAt G b).term = (blockAt [A, B, C] b).term)
    (hCs : C.term.succs = []) :
    hasDecrefBetweenGraph G (fuel + 1) 2 tail = some false := by
  rw [hasDecrefBetweenGraph_succ, hterm 2]
  simp [hCs, succLoop]

theorem chain_walk_1_0 {A B C : BasicBlock} {G : Function} (fuel : Nat)
    (hterm : ∀ b, (blockAt G b).term = (blockAt [A, B, C] b).term)
    (hBs : B.term.succs = [2]) (hCs : C.term.succs = []) :
    hasDecrefBetweenGraph G (fuel + 2) 1 0 ≠ none := by
  rw [hasDecrefBetweenGraph_succ, hterm 1]
  simp only [blockAt_cons_succ, blockAt_cons_zero, hBs, succLoop]
  rw [chain_walk_2 fuel 0 hterm hCs]
  by_cases hdec : blockHasDecref (blockAt G 2) = true
  · simp [hdec]
  · simp [hdec]

theorem chain_parent_lt {A B C : BasicBlock} {b : Nat} {x : Instruction}
    (hx : x ∈ (blockAt [A, B, C] b).insts) : b = 0 ∨ b = 1 ∨ b = 2 := by
  have := lt_length_of_insts_ne_nil (List.ne_nil_of_mem hx)
  simp only [List.length_cons, List.length_nil] at this
  omega

theorem chain_not_dom_0 {A B C : BasicBlock} {a : Nat} (ha : a ≠ 0) :
    ¬ BlockDominates [A, B, C] a 0 := by
  intro h
  have := h [0] ⟨by simp, by simp, by simp⟩ rfl rfl
  simp only [List.mem_singleton] at this
  exact ha this

/-- C8 (amended): in a function of three blocks `A`, `B`, `C` in which `A` holds
`incref(p)` with `p` not null, `B` holds no decref, `C` holds `decref(p)`,
these two are the only refops on `p`, the only successor of `A` is `B` and the
only successor of `B` is `C`, and the oracle relates the incref and the decref,
the pass matches the incref with the decref and erases both, whatever other
refops the blocks hold.  When it returns it returns `true`, and it returns
whenever `C` has no successor or the oracle is the dominance relation of the
function. -/
theorem C8_safe_cross_block_accepted (fuel : Nat) (O : DomOracle) (A B C : BasicBlock)
    (i k n : Nat)
    (hiA : mkIncref i (Value.ptr n) ∈ A.insts)
    (hB : ∀ x ∈ B.insts, IsDecRef x = false)
    (hdC : mkDecref k (Value.ptr n) ∈ C.insts)
    (honly : ∀ r ∈ refOps [A, B, C], r.inst.arg = Value.ptr n →
      r = ⟨0, mkIncref i (Value.ptr n)⟩ ∨ r = ⟨2, mkDecref k (Value.ptr n)⟩)
    (hAs : A.term.succs = [1]) (hBs : B.term.succs = [2])
    (hdom : O.dominates (mkIncref i (Value.ptr n)) (mkDecref k (Value.ptr n)) = true)
    (hpdom : O.postDominates (mkDecref k (Value.ptr n)) (mkIncref i (Value.ptr n)) = true) :
    (∃ e ∈ (run (fuel + 2) O [A, B, C]).1.pruned,
      e.incref = ⟨0, mkIncref i (Value.ptr n)⟩ ∧ e.decref = ⟨2, mkDecref k (Value.ptr n)⟩) ∧
    mkIncref i (Value.ptr n) ∉ (blockAt (run (fuel + 2) O [A, B, C]).1.F 0).insts ∧
    mkDecref k (Value.ptr n) ∉ (blockAt (run (fuel + 2) O [A, B, C]).1.F 2).insts ∧
    (run (fuel + 2) O [A, B, C]).1.mutated = true ∧
    (∀ F' changed, RefPrunePass.runOnFunction (fuel + 2) O [A, B, C] = some (F', changed) →
      changed = true ∧ mkIncref i (Value.ptr n) ∉ (blockAt F' 0).insts ∧
        mkDecref k (Value.ptr n) ∉ (blockAt F' 2).insts) ∧
    (C.term.succs = [] ∨ TrueOracle [A, B, C] O →
      ∃ F', RefPrunePass.runOnFunction (fuel + 2) O [A, B, C] = some (F', true) ∧
        mkIncref i (Value.ptr n) ∉ (blockAt F' 0).insts ∧
        mkDecref k (Value.ptr n) ∉ (blockAt F' 2).insts) := by
  -- the functions that the pass can reach
  have hQ0 : (∀ b, (blockAt (initState [A, B, C]).F b).term = (blockAt [A, B, C] b).term) ∧
      ∀ b x, x ∈ (blockAt (initState [A, B, C]).F b).insts →
        x ∈ (blockAt [A, B, C] b).insts :=
    ⟨fun b => blockAt_eraseNullList_term _ b,
      fun b x hx => (mem_blockAt_eraseNullList.mp hx).1⟩
  have hQstep : ∀ (G : Function) (r : RefOp),
      ((∀ b, (blockAt G b).term = (blockAt [A, B, C] b).term) ∧
        ∀ b x, x ∈ (blockAt G b).insts → x ∈ (blockAt [A, B, C] b).insts) →
      ((∀ b, (blockAt (eraseFromParent r G) b).term = (blockAt [A, B, C] b).term) ∧
        ∀ b x, x ∈ (blockAt (eraseFromParent r G) b).insts →
          x ∈ (blockAt [A, B, C] b).insts) := by
    intro G r hG
    refine ⟨fun b => ?_, fun b x hx => ?_⟩
    · rw [blockAt_eraseFromParent_term]
      exact hG.1 b
    · exact hG.2 b x (mem_blockAt_eraseFromParent.mp hx).1
  -- the incref and the decref in the lists
  have hI : (⟨0, mkIncref i (Value.ptr n)⟩ : RefOp) ∈ increfList [A, B, C] :=
    mem_increfList.mpr ⟨by simpa using hiA, rfl, rfl⟩
  have hD : (⟨2, mkDecref k (Value.ptr n)⟩ : RefOp) ∈ decrefList [A, B, C] :=
    mem_decrefList.mpr ⟨by simpa using hdC, rfl, rfl⟩
  have hDpar : ∀ d' ∈ decrefList [A, B, C], d'.parent = 0 ∨ d'.parent = 2 := by
    intro d' hd'
    have h := mem_decrefList.mp hd'
    rcases chain_parent_lt h.1 with h0 | h1 | h2
    · exact Or.inl h0
    · rw [h1] at h
      have := hB d'.inst (by simpa using h.1)
      rw [h.2.2] at this
      cases this
    · exact Or.inr h2
  have hothers : ∀ r ∈ refOps [A, B, C], r ≠ ⟨0, mkIncref i (Value.ptr n)⟩ →
      r ≠ ⟨2, mkDecref k (Value.ptr n)⟩ → r.inst.arg ≠ Value.ptr n := by
    intro r hr h1 h2 harg
    rcases honly r hr harg with h | h
    · exact h1 h
    · exact h2 h
  have hincref_refOps : ∀ r ∈ increfList [A, B, C], r ∈ refOps [A, B, C] := by
    intro r hr
    have h := mem_increfList.mp hr
    exact mem_refOps.mpr ⟨h.1, by simp [GetRefOpCall, h.2.2]⟩
  have hdecref_refOps : ∀ r ∈ decrefList [A, B, C], r ∈ refOps [A, B, C] := by
    intro r hr
    have h := mem_decrefList.mp hr
    exact mem_refOps.mpr ⟨h.1, by simp [GetRefOpCall, h.2.2]⟩
  -- the increfs of block 0 that are visited before the incref
  have hsplit0 : ∃ pre post, increfList [A, B, C]
        = pre ++ (⟨0, mkIncref i (Value.ptr n)⟩ : RefOp) :: post ∧
      ∀ r ∈ pre, r ∈ increfList [A, B, C] ∧ r.parent = 0 ∧
        r ≠ ⟨0, mkIncref i (Value.ptr n)⟩ := by
    have hlist : increfList [A, B, C]
        = (blockRefOps 0 A.insts).filter
            (fun ci => isNonNullFirstArg ci.inst && IsIncRef ci.inst)
          ++ (refOpsFrom 1 [B, C]).filter
            (fun ci => isNonNullFirstArg ci.inst && IsIncRef ci.inst) := by
      simp only [increfList, refOps, refOpsFrom, List.filter_append]
    have hmem : (⟨0, mkIncref i (Value.ptr n)⟩ : RefOp) ∈ (blockRefOps 0 A.insts).filter
        (fun ci => isNonNullFirstArg ci.inst && IsIncRef ci.inst) := by
      rw [List.mem_filter]
      exact ⟨mem_blockRefOps.mpr ⟨rfl, hiA, rfl⟩, rfl⟩
    obtain ⟨l1, d, l2, h1, h2, h3⟩ := exists_first_split
      (fun r => decide (r = (⟨0, mkIncref i (Value.ptr n)⟩ : RefOp))) _
      ⟨_, hmem, by simp⟩
    have hd : d = ⟨0, mkIncref i (Value.ptr n)⟩ := by simpa using h2
    subst hd
    refine ⟨l1, l2 ++ (refOpsFrom 1 [B, C]).filter
      (fun ci => isNonNullFirstArg ci.inst && IsIncRef ci.inst), ?_, ?_⟩
    · rw [hlist, h1]
      simp
    · intro r hr
      have hr1 : r ∈ (blockRefOps 0 A.insts).filter
          (fun ci => isNonNullFirstArg ci.inst && IsIncRef ci.inst) := by
        rw [h1]
        exact List.mem_append_left _ hr
      refine ⟨?_, ?_, ?_⟩
      · rw [hlist]
        exact List.mem_append_left _ hr1
      · exact (mem_blockRefOps.mp (List.mem_filter.mp hr1).1).1
      · have := h3 r hr
        simpa using this
  obtain ⟨pre, post, hsplit, hpre⟩ := hsplit0
  have hprearg : ∀ r ∈ pre, r.inst.arg ≠ Value.ptr n := by
    intro r hr
    apply hothers r (hincref_refOps r (hpre r hr).1) (hpre r hr).2.2
    intro h
    have := (hpre r hr).2.1
    rw [h] at this
    cases this
  -- the loop reaches the incref
  have hinitL : ∀ d', some d' ∈ (initState [A, B, C]).decrefs → d' ∈ decrefList [A, B, C] := by
    intro d' hd'
    simp only [initState, List.mem_map] at hd'
    obtain ⟨x, hx, hxe⟩ := hd'
    cases hxe
    exact hx
  have hreach : (visitState (fuel + 2) O [A, B, C] pre).2 = true := by
    apply outerLoop_completes_of
      (fun G => (∀ b, (blockAt G b).term = (blockAt [A, B, C] b).term) ∧
        ∀ b x, x ∈ (blockAt G b).insts → x ∈ (blockAt [A, B, C] b).insts)
      (decrefList [A, B, C]) hQstep pre _ hQ0 hinitL
    intro G hG r hr d' hd' _ _ _ hpar
    rw [(hpre r hr).2.1] at hpar ⊢
    rcases hDpar d' hd' with h | h
    · exact absurd h.symm hpar
    · rw [h, chain_walk_0_2 fuel hG.1 hG.2 hB hAs hBs]
      simp
  have hvis : (outerLoop (fuel + 2) O pre (initState [A, B, C])).1
      = (visitState (fuel + 2) O [A, B, C] pre).1 := rfl
  have hQm : (∀ b, (blockAt (visitState (fuel + 2) O [A, B, C] pre).1.F b).term
        = (blockAt [A, B, C] b).term) ∧
      ∀ b x, x ∈ (blockAt (visitState (fuel + 2) O [A, B, C] pre).1.F b).insts →
        x ∈ (blockAt [A, B, C] b).insts := by
    have hsh := outerLoop_shrinks hvis
    refine ⟨fun b => ?_, fun b x hx => ?_⟩
    · rw [(hsh b).2]
      exact hQ0.1 b
    · exact hQ0.2 b x ((hsh b).1 x hx)
  have hDm : some (⟨2, mkDecref k (Value.ptr n)⟩ : RefOp)
      ∈ (visitState (fuel + 2) O [A, B, C] pre).1.decrefs := by
    apply outerLoop_keeps_decref hvis
    · intro r hr
      exact hprearg r hr
    · simp only [initState, List.mem_map]
      exact ⟨_, hD, rfl⟩
  have hLm : ∀ d', some d' ∈ (visitState (fuel + 2) O [A, B, C] pre).1.decrefs →
      d' ∈ decrefList [A, B, C] :=
    fun d' hd' => hinitL d' (outerLoop_decrefs_shrink hvis d' hd')
  -- the visit of the incref
  obtain ⟨dpre, x, dpost, hds, hx, hdpre⟩ := exists_first_split
    (fun e => decide (e = some (⟨2, mkDecref k (Value.ptr n)⟩ : RefOp)))
    (visitState (fuel + 2) O [A, B, C] pre).1.decrefs ⟨_, hDm, by simp⟩
  have hxe : x = some ⟨2, mkDecref k (Value.ptr n)⟩ := by simpa using hx
  subst hxe
  have hE : Eligible (fuel + 2) O (visitState (fuel + 2) O [A, B, C] pre).1.F
      ⟨0, mkIncref i (Value.ptr n)⟩ ⟨2, mkDecref k (Value.ptr n)⟩ :=
    ⟨rfl, hdom, hpdom, fun _ => chain_walk_0_2 fuel hQm.1 hQm.2 hB hAs hBs⟩
  have hR : ∀ d', some d' ∈ dpre →
      Rejected (fuel + 2) O (visitState (fuel + 2) O [A, B, C] pre).1.F
        ⟨0, mkIncref i (Value.ptr n)⟩ d' := by
    intro d' hd'
    have hd'L : d' ∈ decrefList [A, B, C] := by
      apply hLm
      rw [hds]
      exact List.mem_append_left _ hd'
    have hne : d' ≠ ⟨2, mkDecref k (Value.ptr n)⟩ := by
      intro h
      have := hdpre (some d') hd'
      simp [h] at this
    have hne0 : d' ≠ ⟨0, mkIncref i (Value.ptr n)⟩ := by
      intro h
      have := (mem_decrefList.mp hd'L).2.2
      rw [h] at this
      cases this
    have := hothers d' (hdecref_refOps d' hd'L) hne0 hne
    exact Or.inl (fun h => this h.symm)
  obtain ⟨_, e, he, hei, hed, _, _⟩ := visit_of_first_eligible hsplit hreach hds hE hR
  have hrun : (outerLoop (fuel + 2) O (increfList [A, B, C]) (initState [A, B, C])).1
      = (run (fuel + 2) O [A, B, C]).1 := rfl
  have hgone := outerLoop_pruned_erased hrun rfl e he
  rw [hei, hed] at hgone
  have hmut : (run (fuel + 2) O [A, B, C]).1.mutated = true :=
    (run_mutated_iff (fuel + 2) O [A, B, C]).1.mpr (Or.inr (List.ne_nil_of_mem he))
  refine ⟨⟨e, he, hei, hed⟩, hgone.1, hgone.2, hmut, ?_, ?_⟩
  · intro F' changed hret
    obtain ⟨_, hF, hc⟩ := (runOnFunction_eq_some_iff _ _ _ _ _).mp hret
    rw [← hF, ← hc]
    exact ⟨hmut, hgone.1, hgone.2⟩
  · intro hterm
    have hcomp : (run (fuel + 2) O [A, B, C]).2 = true := by
      apply outerLoop_completes_of
        (fun G => (∀ b, (blockAt G b).term = (blockAt [A, B, C] b).term) ∧
          ∀ b x, x ∈ (blockAt G b).insts → x ∈ (blockAt [A, B, C] b).insts)
        (decrefList [A, B, C]) hQstep _ _ hQ0 hinitL
      intro G hG r hr d' hd' _ hdomr _ hpar
      have hrm := mem_increfList.mp hr
      have hdm := mem_decrefList.mp hd'
      rcases hDpar d' hd' with hd0 | hd2
      · -- the decref is in block 0
        rw [hd0] at hpar ⊢
        rcases hterm with hCs | hO
        · rcases chain_parent_lt hrm.1 with h0 | h1 | h2
          · exact absurd h0 hpar
          · rw [h1]
            exact chain_walk_1_0 fuel hG.1 hBs hCs
          · rw [h2, chain_walk_2 (fuel + 1) 0 hG.1 hCs]
            simp
        · exfalso
          obtain ⟨j1, hj1⟩ := List.mem_iff_get?.mp hrm.1
          obtain ⟨j2, hj2⟩ := List.mem_iff_get?.mp hdm.1
          have := (hO r.parent j1 r.inst d'.parent j2 d'.inst hj1 hj2).1.mp hdomr
          rcases this with ⟨h, _⟩ | ⟨_, h⟩
          · exact hpar (by rw [h, hd0])
          · rw [hd0] at h
            exact chain_not_dom_0 hpar h
      · -- the decref is in block 2
        rw [hd2] at hpar ⊢
        rcases chain_parent_lt hrm.1 with h0 | h1 | h2
        · rw [h0, chain_walk_0_2 fuel hG.1 hG.2 hB hAs hBs]
          simp
        · rw [h1, chain_walk_1_2 (fuel + 1) hG.1 hBs]
          simp
        · exact absurd h2 hpar
    refine ⟨(run (fuel + 2) O [A, B, C]).1.F, ?_, hgone.1, hgone.2⟩
    simp only [RefPrunePass.runOnFunction, hcomp, if_true, hmut]

/-- C8 (amended) on `wideChain`, whose blocks 0 and 2 hold refops on other
pointers next to the pair on `p`. -/
theorem C8_safe_cross_block_accepted_witness :
    ∃ F', RefPrunePass.runOnFunction 2 orderOracle wideChain = some (F', true) ∧
      mkIncref 0 (Value.ptr 7) ∉ (blockAt F' 0).insts ∧
      mkDecref 2 (Value.ptr 7) ∉ (blockAt F' 2).insts :=
  (C8_safe_cross_block_accepted 0 orderOracle _ _ _ 0 2 7
    (by decide) (by decide) (by decide) (by decide) (by decide) (by decide) (by decide)
    (by decide)).2.2.2.2.2 (Or.inl rfl)

end RefPrune
